import Mathlib

/-!
# Price editor (`scripts/price-editor/main.go`)

A shallow embedding of the interactive price editor: the catalog of priced
entries, the two-stage selection / percentage state machine (`Update`,
`updateSelect`, `updateInput`, `applyIncrease`) and the serializer
(`roundTwo`, `formatFloat`, `buildOutput`).

Layout of the development:

* `Float64`: the `float64` values the program computes with, by their IEEE 754
  bit fields, with the correctly rounded operations of the language (`*`, `+`,
  `/`, `<`) and of `strconv` / `fmt` (`ParseFloat`, `FormatFloat`, `%.2f`);
* `SelMap`: the `map[int]bool` holding the selection;
* `TextInput`: the text-entry widget of the UI library, taken as a parameter;
* the model and its transition functions, then the theorems: the state
  machine first, then the numbers (`ofRatio` rounds correctly, `roundTwo`,
  percentages, the shortest format).
-/

namespace PriceEditor

/-! ## float64 -/

/-- A `float64` by its three IEEE 754 binary64 fields: the sign bit, the biased
exponent field (11 bits) and the fraction field (52 bits). -/
structure Float64 where
  sign : Bool
  expo : Nat
  frac : Nat
  deriving DecidableEq, Repr

namespace Float64

/-- Not-a-number: exponent field all ones, fraction non-zero. -/
def isNaN (x : Float64) : Bool := decide (2047 ≤ x.expo) && decide (x.frac ≠ 0)

/-- Infinity: exponent field all ones, fraction zero. -/
def isInf (x : Float64) : Bool := decide (2047 ≤ x.expo) && decide (x.frac = 0)

/-- Positive or negative zero. -/
def isZero (x : Float64) : Bool := decide (x.expo = 0) && decide (x.frac = 0)

/-- The quiet NaN. Payloads are not told apart: this one value stands for every
NaN the operations and the parser produce. -/
def nan : Float64 := ⟨false, 2047, 2 ^ 51⟩

/-- Signed infinity. -/
def inf (neg : Bool) : Float64 := ⟨neg, 2047, 0⟩

/-- Signed zero. -/
def zero (neg : Bool) : Float64 := ⟨neg, 0, 0⟩

/-- Integer significand of a finite value: the value is `mant * 2 ^ exp2`. -/
def mant (x : Float64) : Nat := if x.expo = 0 then x.frac else 2 ^ 52 + x.frac

/-- Binary exponent of a finite value: the value is `mant * 2 ^ exp2`. -/
def exp2 (x : Float64) : Int := (if x.expo = 0 then 1 else (x.expo : Int)) - 1075

/-- Number of binary digits of `n`, by halving at most `fuel` times. -/
def bitLength : Nat → Nat → Nat
  | 0, _ => 0
  | fuel + 1, n => if n = 0 then 0 else bitLength fuel (n / 2) + 1

/-- Round the exact non-negative rational `num / den` (`den > 0`) to the nearest
`float64`, ties to even, with the given sign; magnitudes that round to `2 ^ 1024`
or more give infinity. -/
def ofRatio (neg : Bool) (num den : Nat) : Float64 :=
  if num = 0 then zero neg else
    let k : Int := (bitLength num num : Int) - (bitLength den den : Int)
    let e0 : Int := max (k - 53) (-1074)
    let q0 := (num * 2 ^ (-e0).toNat) / (den * 2 ^ e0.toNat)
    let e : Int := if 2 ^ 53 ≤ q0 then e0 + 1 else e0
    let n := num * 2 ^ (-e).toNat
    let d := den * 2 ^ e.toNat
    let q := n / d
    let r := n % d
    let q1 := if d < 2 * r ∨ (2 * r = d ∧ q % 2 = 1) then q + 1 else q
    let bits := (e + 1074).toNat * 2 ^ 52 + q1
    if 2047 * 2 ^ 52 ≤ bits then inf neg else ⟨neg, bits / 2 ^ 52, bits % 2 ^ 52⟩

/-- Round `num * 2 ^ e` to the nearest `float64`. -/
def ofScaled (neg : Bool) (num : Nat) (e : Int) : Float64 :=
  ofRatio neg (num * 2 ^ e.toNat) (2 ^ (-e).toNat)

/-- The `float64` of a natural number constant. -/
def ofNat (n : Nat) : Float64 := ofRatio false n 1

/-- The product `x * y`. -/
def mul (x y : Float64) : Float64 :=
  if x.isNaN || y.isNaN then nan
  else if x.isInf || y.isInf then
    if x.isZero || y.isZero then nan else inf (xor x.sign y.sign)
  else ofScaled (xor x.sign y.sign) (x.mant * y.mant) (x.exp2 + y.exp2)

/-- The quotient `x / y`. -/
def div (x y : Float64) : Float64 :=
  if x.isNaN || y.isNaN then nan
  else if x.isInf then (if y.isInf then nan else inf (xor x.sign y.sign))
  else if y.isInf then zero (xor x.sign y.sign)
  else if y.isZero then (if x.isZero then nan else inf (xor x.sign y.sign))
  else
    let e : Int := x.exp2 - y.exp2
    ofRatio (xor x.sign y.sign) (x.mant * 2 ^ e.toNat) (y.mant * 2 ^ (-e).toNat)

/-- The sum `x + y`. -/
def add (x y : Float64) : Float64 :=
  if x.isNaN || y.isNaN then nan
  else if x.isInf then (if y.isInf && (x.sign != y.sign) then nan else x)
  else if y.isInf then y
  else
    let e : Int := min x.exp2 y.exp2
    let a : Int := (if x.sign then -1 else 1) * (x.mant * 2 ^ (x.exp2 - e).toNat : Nat)
    let b : Int := (if y.sign then -1 else 1) * (y.mant * 2 ^ (y.exp2 - e).toNat : Nat)
    let s : Int := a + b
    if s = 0 then zero (x.sign && y.sign)
    else ofScaled (decide (s < 0)) s.natAbs e

/-- Position of a non-NaN value in the order of the extended reals, both zeros
at `0`. -/
def key (x : Float64) : Int :=
  let m : Int := (x.expo * 2 ^ 52 + x.frac : Nat)
  if x.sign then -m else m

/-- The comparison `x < y`: false when either side is NaN. -/
def lt (x y : Float64) : Bool := !x.isNaN && !y.isNaN && decide (x.key < y.key)

/-- The comparison `x <= y`: false when either side is NaN. -/
def le (x y : Float64) : Bool := !x.isNaN && !y.isNaN && decide (x.key ≤ y.key)

end Float64

/-! ## strconv and fmt

`strconv.ParseFloat(s, 64)`, `fmt.Sprintf("%.2f", f)` and
`strconv.FormatFloat(f, 'f', -1, 64)`, all of which convert exactly: parsing
rounds the exact decimal (or hexadecimal) value to the nearest `float64`, ties
to even; `%.2f` rounds the exact binary value to two decimals, ties to even;
the shortest format prints the decimal with the fewest digits that parses back
to the same `float64`. -/

namespace Strconv

/-- ASCII lower-casing, `c | ('x' - 'X')`. -/
def lower (c : Char) : Char := Char.ofNat (c.toNat ||| 32)

/-- A decimal digit `'0'..'9'`. -/
def isDigit (c : Char) : Bool := decide ('0' ≤ c) && decide (c ≤ '9')

/-- Length of the common prefix of `s` and the lower-case `pre`, ignoring the
case of ASCII letters in `s`. -/
def commonPrefixLenIgnoreCase : List Char → List Char → Nat
  | c :: s, p :: pre =>
    let c1 := if 'A' ≤ c ∧ c ≤ 'Z' then Char.ofNat (c.toNat + 32) else c
    if c1 = p then commonPrefixLenIgnoreCase s pre + 1 else 0
  | _, _ => 0

/-- The special values: an optionally signed `inf` / `infinity`, or `nan`.
Returns the value and the unread rest of the text. -/
def special (s : List Char) : Option (Float64 × List Char) :=
  let infinity (neg : Bool) (t : List Char) : Option (Float64 × List Char) :=
    let n := commonPrefixLenIgnoreCase t "infinity".data
    let n := if 3 < n ∧ n < 8 then 3 else n
    if n = 3 ∨ n = 8 then some (Float64.inf neg, t.drop n) else none
  match s with
  | [] => none
  | c :: r =>
    if c = '+' then infinity false r
    else if c = '-' then infinity true r
    else if c = 'i' ∨ c = 'I' then infinity false s
    else if c = 'n' ∨ c = 'N' then
      (if commonPrefixLenIgnoreCase s "nan".data = 3 then some (Float64.nan, s.drop 3) else none)
    else none

/-- What the mantissa scan of `readFloat` has seen so far: every digit read,
as one number in the base; how many of them came after the point; the flags. -/
structure Mantissa where
  digits : Nat := 0
  fracDigits : Nat := 0
  sawdot : Bool := false
  sawdigits : Bool := false
  underscores : Bool := false

/-- Append one digit of value `v` in base `base`. -/
def Mantissa.push (d : Mantissa) (base v : Nat) : Mantissa :=
  { d with
    digits := d.digits * base + v
    fracDigits := if d.sawdot then d.fracDigits + 1 else d.fracDigits
    sawdigits := true }

/-- The mantissa loop of `readFloat`: digits, underscores and at most one point.
Returns what was read and the unread rest. -/
def readMantissa (hex : Bool) : List Char → Mantissa → Mantissa × List Char
  | [], d => (d, [])
  | c :: r, d =>
    if c = '_' then readMantissa hex r { d with underscores := true }
    else if c = '.' then
      if d.sawdot then (d, c :: r) else readMantissa hex r { d with sawdot := true }
    else if isDigit c then
      readMantissa hex r (d.push (if hex then 16 else 10) (c.toNat - '0'.toNat))
    else if hex && decide ('a' ≤ lower c) && decide (lower c ≤ 'f') then
      readMantissa hex r (d.push 16 ((lower c).toNat - 'a'.toNat + 10))
    else (d, c :: r)

/-- The digits of an exponent, the accumulated value no longer growing once it
has reached 10000. Returns the value, whether an underscore was seen, and the
unread rest. -/
def readExpDigits : List Char → Nat → Bool → Nat × Bool × List Char
  | [], e, u => (e, u, [])
  | c :: r, e, u =>
    if isDigit c then
      readExpDigits r (if e < 10000 then e * 10 + (c.toNat - '0'.toNat) else e) u
    else if c = '_' then readExpDigits r e true
    else (e, u, c :: r)

/-- The optional exponent of `readFloat`, introduced by `expChar`; mandatory
for a hexadecimal mantissa. Returns the signed exponent, whether an underscore
was seen and the unread rest, or `none` for a malformed exponent. -/
def readExponent (hex : Bool) (s : List Char) : Option (Int × Bool × List Char) :=
  let digits (neg : Bool) (t : List Char) : Option (Int × Bool × List Char) :=
    match t with
    | [] => none
    | c :: _ =>
      if isDigit c then
        let (e, u, rest) := readExpDigits t 0 false
        some (if neg then -(e : Int) else (e : Int), u, rest)
      else none
  match s with
  | c :: r =>
    if lower c = (if hex then 'p' else 'e') then
      match r with
      | [] => none
      | '+' :: t => digits false t
      | '-' :: t => digits true t
      | _ => digits false r
    else if hex then none else some (0, false, s)
  | [] => if hex then none else some (0, false, s)

/-- Whether the underscores of a number are placed as allowed: only between
digits, or between a base prefix and a digit. -/
def underscoreOK (s : List Char) : Bool :=
  let s := match s with
    | '-' :: r => r
    | '+' :: r => r
    | _ => s
  let pre : Bool := match s with
    | '0' :: c :: _ => lower c = 'b' || lower c = 'o' || lower c = 'x'
    | _ => false
  let hex : Bool := match s with
    | '0' :: c :: _ => lower c = 'x'
    | _ => false
  let rec go : List Char → Char → Bool
    | [], saw => saw != '_'
    | c :: r, saw =>
      if isDigit c || (hex && decide ('a' ≤ lower c) && decide (lower c ≤ 'f')) then go r '0'
      else if c = '_' then (if saw != '0' then false else go r '_')
      else if saw = '_' then false
      else go r '!'
  if pre then go (s.drop 2) '0' else go s '^'

/-- The number syntax of `readFloat`: optional sign, optional `0x`, mantissa,
exponent. Returns the sign, whether the number is hexadecimal, the mantissa,
the exponent and the unread rest, or `none` where `readFloat` reports failure. -/
def readFloat (s : List Char) : Option (Bool × Bool × Mantissa × Int × List Char) :=
  match s with
  | [] => none
  | c0 :: r0 =>
    let neg := decide (c0 = '-')
    let s1 := if c0 = '+' ∨ c0 = '-' then r0 else s
    let hex : Bool := match s1 with
      | '0' :: x :: _ :: _ => lower x = 'x'
      | _ => false
    let s2 := if hex then s1.drop 2 else s1
    let (m, s3) := readMantissa hex s2 {}
    if !m.sawdigits then none
    else
      match readExponent hex s3 with
      | none => none
      | some (e, u, rest) =>
        if (m.underscores || u) && !underscoreOK (s.take (s.length - rest.length)) then none
        else some (neg, hex, m, e, rest)

/-- The pair `strconv.ParseFloat(s, 64)` returns: the value, and whether the
error is non-nil. A syntax error comes with the value `0`; a range error, for
a magnitude that rounds to infinity, comes with that infinity. -/
def ParseFloat (s : String) : Float64 × Bool :=
  match special s.data with
  | some (v, rest) => if rest.isEmpty then (v, false) else (Float64.zero false, true)
  | none =>
    match readFloat s.data with
    | none => (Float64.zero false, true)
    | some (neg, hex, m, e, rest) =>
      if !rest.isEmpty then (Float64.zero false, true)
      else
        let v : Float64 :=
          if hex then Float64.ofScaled neg m.digits (e - 4 * (m.fracDigits : Int))
          else
            let x : Int := e - (m.fracDigits : Int)
            Float64.ofRatio neg (m.digits * 10 ^ x.toNat) (10 ^ (-x).toNat)
        (v, v.isInf)

/-- The decimal digits of `n`, at least `width` of them (zero padded). -/
def padDigits (width n : Nat) : List Char :=
  let ds := Nat.toDigits 10 n
  List.replicate (width - ds.length) '0' ++ ds

/-- The text of `fmt.Sprintf("%.2f", f)`: the exact value rounded to two
decimals, ties to even. -/
def Sprintf2f (f : Float64) : String :=
  if f.isNaN then "NaN"
  else if f.isInf then (if f.sign then "-Inf" else "+Inf")
  else
    let n := f.mant * 100 * 2 ^ f.exp2.toNat
    let d := 2 ^ (-f.exp2).toNat
    let q := n / d
    let r := n % d
    let q1 := if d < 2 * r ∨ (2 * r = d ∧ q % 2 = 1) then q + 1 else q
    String.mk ((if f.sign then ['-'] else []) ++ Nat.toDigits 10 (q1 / 100) ++ ['.']
      ++ padDigits 2 (q1 % 100))

/-- The search of the shortest format. The value is `x / d`, every decimal in
`[lo / d, hi / d]` (ends included when `incl`) parses back to it. Positions
`10 ^ p` are tried from the high end; at the first where the value cut at that
position, or that plus one unit, lies in the interval, the nearer of the eligible
ones is returned as `(c, p)`, standing for `c * 10 ^ p`. -/
def shortestSearch (x lo hi d : Nat) (incl : Bool) : Nat → Int → Nat × Int
  | 0, p => (x / d, p)
  | fuel + 1, p =>
    let s := 10 ^ (-p).toNat
    let u := 10 ^ p.toNat * d
    let q := (x * s) / u
    let okdown := decide (lo * s < q * u) || (incl && decide (lo * s = q * u))
    let okup := decide ((q + 1) * u < hi * s) || (incl && decide ((q + 1) * u = hi * s))
    let up := decide ((2 * q + 1) * u < 2 * x * s) ||
      (decide ((2 * q + 1) * u = 2 * x * s) && decide (q % 2 = 1))
    if okdown && okup then (if up then (q + 1, p) else (q, p))
    else if okdown then (q, p)
    else if okup then (q + 1, p)
    else shortestSearch x lo hi d incl fuel (p - 1)

/-- Drop the trailing zeros of `c` that stand after the decimal point. -/
def stripZeros : Nat → Nat → Int → Nat × Int
  | 0, c, p => (c, p)
  | fuel + 1, c, p => if p < 0 ∧ c % 10 = 0 then stripZeros fuel (c / 10) (p + 1) else (c, p)

/-- The text of `strconv.FormatFloat(f, 'f', -1, 64)`: the shortest decimal that
parses back to `f`, written without an exponent. -/
def FormatFloat (f : Float64) : String :=
  if f.isNaN then "NaN"
  else if f.isInf then (if f.sign then "-Inf" else "+Inf")
  else if f.isZero then (if f.sign then "-0" else "0")
  else
    let m := f.mant
    let up := 2 ^ f.exp2.toNat
    let d := 4 * 2 ^ (-f.exp2).toNat
    let below := if f.frac = 0 ∧ 1 < f.expo then 1 else 2
    let p0 : Int := (Nat.toDigits 10 (m * up / 2 ^ (-f.exp2).toNat)).length + 1
    let (c, p) := shortestSearch (4 * m * up) ((4 * m - below) * up) ((4 * m + 2) * up) d
      (decide (m % 2 = 0)) (p0.toNat + 1100) p0
    let (c, p) := stripZeros (-p).toNat c p
    let sign := if f.sign then ['-'] else []
    if 0 ≤ p then String.mk (sign ++ Nat.toDigits 10 (c * 10 ^ p.toNat))
    else
      let w := 10 ^ (-p).toNat
      String.mk (sign ++ Nat.toDigits 10 (c / w) ++ ['.'] ++ padDigits (-p).toNat (c % w))

end Strconv

/-- Whether `unicode.IsSpace` holds of the character. -/
def isSpace (c : Char) : Bool :=
  let n := c.toNat
  (9 ≤ n && n ≤ 13) || n = 32 || n = 0x85 || n = 0xA0 || n = 0x1680 ||
    (0x2000 ≤ n && n ≤ 0x200A) || n = 0x2028 || n = 0x2029 || n = 0x202F ||
    n = 0x205F || n = 0x3000

/-- Counterpart of `strings.TrimSpace`: the text without its leading and trailing
white space. -/
def TrimSpace (s : String) : String :=
  String.mk ((s.data.dropWhile isSpace).reverse.dropWhile isSpace).reverse

/-! ## Data -/

/-- One priced line item. -/
structure PriceEntry where
  Key : String
  Value : Float64
  deriving DecidableEq, Repr

/-- The `float64` of a positive decimal constant written `n / 10 ^ k`. -/
def lit (n k : Nat) : Float64 := Float64.ofRatio false n (10 ^ k)

/-- The built-in table. -/
def defaultPrices : List PriceEntry :=
  [ ⟨"XL_UPPER_WINDOW", lit 2364 2⟩,
    ⟨"L_UPPER_WINDOW", lit 1606 2⟩,
    ⟨"M_UPPER_WINDOW", lit 859 2⟩,
    ⟨"S_UPPER_WINDOW", lit 685 2⟩,
    ⟨"XS_UPPER_WINDOW", lit 356 2⟩,
    ⟨"XL_LOWER_WINDOW", lit 1798 2⟩,
    ⟨"L_LOWER_WINDOW", lit 1143 2⟩,
    ⟨"M_LOWER_WINDOW", lit 649 2⟩,
    ⟨"S_LOWER_WINDOW", lit 431 2⟩,
    ⟨"XS_LOWER_WINDOW", lit 254 2⟩,
    ⟨"EXTERIOR_HALF_SCREEN", lit 272 2⟩,
    ⟨"WHOLE_INTERIOR_SCREEN", lit 312 2⟩,
    ⟨"EXTERIOR_HALF_SCREEN_INTERIOR", lit 40 1⟩,
    ⟨"SOLAR_SCREEN", lit 556 2⟩,
    ⟨"SCREW_SOLAR_SCREEN", lit 80 1⟩,
    ⟨"UPPER_WOODEN_SCREEN", lit 140 1⟩,
    ⟨"LOWER_WOODEN_SCREEN", lit 70 1⟩,
    ⟨"FIRST_STORY_GUTTER", lit 10 1⟩,
    ⟨"SECOND_STORY_GUTTER", lit 20 1⟩ ]

/-! ## The selection map -/

/-- A `map[int]bool`: the keys present, each with its value, no key twice. -/
abbrev SelMap := List (Int × Bool)

namespace SelMap

/-- The read `m[k]`: the stored value, `false` for an absent key. -/
def get : SelMap → Int → Bool
  | [], _ => false
  | (k1, v) :: r, k => if k1 = k then v else get r k

/-- The write `m[k] = v`: replaces the value of a present key, adds an absent one. -/
def set : SelMap → Int → Bool → SelMap
  | [], k, v => [(k, v)]
  | (k1, v1) :: r, k, v => if k1 = k then (k, v) :: r else (k1, v1) :: set r k v

/-- The number of keys, `len(m)`. -/
def len (s : SelMap) : Nat := s.length

/-- The keys present. -/
def keys (s : SelMap) : List Int := s.map Prod.fst

/-- How many keys hold `true`. -/
def countTrue (s : SelMap) : Nat := (s.filter (fun kv => kv.2)).length

end SelMap

/-! ## Messages, commands, the text input -/

/-- A message of the host loop: a resize, a key (by the text `msg.String()`
gives, the only view of it the editor takes), or any other message, which only
the text input looks at. -/
inductive Msg where
  | WindowSizeMsg (Width Height : Int)
  | KeyMsg (s : String)
  | other (tag : Nat)
  deriving DecidableEq, Repr

/-- A command handed back to the host loop: `tea.Quit`, or one of the text
input. The nil command is `none`. -/
inductive Cmd where
  | Quit
  | other (tag : Nat)
  deriving DecidableEq, Repr

/-- The text-entry widget of the UI library, over its state type `τ`: the widget
as `initialModel` configures it, its `Value`, `SetValue` and `Update`. Setting
the empty text leaves the empty text. -/
structure TextInput (τ : Type) where
  new : τ
  Value : τ → String
  SetValue : τ → String → τ
  Update : τ → Msg → τ × Option Cmd
  value_setValue_empty : ∀ t, Value (SetValue t "") = ""

/-- A plain line editor as text input, holding at most ten characters: a key of
one character is appended, `backspace` removes the last character. -/
def lineInput : TextInput String where
  new := ""
  Value := fun t => t
  SetValue := fun _ s => String.mk (s.data.take 10)
  Update := fun t msg =>
    match msg with
    | .KeyMsg k =>
      if k = "backspace" then (String.mk t.data.dropLast, none)
      else if k.length = 1 ∧ t.length < 10 then (t ++ k, none)
      else (t, none)
    | _ => (t, none)
  value_setValue_empty := fun _ => rfl

/-! ## Model -/

/-- The two stages of the workflow. -/
inductive stage where
  | stageSelect
  | stageInput
  deriving DecidableEq, Repr

open stage

/-- The editor state, over the state type `τ` of the text input. -/
structure model (τ : Type) where
  prices : List PriceEntry
  selected : SelMap
  cursor : Int
  stage : stage
  input : τ
  inputErr : String
  width : Int
  height : Int
  done : Bool

variable {τ : Type}

/-- The state at startup. -/
def initialModel (ti : TextInput τ) : model τ :=
  { prices := defaultPrices
    selected := []
    cursor := 0
    stage := stageSelect
    input := ti.new
    inputErr := ""
    width := 0
    height := 0
    done := false }

/-! ## Helpers -/

/-- Round to two decimals by formatting with `%.2f` and parsing the text back,
the error of the parse ignored. -/
def roundTwo (f : Float64) : Float64 :=
  (Strconv.ParseFloat (Strconv.Sprintf2f f)).1

/-- The shortest text of the value, with `.0` appended when it has no point. -/
def formatFloat (f : Float64) : String :=
  let s := Strconv.FormatFloat f
  if !s.data.contains '.' then s ++ ".0" else s

/-- The line `buildOutput` writes for one entry. -/
def entryLine (p : PriceEntry) : String :=
  "  " ++ p.Key ++ ": " ++ formatFloat p.Value ++ ",\n"

/-- The text of the generated file: the builder starts with the header, gets
one line per entry in order, then the closing line. -/
def buildOutput (prices : List PriceEntry) : String :=
  let sb := "export const PRICES = \x7b\n"
  let sb := prices.foldl (fun sb p => sb ++ entryLine p) sb
  sb ++ "\x7d;\n"

/-! ## Update -/

/-- Multiply the value of every selected entry by `1 + pct / 100` and round it
to two decimals, walking the indices of the catalog in order. -/
def applyIncrease (m : model τ) (pct : Float64) : model τ :=
  let multiplier := Float64.add (Float64.ofNat 1) (Float64.div pct (Float64.ofNat 100))
  { m with
    prices := (List.range m.prices.length).foldl
      (fun ps (i : Nat) =>
        if m.selected.get (Int.ofNat i) then
          ps.modify (fun e => { e with Value := roundTwo (Float64.mul e.Value multiplier) }) i
        else ps)
      m.prices }

/-- The transition of the selection stage. -/
def updateSelect (m : model τ) (msg : Msg) : model τ × Option Cmd :=
  match msg with
  | .WindowSizeMsg w h => ({ m with width := w, height := h }, none)
  | .KeyMsg s =>
    if s = "ctrl+c" ∨ s = "q" then (m, some Cmd.Quit)
    else if s = "up" ∨ s = "k" then
      (if m.cursor > 0 then { m with cursor := m.cursor - 1 } else m, none)
    else if s = "down" ∨ s = "j" then
      (if m.cursor < (m.prices.length : Int) - 1 then { m with cursor := m.cursor + 1 } else m,
        none)
    else if s = "g" then ({ m with cursor := 0 }, none)
    else if s = "G" then ({ m with cursor := (m.prices.length : Int) - 1 }, none)
    else if s = " " ∨ s = "x" then
      ({ m with selected := m.selected.set m.cursor (!m.selected.get m.cursor) }, none)
    else if s = "a" then
      (if m.selected.len = m.prices.length then { m with selected := [] }
        else
          { m with
            selected := (List.range m.prices.length).foldl
              (fun sel (i : Nat) => sel.set (Int.ofNat i) true) m.selected },
        none)
    else if s = "enter" then
      (if m.selected.len > 0 then { m with stage := stageInput, inputErr := "" } else m, none)
    else (m, none)
  | .other _ => (m, none)

/-- The transition of the percentage stage. -/
def updateInput (ti : TextInput τ) (m : model τ) (msg : Msg) : model τ × Option Cmd :=
  let delegate : model τ × Option Cmd :=
    let r := ti.Update m.input msg
    ({ m with input := r.1 }, r.2)
  match msg with
  | .KeyMsg s =>
    if s = "ctrl+c" then (m, some Cmd.Quit)
    else if s = "esc" then
      ({ m with stage := stageSelect, input := ti.SetValue m.input "", inputErr := "" }, none)
    else if s = "enter" then
      let r := Strconv.ParseFloat (TrimSpace (ti.Value m.input))
      if r.2 ∨ Float64.lt r.1 (Float64.ofNat 0) then
        ({ m with inputErr := "Please enter a valid positive number." }, none)
      else ({ applyIncrease m r.1 with done := true }, some Cmd.Quit)
    else delegate
  | _ => delegate

/-- The transition function: by stage. -/
def Update (ti : TextInput τ) (m : model τ) (msg : Msg) : model τ × Option Cmd :=
  match m.stage with
  | stageSelect => updateSelect m msg
  | stageInput => updateInput ti m msg

/-- The state after a sequence of messages, each fully processed before the
next. The host loop stops reading some time after a `Quit` command; the states
of every actual session are those of a sequence cut short. -/
def run (ti : TextInput τ) (m : model τ) : List Msg → model τ
  | [] => m
  | e :: es => run ti (Update ti m e).1 es

/-- Every state along the way of `run`, the first one included. -/
def trace (ti : TextInput τ) (m : model τ) : List Msg → List (model τ)
  | [] => [m]
  | e :: es => m :: trace ti (Update ti m e).1 es

/-- The enter event that is accepted in the percentage stage: the pending text
parses, without error, to a value that is not below zero. -/
def accepts (ti : TextInput τ) (m : model τ) (msg : Msg) : Bool :=
  m.stage = stageInput && msg = Msg.KeyMsg "enter" &&
    !(Strconv.ParseFloat (TrimSpace (ti.Value m.input))).2 &&
    !Float64.lt (Strconv.ParseFloat (TrimSpace (ti.Value m.input))).1 (Float64.ofNat 0)

/-- No message of the sequence, met in the state it is applied to, is an
accepted enter. -/
def noAccept (ti : TextInput τ) (m : model τ) : List Msg → Prop
  | [] => True
  | e :: es => accepts ti m e = false ∧ noAccept ti (Update ti m e).1 es

/-- What `main` writes to `outputPath` once the loop has ended in state `m`:
nothing unless `done` is set. -/
def written (m : model τ) : Option String :=
  if !m.done then none else some (buildOutput m.prices)

/-! ## Predicates of the statements -/

/-- The enter event of the percentage stage on a pending text that parses,
without error, to a number at or above zero. -/
def entersNumber (ti : TextInput τ) (m : model τ) (msg : Msg) : Bool :=
  m.stage = stageInput && msg = Msg.KeyMsg "enter" &&
    !(Strconv.ParseFloat (TrimSpace (ti.Value m.input))).2 &&
    Float64.le (Float64.ofNat 0) (Strconv.ParseFloat (TrimSpace (ti.Value m.input))).1

/-- No message of the sequence, met in the state it is applied to, is an enter
on a number at or above zero. -/
def noNumberEntered (ti : TextInput τ) (m : model τ) : List Msg → Prop
  | [] => True
  | e :: es => entersNumber ti m e = false ∧ noNumberEntered ti (Update ti m e).1 es

/-- The catalog is non-empty, the cursor and every key of the selection lie
within `[0, len - 1]`. -/
def inRange (m : model τ) : Prop :=
  0 < m.prices.length ∧
  (0 ≤ m.cursor ∧ m.cursor ≤ (m.prices.length : Int) - 1) ∧
  ∀ k ∈ m.selected.keys, 0 ≤ k ∧ k ≤ (m.prices.length : Int) - 1

/-- The selection with every index of the built-in table set. -/
def fullSelection : SelMap :=
  [(0, true), (1, true), (2, true), (3, true), (4, true), (5, true), (6, true),
    (7, true), (8, true), (9, true), (10, true), (11, true), (12, true), (13, true),
    (14, true), (15, true), (16, true), (17, true), (18, true)]

/-- The lines of the document as the specification lists them, without their
line ends: the header, one line `  key: value,` per entry in catalog order, the
closing line. -/
def documentLines (prices : List PriceEntry) : List String :=
  "export const PRICES = \x7b" ::
    (prices.map (fun p => "  " ++ p.Key ++ ": " ++ formatFloat p.Value ++ ",") ++ ["\x7d;"])

/-- The messages of a session that selects the first entry and types `nan` as
the percentage. -/
def nanSession : List Msg :=
  [Msg.KeyMsg " ", Msg.KeyMsg "enter", Msg.KeyMsg "n", Msg.KeyMsg "a", Msg.KeyMsg "n",
    Msg.KeyMsg "enter"]

/-! ## View -/

/-- The `Render` functions of the styles of the program, taken as parameters:
each turns a text into its styled form. -/
structure Styles where
  titleStyle : String → String
  cursorLineStyle : String → String
  checkStyle : String → String
  uncheckStyle : String → String
  helpStyle : String → String
  inputStyle : String → String
  errorStyle : String → String

/-- No styling at all: every `Render` returns its text. -/
def plainStyles : Styles where
  titleStyle := fun s => s
  cursorLineStyle := fun s => s
  checkStyle := fun s => s
  uncheckStyle := fun s => s
  helpStyle := fun s => s
  inputStyle := fun s => s
  errorStyle := fun s => s

/-- The text of `fmt.Sprintf("$%.2f", v)`. -/
def priceText (v : Float64) : String := "$" ++ Strconv.Sprintf2f v

/-- The text of `fmt.Sprintf("%-32s", key)`: the key, padded on the right with
spaces to 32 characters; a longer key is left as it is. -/
def leftSide (key : String) : String :=
  key ++ String.mk (List.replicate (32 - key.length) ' ')

/-- Counterpart of `strings.Repeat(" ", n)`: `n` spaces, or `none` where the
library panics, on a negative count. -/
def repeatSpace (n : Int) : Option String :=
  if n < 0 then none else some (String.mk (List.replicate n.toNat ' '))

/-- The unstyled text of the line of one entry in `viewSelect`: marker, space,
padded key, padding, price; `none` where computing the padding panics. -/
def plainLine (isSelected : Bool) (p : PriceEntry) : Option String :=
  match repeatSpace (20 - ((priceText p.Value).utf8ByteSize : Int)) with
  | none => none
  | some padding =>
    some ((if isSelected then "●" else "○") ++ " " ++ leftSide p.Key ++ padding
      ++ priceText p.Value)

/-- The line of one entry as `viewSelect` writes it, without the line end: the
cursor line is the unstyled text rendered with the cursor style, any other line
has its marker rendered with the check or uncheck style. -/
def selectLine (sty : Styles) (isCursor isSelected : Bool) (p : PriceEntry) : Option String :=
  match repeatSpace (20 - ((priceText p.Value).utf8ByteSize : Int)) with
  | none => none
  | some padding =>
    if isCursor then
      (plainLine isSelected p).map sty.cursorLineStyle
    else
      some ((if isSelected then sty.checkStyle "●" else sty.uncheckStyle "○") ++ " "
        ++ leftSide p.Key ++ padding ++ priceText p.Value)

/-- The loop of `viewSelect` over the entries from index `i` on, appending to
the builder `sb`. -/
def viewSelectLoop (sty : Styles) (m : model τ) : List PriceEntry → Nat → String → Option String
  | [], _, sb => some sb
  | p :: ps, i, sb =>
    match selectLine sty (decide ((i : Int) = m.cursor)) (m.selected.get (Int.ofNat i)) p with
    | none => none
    | some line => viewSelectLoop sty m ps (i + 1) (sb ++ line ++ "\n")

/-- The selection view. -/
def viewSelect (sty : Styles) (m : model τ) : Option String :=
  match viewSelectLoop sty m m.prices 0 (sty.titleStyle "Price Editor" ++ "\n") with
  | none => none
  | some sb =>
    some (sb ++ sty.helpStyle
      "↑/k up  ↓/j down  g/G top/bottom  space/x toggle  a all  enter confirm  q quit")

/-- The line of the input view that counts the selection,
`fmt.Sprintf("%d item(s) selected\n", len(m.selected))`. -/
def countLine (m : model τ) : String :=
  String.mk (Nat.toDigits 10 m.selected.len) ++ " item(s) selected\n"

/-- The input view; `view` is the `View` of the text input. -/
def viewInput (sty : Styles) (view : τ → String) (m : model τ) : String :=
  let sb := sty.titleStyle "Apply Percentage Increase" ++ "\n"
  let sb := sb ++ countLine m
  let sb := sb ++ (sty.inputStyle (view m.input) ++ "\n")
  let sb := if m.inputErr ≠ "" then sb ++ (sty.errorStyle m.inputErr ++ "\n") else sb
  sb ++ sty.helpStyle "enter confirm  esc back  ctrl+c quit"

/-! ## Sessions and catalogs of the statements -/

/-- The catalog `[A:10.00, B:20.00, C:5.00]`. -/
def abcPrices : List PriceEntry :=
  [⟨"A", lit 1000 2⟩, ⟨"B", lit 2000 2⟩, ⟨"C", lit 500 2⟩]

/-- The catalog `[A:11.00, B:22.00, C:5.00]`. -/
def abcIncreased : List PriceEntry :=
  [⟨"A", lit 1100 2⟩, ⟨"B", lit 2200 2⟩, ⟨"C", lit 500 2⟩]

/-- Toggle, down, toggle, enter, then `1`, `0`, enter. -/
def abcSession : List Msg :=
  [Msg.KeyMsg " ", Msg.KeyMsg "down", Msg.KeyMsg " ", Msg.KeyMsg "enter", Msg.KeyMsg "1",
    Msg.KeyMsg "0", Msg.KeyMsg "enter"]

/-- Toggle the entry under the cursor and move down, `n` times over. -/
def toggleDown : Nat → List Msg
  | 0 => []
  | n + 1 => Msg.KeyMsg " " :: Msg.KeyMsg "down" :: toggleDown n

/-- Select everything with `a`, then walk down the table toggling every entry
off. -/
def allOffSession : List Msg := Msg.KeyMsg "a" :: toggleDown 19

/-- Toggle the first entry on, move down, toggle the second entry on and off
again, then enter. -/
def countSession : List Msg :=
  [Msg.KeyMsg " ", Msg.KeyMsg "down", Msg.KeyMsg " ", Msg.KeyMsg " ", Msg.KeyMsg "enter"]

/-- A character of the 7-bit range, one byte long in a text. -/
def isAscii (c : Char) : Bool := decide (c.toNat < 128)

/-! ## Numbers of the statements -/

namespace Strconv

/-- The number a text of decimal digits stands for, read after the number `a`. -/
def valAcc (a : Nat) (ds : List Char) : Nat :=
  ds.foldl (fun a c => a * 10 + (c.toNat - '0'.toNat)) a

end Strconv

namespace Float64

/-- The non-negative float of a bit pattern. -/
def ofBits (neg : Bool) (b : Nat) : Float64 := ⟨neg, b / 2 ^ 52, b % 2 ^ 52⟩

/-- The magnitude of a finite float, as a rational. -/
def absRat (x : Float64) : ℚ := (x.mant : ℚ) * (2 : ℚ) ^ x.exp2

/-- The magnitude at bit pattern `b`. -/
def V (b : Nat) : ℚ := absRat (ofBits false b)

/-- The distance from the magnitude at `b` to the next one. -/
def U (b : Nat) : ℚ := (2 : ℚ) ^ (ofBits false b).exp2

/-- The rational `ρ` rounds to the magnitude at bit pattern `b`: it lies between
the midpoints to the neighbours, a midpoint counting only for an even `b`. -/
def rounds (b : Nat) (ρ : ℚ) : Prop :=
  (b = 0 ∨ V (b - 1) + V b ≤ 2 * ρ) ∧ 2 * ρ ≤ V b + V (b + 1) ∧
    (b % 2 = 1 → V (b - 1) + V b < 2 * ρ ∧ 2 * ρ < V b + V (b + 1))

/-- The natural number `N` is the rational `ρ` rounded to the nearest integer,
ties to even. -/
def isHalfEven (ρ : ℚ) (N : Nat) : Prop :=
  |(N : ℚ) - ρ| ≤ 1 / 2 ∧ (|(N : ℚ) - ρ| = 1 / 2 → N % 2 = 0)

/-- The rounding step on a quotient `n / d`, as the operations write it. -/
def roundDiv (n d : Nat) : Nat :=
  if d < 2 * (n % d) ∨ (2 * (n % d) = d ∧ n / d % 2 = 1) then n / d + 1 else n / d

/-- The binary exponent `ofRatio` settles on for `num / den`: the `e` of its body,
named for the statements. -/
def ratioExp (num den : Nat) : Int :=
  let k : Int := (bitLength num num : Int) - (bitLength den den : Int)
  let e0 : Int := max (k - 53) (-1074)
  let q0 := (num * 2 ^ (-e0).toNat) / (den * 2 ^ e0.toNat)
  if 2 ^ 53 ≤ q0 then e0 + 1 else e0

/-- The bit pattern `ofRatio` computes for the magnitude of `num / den`, before
the check for overflow: the `bits` of its body (`ofRatio_eq`). -/
def ratioBits (num den : Nat) : Nat :=
  (ratioExp num den + 1074).toNat * 2 ^ 52 +
    roundDiv (num * 2 ^ (-ratioExp num den).toNat) (den * 2 ^ (ratioExp num den).toNat)

end Float64

/-- A value with at most two decimal places: the `float64` of a numeral with two
fraction digits, of either sign. -/
def twoDecimals (v : Float64) : Prop := ∃ (s : Bool) (n : Nat), v = Float64.ofRatio s n 100

namespace Float64

/-- A well-formed `float64`: the exponent field has 11 bits, the fraction 52. -/
def wf (x : Float64) : Bool := decide (x.expo < 2048) && decide (x.frac < 2 ^ 52)

/-- A non-negative value that is not NaN, as `ofRatio` produces them: positive
infinity, or the finite value of a bit pattern. -/
def good (x : Float64) : Prop := x = inf false ∨ ∃ b : Nat, b < 2047 * 2 ^ 52 ∧ x = ofBits false b

end Float64

namespace Strconv

/-- Whether the rational `z` lies between `lo / d` and `hi / d`, the two ends
counting when `incl`. -/
def inInterval (lo hi d : Nat) (incl : Bool) (z : ℚ) : Prop :=
  ((lo : ℚ) / d < z ∨ (incl = true ∧ (lo : ℚ) / d = z)) ∧
    (z < (hi : ℚ) / d ∨ (incl = true ∧ z = (hi : ℚ) / d))

/-- The decimal `c * 10 ^ p` the search of the shortest format settles on for a
finite value that is not zero: the call of `shortestSearch` in the body of
`FormatFloat`, named for the statements (`FormatFloat_finite`). -/
def shortestDecimal (f : Float64) : Nat × Int :=
  shortestSearch (4 * f.mant * 2 ^ f.exp2.toNat)
    ((4 * f.mant - (if f.frac = 0 ∧ 1 < f.expo then 1 else 2)) * 2 ^ f.exp2.toNat)
    ((4 * f.mant + 2) * 2 ^ f.exp2.toNat) (4 * 2 ^ (-f.exp2).toNat) (decide (f.mant % 2 = 0))
    ((((Nat.toDigits 10 (f.mant * 2 ^ f.exp2.toNat / 2 ^ (-f.exp2).toNat)).length + 1 : Nat) :
      Int).toNat + 1100)
    (((Nat.toDigits 10 (f.mant * 2 ^ f.exp2.toNat / 2 ^ (-f.exp2).toNat)).length + 1 : Nat) : Int)

/-- The text of a decimal `c * 10 ^ p` without exponent, as the shortest format
writes it: the last step of the body of `FormatFloat` (`FormatFloat_finite`). -/
def decimalText (c : Nat) (p : Int) : List Char :=
  if 0 ≤ p then Nat.toDigits 10 (c * 10 ^ p.toNat)
  else Nat.toDigits 10 (c / 10 ^ (-p).toNat) ++ ['.'] ++ padDigits (-p).toNat (c % 10 ^ (-p).toNat)

/-- Whether the character is the digit zero. -/
def isZeroDigit (c : Char) : Bool := decide (c = '0')

/-- The count of significant digits of a text of digits: those from the first to
the last that is not zero. -/
def sigLen (ds : List Char) : Nat :=
  ((ds.dropWhile isZeroDigit).reverse.dropWhile isZeroDigit).length

/-- The count of significant digits of a numeral: its digits from the first to
the last that is not zero, wherever the point stands. -/
def sigDigits (t : List Char) : Nat := sigLen (t.filter isDigit)

/-- The integer part of a numeral has no zero to drop: it is `0` itself, or does
not start with the digit zero. -/
def noLeadingZero (ds : List Char) : Prop := ds = ['0'] ∨ ds.head? ≠ some '0'

/-- The fraction part of a numeral has no zero to drop: it is `0` itself, or
does not end with the digit zero. -/
def noTrailingZero (fs : List Char) : Prop := fs = ['0'] ∨ fs.getLast? ≠ some '0'

end Strconv

/-! ## Steps of the transition function -/

theorem length_defaultPrices : defaultPrices.length = 19 := rfl

theorem Update_stageSelect (ti : TextInput τ) (m : model τ) (msg : Msg)
    (h : m.stage = stageSelect) : Update ti m msg = updateSelect m msg := by
  simp [Update, h]

theorem Update_stageInput (ti : TextInput τ) (m : model τ) (msg : Msg)
    (h : m.stage = stageInput) : Update ti m msg = updateInput ti m msg := by
  simp [Update, h]

theorem updateSelect_toggle (m : model τ) :
    updateSelect m (Msg.KeyMsg " ") =
      ({ m with selected := m.selected.set m.cursor (!m.selected.get m.cursor) }, none) := rfl

theorem updateSelect_all (m : model τ) :
    updateSelect m (Msg.KeyMsg "a") =
      (if m.selected.len = m.prices.length then { m with selected := [] }
        else
          { m with
            selected := (List.range m.prices.length).foldl
              (fun sel (i : Nat) => sel.set (Int.ofNat i) true) m.selected },
        none) := rfl

theorem updateSelect_enter (m : model τ) :
    updateSelect m (Msg.KeyMsg "enter") =
      (if m.selected.len > 0 then { m with stage := stageInput, inputErr := "" } else m, none) :=
  rfl

theorem updateSelect_up (m : model τ) :
    updateSelect m (Msg.KeyMsg "up") =
      (if m.cursor > 0 then { m with cursor := m.cursor - 1 } else m, none) := rfl

theorem updateSelect_down (m : model τ) :
    updateSelect m (Msg.KeyMsg "down") =
      (if m.cursor < (m.prices.length : Int) - 1 then { m with cursor := m.cursor + 1 } else m,
        none) := rfl

theorem updateInput_enter (ti : TextInput τ) (m : model τ) :
    updateInput ti m (Msg.KeyMsg "enter") =
      if (Strconv.ParseFloat (TrimSpace (ti.Value m.input))).2 = true ∨
          Float64.lt (Strconv.ParseFloat (TrimSpace (ti.Value m.input))).1 (Float64.ofNat 0) = true
      then ({ m with inputErr := "Please enter a valid positive number." }, none)
      else ({ applyIncrease m (Strconv.ParseFloat (TrimSpace (ti.Value m.input))).1 with
              done := true }, some Cmd.Quit) := rfl

theorem updateInput_esc (ti : TextInput τ) (m : model τ) :
    updateInput ti m (Msg.KeyMsg "esc") =
      ({ m with stage := stageSelect, input := ti.SetValue m.input "", inputErr := "" }, none) :=
  rfl

/-- A value at or above another is not below it. -/
theorem Float64.lt_eq_false_of_le {x y : Float64} (h : Float64.le x y = true) :
    Float64.lt y x = false := by
  simp only [Float64.le, Bool.and_eq_true, Bool.not_eq_true', decide_eq_true_eq] at h
  simp only [Float64.lt, h.1.1, h.1.2, Bool.not_false, Bool.true_and, decide_eq_false_iff_not]
  omega

/-! ## The percentage-increase transform -/

/-- Walking the indices below `n` and modifying the flagged ones changes exactly
those. -/
theorem getElem?_foldl_modify_range {α : Type} (c : Nat → Bool) (g : α → α) (l : List α)
    (n j : Nat) :
    ((List.range n).foldl (fun ps (i : Nat) => if c i then ps.modify g i else ps) l)[j]? =
      (l[j]?).map (fun a => if j < n ∧ c j = true then g a else a) := by
  induction n with
  | zero => simp
  | succ n ih =>
    rw [List.range_succ, List.foldl_append]
    simp only [List.foldl_cons, List.foldl_nil]
    by_cases hc : c n = true
    · rw [if_pos hc, List.getElem?_modify, ih]
      cases l[j]? with
      | none => rfl
      | some a =>
        simp only [Option.map_some', Option.map_eq_map]
        by_cases hj : n = j
        · subst hj; simp [hc]
        · have : (j < n + 1) = (j < n) := by
            apply propext; omega
          simp [hj, this]
    · rw [if_neg hc, ih]
      cases l[j]? with
      | none => rfl
      | some a =>
        simp only [Option.map_some']
        by_cases hj : n = j
        · subst hj; simp [hc]
        · have : (j < n + 1) = (j < n) := by
            apply propext; omega
          simp [this]

/-- The catalog after `applyIncrease`, entry by entry. -/
theorem applyIncrease_prices (m : model τ) (p : Float64) :
    (applyIncrease m p).prices = m.prices.mapIdx (fun i e =>
      if m.selected.get (Int.ofNat i) = true then
        { e with
          Value := roundTwo (Float64.mul e.Value
            (Float64.add (Float64.ofNat 1) (Float64.div p (Float64.ofNat 100)))) }
      else e) := by
  apply List.ext_getElem?
  intro j
  simp only [applyIncrease]
  rw [getElem?_foldl_modify_range (fun i => m.selected.get (Int.ofNat i)), List.getElem?_mapIdx]
  cases h : m.prices[j]? with
  | none => rfl
  | some a =>
    have hj : j < m.prices.length := by
      rcases List.getElem?_eq_some_iff.1 h with ⟨hj, _⟩
      exact hj
    simp [hj]

theorem length_applyIncrease (m : model τ) (p : Float64) :
    (applyIncrease m p).prices.length = m.prices.length := by
  rw [applyIncrease_prices]
  simp

/-- C1: `applyIncrease` keeps the length of the catalog and its keys in their
order, sets the value of every selected index to
`roundTwo (old * (1 + p / 100))` and leaves the value of every other index as
it was. It holds for every percentage, in particular for every `p >= 0`. -/
theorem applyIncrease_spec (m : model τ) (p : Float64) :
    (applyIncrease m p).prices.length = m.prices.length ∧
    (applyIncrease m p).prices.map PriceEntry.Key = m.prices.map PriceEntry.Key ∧
    ∀ i : Nat, ((applyIncrease m p).prices[i]?).map PriceEntry.Value =
      (m.prices[i]?).map (fun e =>
        if m.selected.get (Int.ofNat i) = true then
          roundTwo (Float64.mul e.Value
            (Float64.add (Float64.ofNat 1) (Float64.div p (Float64.ofNat 100))))
        else e.Value) := by
  rw [applyIncrease_prices]
  refine ⟨by simp, ?_, ?_⟩
  · apply List.ext_getElem?
    intro j
    simp only [List.getElem?_map, List.getElem?_mapIdx]
    cases m.prices[j]? with
    | none => rfl
    | some a =>
      simp only [Option.map_some']
      split <;> rfl
  · intro i
    simp only [List.getElem?_mapIdx]
    cases m.prices[i]? with
    | none => rfl
    | some a =>
      simp only [Option.map_some']
      split <;> rfl

/-! ## Selection stage: the map keeps the keys of entries toggled off -/

/-- C2, evaluated on the code: from the initial state, toggling the entry under
the cursor on and off again leaves the selection stage with no entry marked
(every read of the map gives `false`), yet the key stays in the map, so `enter`
moves on to the percentage stage. -/
theorem enter_after_untoggle (ti : TextInput τ) :
    (run ti (initialModel ti) [Msg.KeyMsg " ", Msg.KeyMsg " "]).stage = stageSelect ∧
    (∀ i : Int,
      (run ti (initialModel ti) [Msg.KeyMsg " ", Msg.KeyMsg " "]).selected.get i = false) ∧
    (run ti (initialModel ti) [Msg.KeyMsg " ", Msg.KeyMsg " "]).selected.countTrue = 0 ∧
    (run ti (initialModel ti) [Msg.KeyMsg " ", Msg.KeyMsg " "]).selected.len = 1 ∧
    (Update ti (run ti (initialModel ti) [Msg.KeyMsg " ", Msg.KeyMsg " "])
      (Msg.KeyMsg "enter")).1.stage = stageInput := by
  refine ⟨rfl, ?_, rfl, rfl, rfl⟩
  intro i
  show SelMap.get [(0, false)] i = false
  simp [SelMap.get]

theorem state_a (ti : TextInput τ) :
    (Update ti (initialModel ti) (Msg.KeyMsg "a")).1 =
      { initialModel ti with selected := fullSelection } := by
  rw [Update_stageSelect _ _ _ rfl, updateSelect_all]
  have h : ¬ (initialModel ti).selected.len = (initialModel ti).prices.length := by
    show ¬ (0 = 19)
    decide
  rw [if_neg h]
  have hf : (List.range 19).foldl (fun sel (i : Nat) => SelMap.set sel (Int.ofNat i) true) []
      = fullSelection := by
    decide
  simp only [initialModel, length_defaultPrices, hf]

theorem state_a_space (ti : TextInput τ) :
    run ti (initialModel ti) [Msg.KeyMsg "a", Msg.KeyMsg " "] =
      { initialModel ti with selected := (0, false) :: fullSelection.tail } := by
  simp only [run]
  rw [state_a, Update_stageSelect _ _ _ rfl, updateSelect_toggle]
  rfl

/-- C3, evaluated on the code: from the initial state, `a` then a toggle of the
first entry leaves a partial selection, 18 of the 19 entries marked, with all 19
keys in the map; the next `a` then clears the selection instead of completing
it. -/
theorem all_after_partial (ti : TextInput τ) :
    (run ti (initialModel ti) [Msg.KeyMsg "a", Msg.KeyMsg " "]).stage = stageSelect ∧
    (run ti (initialModel ti) [Msg.KeyMsg "a", Msg.KeyMsg " "]).selected.countTrue = 18 ∧
    (run ti (initialModel ti) [Msg.KeyMsg "a", Msg.KeyMsg " "]).prices.length = 19 ∧
    (run ti (initialModel ti) [Msg.KeyMsg "a", Msg.KeyMsg " "]).selected.get 0 = false ∧
    (run ti (initialModel ti) [Msg.KeyMsg "a", Msg.KeyMsg " "]).selected.get 1 = true ∧
    (∀ i : Int, (Update ti (run ti (initialModel ti) [Msg.KeyMsg "a", Msg.KeyMsg " "])
      (Msg.KeyMsg "a")).1.selected.get i = false) := by
  rw [state_a_space]
  refine ⟨rfl, rfl, rfl, rfl, rfl, ?_⟩
  intro i
  rw [Update_stageSelect _ _ _ rfl, updateSelect_all]
  rfl

/-! ## Percentage stage: enter -/

/-- The rejecting branch of enter in the percentage stage: on a pending text
whose trimmed form `ParseFloat` reports an error for, or parses to a value below
zero, it sets the fixed validation message, stays in the percentage stage,
leaves catalog, selection and `done` as they were and returns no command. -/
theorem enter_rejected (ti : TextInput τ) (m : model τ) (hs : m.stage = stageInput)
    (h : (Strconv.ParseFloat (TrimSpace (ti.Value m.input))).2 = true ∨
      Float64.lt (Strconv.ParseFloat (TrimSpace (ti.Value m.input))).1 (Float64.ofNat 0) = true) :
    (Update ti m (Msg.KeyMsg "enter")).1.inputErr = "Please enter a valid positive number." ∧
    (Update ti m (Msg.KeyMsg "enter")).1.stage = stageInput ∧
    (Update ti m (Msg.KeyMsg "enter")).1.prices = m.prices ∧
    (Update ti m (Msg.KeyMsg "enter")).1.selected = m.selected ∧
    (Update ti m (Msg.KeyMsg "enter")).1.done = m.done ∧
    (Update ti m (Msg.KeyMsg "enter")).2 = none := by
  rw [Update_stageInput ti m _ hs, updateInput_enter, if_pos h]
  exact ⟨rfl, hs, rfl, rfl, rfl, rfl⟩

/-- The texts `abc` and `-1` are rejected: `abc` does not parse, `-1` parses to a
value below zero, the catalog stays the built-in table and `done` stays false. -/
theorem enter_rejected_examples :
    (Strconv.ParseFloat (TrimSpace "abc")).2 = true ∧
    Float64.lt (Strconv.ParseFloat (TrimSpace "-1")).1 (Float64.ofNat 0) = true ∧
    (Update lineInput { initialModel lineInput with stage := stageInput, input := "-1" }
      (Msg.KeyMsg "enter")).1.prices = defaultPrices ∧
    (Update lineInput { initialModel lineInput with stage := stageInput, input := "-1" }
      (Msg.KeyMsg "enter")).1.done = false :=
  have h := enter_rejected lineInput
    { initialModel lineInput with stage := stageInput, input := "-1" } rfl
    (Or.inr (by decide!))
  ⟨by decide!, by decide!, h.2.2.1, h.2.2.2.2.1⟩

/-- C4, evaluated on the code: the pending text `nan` is no decimal number, yet
enter on it in the percentage stage is not rejected. `ParseFloat` returns NaN
for it without an error and `NaN < 0` is false, so the guard
`err != nil || pct < 0` does not fire: no validation message is set, the
transform runs with NaN (the selected price becomes NaN), `done` is set and the
quit command is returned. -/
theorem nan_text_not_rejected :
    Strconv.ParseFloat (TrimSpace (lineInput.Value "nan")) = (Float64.nan, false) ∧
    Float64.lt Float64.nan (Float64.ofNat 0) = false ∧
    (Update lineInput
      { initialModel lineInput with stage := stageInput, selected := [(0, true)], input := "nan" }
      (Msg.KeyMsg "enter")).1.inputErr = "" ∧
    (Update lineInput
      { initialModel lineInput with stage := stageInput, selected := [(0, true)], input := "nan" }
      (Msg.KeyMsg "enter")).1.done = true ∧
    (Update lineInput
      { initialModel lineInput with stage := stageInput, selected := [(0, true)], input := "nan" }
      (Msg.KeyMsg "enter")).2 = some Cmd.Quit ∧
    (Update lineInput
      { initialModel lineInput with stage := stageInput, selected := [(0, true)], input := "nan" }
      (Msg.KeyMsg "enter")).1.prices.head? = some ⟨"XL_UPPER_WINDOW", Float64.nan⟩ := by
  refine ⟨?_, ?_, ?_, ?_, ?_, ?_⟩ <;> decide!

/-- C5: in the percentage stage, enter on a pending text whose trimmed form parses
without error to a number `p >= 0` replaces the catalog by the
percentage-increase transform of the previous one for `p` over the current
selection, sets `done`, returns the quit command, and leaves cursor and
selection as they were. -/
theorem enter_accepted (ti : TextInput τ) (m : model τ) (p : Float64)
    (hs : m.stage = stageInput)
    (hp : Strconv.ParseFloat (TrimSpace (ti.Value m.input)) = (p, false))
    (hge : Float64.le (Float64.ofNat 0) p = true) :
    (Update ti m (Msg.KeyMsg "enter")).1.prices = (applyIncrease m p).prices ∧
    (Update ti m (Msg.KeyMsg "enter")).1.done = true ∧
    (Update ti m (Msg.KeyMsg "enter")).2 = some Cmd.Quit ∧
    (Update ti m (Msg.KeyMsg "enter")).1.cursor = m.cursor ∧
    (Update ti m (Msg.KeyMsg "enter")).1.selected = m.selected := by
  have hn : ¬ ((Strconv.ParseFloat (TrimSpace (ti.Value m.input))).2 = true ∨
      Float64.lt (Strconv.ParseFloat (TrimSpace (ti.Value m.input))).1 (Float64.ofNat 0)
        = true) := by
    rw [hp]
    simp [Float64.lt_eq_false_of_le hge]
  rw [Update_stageInput ti m _ hs, updateInput_enter, if_neg hn, hp]
  exact ⟨rfl, rfl, rfl, rfl, rfl⟩

/-- The pending text `10.5` parses to the `float64` of 10.5, and enter on it
sets `done`. -/
theorem enter_accepted_witness :
    Strconv.ParseFloat (TrimSpace (lineInput.Value "10.5")) = (lit 105 1, false) ∧
    (Update lineInput { initialModel lineInput with stage := stageInput, input := "10.5" }
      (Msg.KeyMsg "enter")).1.done = true :=
  ⟨by decide!,
    (enter_accepted lineInput { initialModel lineInput with stage := stageInput, input := "10.5" }
      (lit 105 1) rfl (by decide!) (by decide!)).2.1⟩

/-! ## Indices stay in range -/

/-- A write adds at most its own key. -/
theorem SelMap.mem_keys_set {s : SelMap} {k k1 : Int} {v : Bool}
    (h : k1 ∈ (SelMap.set s k v).keys) : k1 = k ∨ k1 ∈ s.keys := by
  induction s with
  | nil =>
    simp only [SelMap.set, SelMap.keys, List.map_cons, List.map_nil, List.mem_singleton] at h
    exact Or.inl h
  | cons kv r ih =>
    obtain ⟨k2, v2⟩ := kv
    simp only [SelMap.set] at h
    split at h
    · simp only [SelMap.keys, List.map_cons, List.mem_cons] at h ⊢
      rcases h with h | h
      · exact Or.inl h
      · exact Or.inr (Or.inr h)
    · simp only [SelMap.keys, List.map_cons, List.mem_cons] at h ⊢
      rcases h with h | h
      · exact Or.inr (Or.inl h)
      · rcases ih h with h | h
        · exact Or.inl h
        · exact Or.inr (Or.inr h)

/-- Writing every index below `n` adds only keys below `n`. -/
theorem SelMap.mem_keys_setAll {s : SelMap} {n : Nat} {k1 : Int}
    (h : k1 ∈ ((List.range n).foldl (fun sel (i : Nat) => SelMap.set sel (Int.ofNat i) true)
      s).keys) : (0 ≤ k1 ∧ k1 < n) ∨ k1 ∈ s.keys := by
  induction n with
  | zero => exact Or.inr (by simpa using h)
  | succ n ih =>
    rw [List.range_succ, List.foldl_append] at h
    simp only [List.foldl_cons, List.foldl_nil] at h
    rcases SelMap.mem_keys_set h with h | h
    · left
      subst h
      simp only [Int.ofNat_eq_coe]
      omega
    · rcases ih h with h | h
      · left
        omega
      · exact Or.inr h

theorem inRange_updateSelect (m : model τ) (msg : Msg) (h : inRange m) :
    inRange (updateSelect m msg).1 := by
  obtain ⟨hl, hc, hk⟩ := h
  unfold updateSelect
  cases msg with
  | WindowSizeMsg w hh => exact ⟨hl, hc, hk⟩
  | other t => exact ⟨hl, hc, hk⟩
  | KeyMsg s =>
    simp only
    split_ifs with h1 h2 h3 h4 h5 h6 h7 h8 h9 h10 h11 h12
    · exact ⟨hl, hc, hk⟩
    · exact ⟨hl, ⟨by show 0 ≤ m.cursor - 1; omega,
        by show m.cursor - 1 ≤ (m.prices.length : Int) - 1; omega⟩, hk⟩
    · exact ⟨hl, hc, hk⟩
    · exact ⟨hl, ⟨by show 0 ≤ m.cursor + 1; omega,
        by show m.cursor + 1 ≤ (m.prices.length : Int) - 1; omega⟩, hk⟩
    · exact ⟨hl, hc, hk⟩
    · exact ⟨hl, ⟨le_refl _, by show (0 : Int) ≤ (m.prices.length : Int) - 1; omega⟩, hk⟩
    · exact ⟨hl, ⟨by show (0 : Int) ≤ (m.prices.length : Int) - 1; omega, le_refl _⟩, hk⟩
    · refine ⟨hl, hc, ?_⟩
      intro k hkm
      rcases SelMap.mem_keys_set hkm with h | h
      · rw [h]; exact hc
      · exact hk k h
    · refine ⟨hl, hc, ?_⟩
      intro k hkm
      simp [SelMap.keys] at hkm
    · refine ⟨hl, hc, ?_⟩
      intro k hkm
      rcases SelMap.mem_keys_setAll hkm with h | h
      · show 0 ≤ k ∧ k ≤ (m.prices.length : Int) - 1
        omega
      · exact hk k h
    · exact ⟨hl, hc, hk⟩
    · exact ⟨hl, hc, hk⟩
    · exact ⟨hl, hc, hk⟩

theorem inRange_updateInput (ti : TextInput τ) (m : model τ) (msg : Msg) (h : inRange m) :
    inRange (updateInput ti m msg).1 := by
  obtain ⟨hl, hc, hk⟩ := h
  unfold updateInput
  cases msg with
  | WindowSizeMsg w hh => exact ⟨hl, hc, hk⟩
  | other t => exact ⟨hl, hc, hk⟩
  | KeyMsg s =>
    simp only
    split_ifs with h1 h2 h3 h4
    · exact ⟨hl, hc, hk⟩
    · exact ⟨hl, hc, hk⟩
    · exact ⟨hl, hc, hk⟩
    · refine ⟨?_, ?_, ?_⟩
      · show 0 < (applyIncrease m _).prices.length
        rw [length_applyIncrease]; exact hl
      · show 0 ≤ m.cursor ∧ m.cursor ≤ ((applyIncrease m _).prices.length : Int) - 1
        rw [length_applyIncrease]; exact hc
      · show ∀ k ∈ m.selected.keys, 0 ≤ k ∧ k ≤ ((applyIncrease m _).prices.length : Int) - 1
        rw [length_applyIncrease]; exact hk
    · exact ⟨hl, hc, hk⟩

theorem inRange_Update (ti : TextInput τ) (m : model τ) (msg : Msg) (h : inRange m) :
    inRange (Update ti m msg).1 := by
  cases hs : m.stage with
  | stageSelect => rw [Update_stageSelect ti m msg hs]; exact inRange_updateSelect m msg h
  | stageInput => rw [Update_stageInput ti m msg hs]; exact inRange_updateInput ti m msg h

theorem inRange_trace (ti : TextInput τ) (evs : List Msg) :
    ∀ m : model τ, inRange m → ∀ s ∈ trace ti m evs, inRange s := by
  induction evs with
  | nil =>
    intro m hm s hs
    simp only [trace, List.mem_singleton] at hs
    rw [hs]; exact hm
  | cons e es ih =>
    intro m hm s hs
    simp only [trace, List.mem_cons] at hs
    rcases hs with hs | hs
    · rw [hs]; exact hm
    · exact ih _ (inRange_Update ti m e hm) s hs

/-- C6: in every state along the way of any sequence of messages from the
initial state, the cursor and every key recorded in the selection lie within
`[0, len(catalog) - 1]`, the catalog being non-empty throughout. -/
theorem indices_in_range (ti : TextInput τ) (evs : List Msg) (s : model τ)
    (hs : s ∈ trace ti (initialModel ti) evs) :
    (0 ≤ s.cursor ∧ s.cursor ≤ (s.prices.length : Int) - 1) ∧
    (∀ k ∈ s.selected.keys, 0 ≤ k ∧ k ≤ (s.prices.length : Int) - 1) ∧
    0 < s.prices.length := by
  have h0 : inRange (initialModel ti) :=
    ⟨by show 0 < defaultPrices.length; decide,
      ⟨le_refl _, by show (0 : Int) ≤ (defaultPrices.length : Int) - 1; decide⟩,
      by intro k hk; simp [initialModel, SelMap.keys] at hk⟩
  obtain ⟨hl, hc, hk⟩ := inRange_trace ti evs _ h0 s hs
  exact ⟨hc, hk, hl⟩

/-- After `G` and a toggle the cursor is on the last entry, index 18, and that
is the one key of the selection. -/
theorem indices_in_range_witness :
    run lineInput (initialModel lineInput) [Msg.KeyMsg "G", Msg.KeyMsg " "] ∈
      trace lineInput (initialModel lineInput) [Msg.KeyMsg "G", Msg.KeyMsg " "] ∧
    (run lineInput (initialModel lineInput) [Msg.KeyMsg "G", Msg.KeyMsg " "]).cursor = 18 ∧
    (run lineInput (initialModel lineInput) [Msg.KeyMsg "G", Msg.KeyMsg " "]).selected.keys
      = [18] ∧
    (0 ≤ (run lineInput (initialModel lineInput) [Msg.KeyMsg "G", Msg.KeyMsg " "]).cursor ∧
      (run lineInput (initialModel lineInput) [Msg.KeyMsg "G", Msg.KeyMsg " "]).cursor ≤
        ((run lineInput (initialModel lineInput)
          [Msg.KeyMsg "G", Msg.KeyMsg " "]).prices.length : Int) - 1) :=
  have hm : run lineInput (initialModel lineInput) [Msg.KeyMsg "G", Msg.KeyMsg " "] ∈
      trace lineInput (initialModel lineInput) [Msg.KeyMsg "G", Msg.KeyMsg " "] :=
    List.mem_cons_of_mem _ (List.mem_cons_of_mem _ (List.mem_cons_self _ _))
  ⟨hm, by decide, by decide,
    (indices_in_range lineInput [Msg.KeyMsg "G", Msg.KeyMsg " "] _ hm).1⟩

/-- C7: in the selection stage, with a non-empty catalog and the cursor in
range, `up` moves the cursor to `cursor - 1` unless it is `0`, where it stays,
and `down` moves it to `cursor + 1` unless it is `len - 1`, where it stays;
either way the cursor ends within `[0, len - 1]`. -/
theorem cursor_clamped (ti : TextInput τ) (m : model τ) (hs : m.stage = stageSelect)
    (hne : m.prices ≠ [])
    (hc : 0 ≤ m.cursor ∧ m.cursor ≤ (m.prices.length : Int) - 1) :
    (Update ti m (Msg.KeyMsg "up")).1.cursor = (if m.cursor = 0 then 0 else m.cursor - 1) ∧
    (Update ti m (Msg.KeyMsg "down")).1.cursor =
      (if m.cursor = (m.prices.length : Int) - 1 then m.cursor else m.cursor + 1) ∧
    (0 ≤ (Update ti m (Msg.KeyMsg "up")).1.cursor ∧
      (Update ti m (Msg.KeyMsg "up")).1.cursor ≤
        ((Update ti m (Msg.KeyMsg "up")).1.prices.length : Int) - 1) ∧
    (0 ≤ (Update ti m (Msg.KeyMsg "down")).1.cursor ∧
      (Update ti m (Msg.KeyMsg "down")).1.cursor ≤
        ((Update ti m (Msg.KeyMsg "down")).1.prices.length : Int) - 1) := by
  have _hlen : 0 < m.prices.length := List.length_pos.2 hne
  rw [Update_stageSelect ti m _ hs, Update_stageSelect ti m _ hs, updateSelect_up,
    updateSelect_down]
  obtain ⟨h0, h1⟩ := hc
  refine ⟨?_, ?_, ?_, ?_⟩
  · by_cases h : m.cursor > 0
    · have : m.cursor ≠ 0 := by omega
      simp [h, this]
    · have : m.cursor = 0 := by omega
      simp [this]
  · by_cases h : m.cursor < (m.prices.length : Int) - 1
    · have : m.cursor ≠ (m.prices.length : Int) - 1 := by omega
      simp [h, this]
    · have : m.cursor = (m.prices.length : Int) - 1 := by omega
      simp [h, this]
  · by_cases h : m.cursor > 0
    · simp only [h, if_true]
      constructor <;> omega
    · simp only [h, if_false]
      exact ⟨h0, h1⟩
  · by_cases h : m.cursor < (m.prices.length : Int) - 1
    · simp only [h, if_true]
      constructor <;> omega
    · simp only [h, if_false]
      exact ⟨h0, h1⟩

/-- At the top of the built-in table `up` stays on index 0 and `down` moves to
index 1. -/
theorem cursor_clamped_witness :
    (Update lineInput (initialModel lineInput) (Msg.KeyMsg "up")).1.cursor = 0 ∧
    (Update lineInput (initialModel lineInput) (Msg.KeyMsg "down")).1.cursor = 1 :=
  have h := cursor_clamped lineInput (initialModel lineInput) rfl (by decide) (by decide)
  ⟨h.1, h.2.1⟩

/-! ## What leaves `done` and the catalog alone -/

theorem updateSelect_frame (m : model τ) (msg : Msg) :
    (updateSelect m msg).1.done = m.done ∧ (updateSelect m msg).1.prices = m.prices := by
  unfold updateSelect
  cases msg with
  | WindowSizeMsg w hh => exact ⟨rfl, rfl⟩
  | other t => exact ⟨rfl, rfl⟩
  | KeyMsg s =>
    simp only
    split_ifs <;> exact ⟨rfl, rfl⟩

theorem updateInput_frame (ti : TextInput τ) (m : model τ) (msg : Msg)
    (hs : m.stage = stageInput) (ha : accepts ti m msg = false) :
    (updateInput ti m msg).1.done = m.done ∧ (updateInput ti m msg).1.prices = m.prices := by
  unfold updateInput
  cases msg with
  | WindowSizeMsg w hh => exact ⟨rfl, rfl⟩
  | other t => exact ⟨rfl, rfl⟩
  | KeyMsg s =>
    simp only
    split_ifs with h1 h2 h3 h4
    · exact ⟨rfl, rfl⟩
    · exact ⟨rfl, rfl⟩
    · exact ⟨rfl, rfl⟩
    · exfalso
      have : accepts ti m (Msg.KeyMsg s) = true := by
        simp only [not_or, Bool.not_eq_true] at h4
        simp [accepts, hs, h3, h4.1, h4.2]
      rw [ha] at this
      exact Bool.noConfusion this
    · exact ⟨rfl, rfl⟩

theorem Update_frame (ti : TextInput τ) (m : model τ) (msg : Msg)
    (ha : accepts ti m msg = false) :
    (Update ti m msg).1.done = m.done ∧ (Update ti m msg).1.prices = m.prices := by
  cases hs : m.stage with
  | stageSelect => rw [Update_stageSelect ti m msg hs]; exact updateSelect_frame m msg
  | stageInput => rw [Update_stageInput ti m msg hs]; exact updateInput_frame ti m msg hs ha

theorem frame_trace (ti : TextInput τ) (evs : List Msg) :
    ∀ m : model τ, noAccept ti m evs →
      ∀ s ∈ trace ti m evs, s.done = m.done ∧ s.prices = m.prices := by
  induction evs with
  | nil =>
    intro m _ s hs
    simp only [trace, List.mem_singleton] at hs
    rw [hs]; exact ⟨rfl, rfl⟩
  | cons e es ih =>
    intro m hm s hs
    simp only [trace, List.mem_cons] at hs
    rcases hs with hs | hs
    · rw [hs]; exact ⟨rfl, rfl⟩
    · obtain ⟨h1, h2⟩ := ih _ hm.2 s hs
      obtain ⟨h3, h4⟩ := Update_frame ti m e hm.1
      exact ⟨h1.trans h3, h2.trans h4⟩

/-- Along a sequence of messages from the initial state none of which passes the
guard of `updateInput` (the parse gives no error and a value that is not below
zero), `done` stays false, the catalog stays the built-in table and nothing is
written; the quit keys return the state as it is with the quit command. -/
theorem unfinished_without_accept (ti : TextInput τ) (evs : List Msg)
    (h : noAccept ti (initialModel ti) evs) :
    (∀ s ∈ trace ti (initialModel ti) evs,
      s.done = false ∧ s.prices = defaultPrices ∧ written s = none) ∧
    (∀ m : model τ, m.stage = stageSelect →
      Update ti m (Msg.KeyMsg "q") = (m, some Cmd.Quit) ∧
      Update ti m (Msg.KeyMsg "ctrl+c") = (m, some Cmd.Quit)) ∧
    (∀ m : model τ, m.stage = stageInput →
      Update ti m (Msg.KeyMsg "ctrl+c") = (m, some Cmd.Quit)) := by
  refine ⟨?_, ?_, ?_⟩
  · intro s hs
    obtain ⟨h1, h2⟩ := frame_trace ti evs _ h s hs
    have hd : s.done = false := h1
    exact ⟨hd, h2, by simp [written, hd]⟩
  · intro m hs
    rw [Update_stageSelect ti m _ hs, Update_stageSelect ti m _ hs]
    exact ⟨rfl, rfl⟩
  · intro m hs
    rw [Update_stageInput ti m _ hs]
    rfl

/-- Whatever the text input, enter on the pending text `nan` in the percentage
stage is no enter on a number at or above zero, and is accepted: the transform
runs with NaN, `done` is set and the quit command returned. -/
theorem nan_accepted_by_guard (ti : TextInput τ) (m : model τ) (hs : m.stage = stageInput)
    (hv : ti.Value m.input = "nan") :
    entersNumber ti m (Msg.KeyMsg "enter") = false ∧
    Update ti m (Msg.KeyMsg "enter") =
      ({ applyIncrease m Float64.nan with done := true }, some Cmd.Quit) := by
  have hp : Strconv.ParseFloat (TrimSpace "nan") = (Float64.nan, false) := by decide!
  have hl : Float64.le (Float64.ofNat 0) Float64.nan = false := by decide!
  have hl2 : Float64.lt Float64.nan (Float64.ofNat 0) = false := by decide!
  constructor
  · simp [entersNumber, hv, hp, hl]
  · rw [Update_stageInput ti m _ hs, updateInput_enter, hv, hp]
    simp [hl2]

/-- C8, evaluated on the code: the session that selects the first entry, moves
on, types `nan` and presses enter contains no enter on a text parsing to a number
at or above zero (`nan` parses, without error, to NaN, and `0 <= NaN` is false),
yet the guard `pct < 0` lets NaN through: `done` is set, the first price becomes
NaN and the catalog is written. -/
theorem nan_percentage_accepted :
    noNumberEntered lineInput (initialModel lineInput) nanSession ∧
    Strconv.ParseFloat (TrimSpace "nan") = (Float64.nan, false) ∧
    Float64.le (Float64.ofNat 0) Float64.nan = false ∧
    Float64.lt Float64.nan (Float64.ofNat 0) = false ∧
    (run lineInput (initialModel lineInput) nanSession).done = true ∧
    (run lineInput (initialModel lineInput) nanSession).prices ≠ defaultPrices ∧
    (run lineInput (initialModel lineInput) nanSession).prices.head?
      = some ⟨"XL_UPPER_WINDOW", Float64.nan⟩ ∧
    written (run lineInput (initialModel lineInput) nanSession) ≠ none := by
  refine ⟨⟨?_, ?_, ?_, ?_, ?_, ?_, trivial⟩, ?_, ?_, ?_, ?_, ?_, ?_, ?_⟩ <;> decide!

/-! ## Percentage stage: escape -/

/-- C9: in the percentage stage, escape returns to the selection stage with the
pending text empty and the validation error cleared; selection, cursor and
catalog are as before, and no command is returned. -/
theorem escape_returns (ti : TextInput τ) (m : model τ) (hs : m.stage = stageInput) :
    (Update ti m (Msg.KeyMsg "esc")).1.stage = stageSelect ∧
    ti.Value (Update ti m (Msg.KeyMsg "esc")).1.input = "" ∧
    (Update ti m (Msg.KeyMsg "esc")).1.inputErr = "" ∧
    (Update ti m (Msg.KeyMsg "esc")).1.selected = m.selected ∧
    (Update ti m (Msg.KeyMsg "esc")).1.cursor = m.cursor ∧
    (Update ti m (Msg.KeyMsg "esc")).1.prices = m.prices ∧
    (Update ti m (Msg.KeyMsg "esc")).1.done = m.done ∧
    (Update ti m (Msg.KeyMsg "esc")).2 = none := by
  rw [Update_stageInput ti m _ hs, updateInput_esc]
  exact ⟨rfl, ti.value_setValue_empty m.input, rfl, rfl, rfl, rfl, rfl, rfl⟩

/-- With entry 3 selected and `12` pending, escape keeps the selection and
empties the text. -/
theorem escape_returns_witness :
    (Update lineInput
      { initialModel lineInput with stage := stageInput, input := "12", selected := [(3, true)] }
      (Msg.KeyMsg "esc")).1.selected = [(3, true)] ∧
    lineInput.Value (Update lineInput
      { initialModel lineInput with stage := stageInput, input := "12", selected := [(3, true)] }
      (Msg.KeyMsg "esc")).1.input = "" :=
  have h := escape_returns lineInput
    { initialModel lineInput with stage := stageInput, input := "12", selected := [(3, true)] } rfl
  ⟨h.2.2.2.1, h.2.1⟩

/-! ## Serialization -/

/-- Appending one text per element to a builder appends their concatenation. -/
theorem foldl_append_eq_join {α : Type} (f : α → String) (l : List α) (acc : String) :
    l.foldl (fun sb p => sb ++ f p) acc = acc ++ String.join (l.map f) := by
  induction l generalizing acc with
  | nil =>
    apply String.ext
    simp
  | cons a r ih =>
    simp only [List.foldl_cons, List.map_cons]
    rw [ih]
    apply String.ext
    simp [String.data_join]

/-- C10: `buildOutput` returns the header line, then one line
`  key: formatFloat(value),` per entry in catalog order, then the closing line,
each ended by a newline: `len(catalog) + 2` lines, line `i + 1` being that of
entry `i`; the text is a function of the catalog alone. -/
theorem buildOutput_lines (prices : List PriceEntry) :
    buildOutput prices = String.join ((documentLines prices).map (fun l => l ++ "\n")) ∧
    (documentLines prices).length = prices.length + 2 ∧
    (documentLines prices)[0]? = some "export const PRICES = \x7b" ∧
    (∀ i : Nat, ∀ e : PriceEntry, prices[i]? = some e →
      (documentLines prices)[i + 1]? =
        some ("  " ++ e.Key ++ ": " ++ formatFloat e.Value ++ ",")) ∧
    (documentLines prices)[prices.length + 1]? = some "\x7d;" ∧
    (∀ c : List PriceEntry, c = prices → buildOutput c = buildOutput prices) := by
  refine ⟨?_, ?_, by simp [documentLines], ?_, ?_, ?_⟩
  · unfold buildOutput
    simp only
    rw [foldl_append_eq_join]
    apply String.ext
    simp [documentLines, String.data_join, entryLine, List.map_append, Function.comp_def]
  · simp [documentLines]
  · intro i e he
    have hi : i < prices.length := (List.getElem?_eq_some_iff.1 he).1
    simp only [documentLines, List.getElem?_cons_succ]
    rw [List.getElem?_append_left (by simpa using hi), List.getElem?_map, he]
    rfl
  · simp only [documentLines, List.getElem?_cons_succ]
    rw [List.getElem?_append_right (by simp)]
    simp
  · intro c hc
    rw [hc]

/-! ## Selection stage: toggle and enter -/

theorem SelMap.get_set_self (s : SelMap) (k : Int) (v : Bool) :
    (SelMap.set s k v).get k = v := by
  induction s with
  | nil => simp [SelMap.set, SelMap.get]
  | cons kv r ih =>
    obtain ⟨k1, v1⟩ := kv
    simp only [SelMap.set]
    split
    · simp [SelMap.get]
    · rename_i h
      simp [SelMap.get, h, ih]

theorem SelMap.get_set_of_ne (s : SelMap) (k j : Int) (v : Bool) (h : j ≠ k) :
    (SelMap.set s k v).get j = s.get j := by
  induction s with
  | nil =>
    have : k ≠ j := fun e => h e.symm
    simp [SelMap.set, SelMap.get, this]
  | cons kv r ih =>
    obtain ⟨k1, v1⟩ := kv
    simp only [SelMap.set]
    split
    · rename_i h1
      have : k ≠ j := fun e => h e.symm
      have h2 : k1 ≠ j := by rw [h1]; exact this
      simp [SelMap.get, this, h2]
    · simp only [SelMap.get, ih]

theorem SelMap.len_pos_of_get {s : SelMap} {k : Int} (h : s.get k = true) : 0 < s.len := by
  cases s with
  | nil => simp [SelMap.get] at h
  | cons kv r => simp [SelMap.len]

/-- C16: in the selection stage the toggle (space or `x`) flips whether the
index under the cursor reads as marked, leaves the reading of every other index,
the cursor, the stage and the catalog as they were, and applied twice at the same
cursor it restores the reading of every index. -/
theorem toggle_flips (ti : TextInput τ) (m : model τ) (hs : m.stage = stageSelect) :
    (Update ti m (Msg.KeyMsg " ")).1.selected.get m.cursor = !m.selected.get m.cursor ∧
    (∀ j : Int, j ≠ m.cursor →
      (Update ti m (Msg.KeyMsg " ")).1.selected.get j = m.selected.get j) ∧
    (Update ti m (Msg.KeyMsg " ")).1.cursor = m.cursor ∧
    (Update ti m (Msg.KeyMsg " ")).1.stage = m.stage ∧
    (Update ti m (Msg.KeyMsg " ")).1.prices = m.prices ∧
    Update ti m (Msg.KeyMsg "x") = Update ti m (Msg.KeyMsg " ") ∧
    (∀ j : Int, (Update ti (Update ti m (Msg.KeyMsg " ")).1 (Msg.KeyMsg " ")).1.selected.get j
      = m.selected.get j) := by
  have h1 : Update ti m (Msg.KeyMsg " ") =
      ({ m with selected := m.selected.set m.cursor (!m.selected.get m.cursor) }, none) := by
    rw [Update_stageSelect ti m _ hs, updateSelect_toggle]
  have hx : Update ti m (Msg.KeyMsg "x") = Update ti m (Msg.KeyMsg " ") := by
    rw [Update_stageSelect ti m _ hs, Update_stageSelect ti m _ hs]
    rfl
  refine ⟨?_, ?_, ?_, ?_, ?_, hx, ?_⟩
  · rw [h1]; exact SelMap.get_set_self _ _ _
  · intro j hj
    rw [h1]; exact SelMap.get_set_of_ne _ _ _ _ hj
  · rw [h1]
  · rw [h1]
  · rw [h1]
  intro j
  rw [h1, Update_stageSelect ti _ _ (by exact hs), updateSelect_toggle]
  show SelMap.get (SelMap.set (SelMap.set m.selected m.cursor (!m.selected.get m.cursor)) m.cursor
    (!(SelMap.set m.selected m.cursor (!m.selected.get m.cursor)).get m.cursor)) j = _
  rw [SelMap.get_set_self]
  by_cases hj : j = m.cursor
  · subst hj
    rw [SelMap.get_set_self]
    simp
  · rw [SelMap.get_set_of_ne _ _ _ _ hj, SelMap.get_set_of_ne _ _ _ _ hj]

/-- From the initial state, one toggle marks entry 0 and a second unmarks it. -/
theorem toggle_flips_witness :
    (Update lineInput (initialModel lineInput) (Msg.KeyMsg " ")).1.selected.get 0 = true ∧
    (Update lineInput (Update lineInput (initialModel lineInput) (Msg.KeyMsg " ")).1
      (Msg.KeyMsg " ")).1.selected.get 0 = false :=
  have h := toggle_flips lineInput (initialModel lineInput) rfl
  ⟨h.1, h.2.2.2.2.2.2 0⟩

/-- C18: in the selection stage, with at least one index read as marked, enter
moves on to the percentage stage with the validation error cleared, and leaves
selection, cursor, catalog and `done` as they were. -/
theorem enter_proceeds (ti : TextInput τ) (m : model τ) (hs : m.stage = stageSelect)
    (i : Int) (hi : m.selected.get i = true) :
    (Update ti m (Msg.KeyMsg "enter")).1.stage = stageInput ∧
    (Update ti m (Msg.KeyMsg "enter")).1.inputErr = "" ∧
    (Update ti m (Msg.KeyMsg "enter")).1.selected = m.selected ∧
    (Update ti m (Msg.KeyMsg "enter")).1.cursor = m.cursor ∧
    (Update ti m (Msg.KeyMsg "enter")).1.prices = m.prices ∧
    (Update ti m (Msg.KeyMsg "enter")).1.done = m.done := by
  rw [Update_stageSelect ti m _ hs, updateSelect_enter, if_pos (SelMap.len_pos_of_get hi)]
  exact ⟨rfl, rfl, rfl, rfl, rfl, rfl⟩

/-- With entry 4 marked and an old error text, enter moves on and clears the
error. -/
theorem enter_proceeds_witness :
    (Update lineInput { initialModel lineInput with selected := [(4, true)], inputErr := "old" }
      (Msg.KeyMsg "enter")).1.stage = stageInput ∧
    (Update lineInput { initialModel lineInput with selected := [(4, true)], inputErr := "old" }
      (Msg.KeyMsg "enter")).1.inputErr = "" :=
  have h := enter_proceeds lineInput
    { initialModel lineInput with selected := [(4, true)], inputErr := "old" } rfl 4 rfl
  ⟨h.1, h.2.1⟩

/-! ## The input view -/

theorem state_countSession (ti : TextInput τ) :
    run ti (initialModel ti) countSession =
      { initialModel ti with
        selected := [(0, true), (1, false)], cursor := 1, stage := stageInput } := by
  simp only [run, countSession]
  have s1 : (Update ti (initialModel ti) (Msg.KeyMsg " ")).1 =
      { initialModel ti with selected := [(0, true)] } := by
    rw [Update_stageSelect _ _ _ rfl, updateSelect_toggle]
    rfl
  have s2 : (Update ti ({ initialModel ti with selected := [(0, true)] } : model τ)
      (Msg.KeyMsg "down")).1 = { initialModel ti with selected := [(0, true)], cursor := 1 } := by
    rw [Update_stageSelect _ _ _ rfl, updateSelect_down]
    rfl
  have s3 : (Update ti ({ initialModel ti with selected := [(0, true)], cursor := 1 } : model τ)
      (Msg.KeyMsg " ")).1 =
      { initialModel ti with selected := [(0, true), (1, true)], cursor := 1 } := by
    rw [Update_stageSelect _ _ _ rfl, updateSelect_toggle]
    rfl
  have s4 : (Update ti
      ({ initialModel ti with selected := [(0, true), (1, true)], cursor := 1 } : model τ)
      (Msg.KeyMsg " ")).1 =
      { initialModel ti with selected := [(0, true), (1, false)], cursor := 1 } := by
    rw [Update_stageSelect _ _ _ rfl, updateSelect_toggle]
    rfl
  rw [s1, s2, s3, s4, Update_stageSelect _ _ _ rfl, updateSelect_enter]
  rfl

/-- C15, evaluated on the code: after marking entry 0, moving down and toggling
entry 1 on and off again, enter reaches the percentage stage with one entry
marked, and the input view announces `2 item(s) selected`: it prints the number
of keys of the map, among them the key of the entry toggled off. -/
theorem count_line_counts_keys (ti : TextInput τ) (sty : Styles) (view : τ → String) :
    (run ti (initialModel ti) countSession).stage = stageInput ∧
    (run ti (initialModel ti) countSession).selected.countTrue = 1 ∧
    (∀ i : Int, (run ti (initialModel ti) countSession).selected.get i = decide (i = 0)) ∧
    countLine (run ti (initialModel ti) countSession) = "2 item(s) selected\n" ∧
    viewInput sty view (run ti (initialModel ti) countSession) =
      sty.titleStyle "Apply Percentage Increase" ++ "\n" ++ "2 item(s) selected\n" ++
        (sty.inputStyle (view ti.new) ++ "\n") ++
        sty.helpStyle "enter confirm  esc back  ctrl+c quit" := by
  rw [state_countSession]
  refine ⟨rfl, rfl, ?_, by show String.mk (Nat.toDigits 10 2) ++ " item(s) selected\n" = _; decide, ?_⟩
  · intro i
    show SelMap.get [(0, true), (1, false)] i = _
    simp only [SelMap.get]
    by_cases h0 : (0 : Int) = i
    · simp [h0.symm]
    · have : ¬ i = 0 := fun e => h0 e.symm
      simp [h0, this]
  · have hc : countLine ({ initialModel ti with
        selected := [(0, true), (1, false)], cursor := 1, stage := stageInput } : model τ)
        = "2 item(s) selected\n" := by
      show String.mk (Nat.toDigits 10 2) ++ " item(s) selected\n" = _
      decide
    simp only [viewInput, hc]
    rfl

/-! ## The worked session -/

theorem state_abc_selected (ti : TextInput τ) :
    run ti { initialModel ti with prices := abcPrices }
        [Msg.KeyMsg " ", Msg.KeyMsg "down", Msg.KeyMsg " ", Msg.KeyMsg "enter"] =
      { initialModel ti with
        prices := abcPrices, selected := [(0, true), (1, true)], cursor := 1,
        stage := stageInput } := by
  simp only [run]
  have s1 : (Update ti ({ initialModel ti with prices := abcPrices } : model τ)
      (Msg.KeyMsg " ")).1 =
      { initialModel ti with prices := abcPrices, selected := [(0, true)] } := by
    rw [Update_stageSelect _ _ _ rfl, updateSelect_toggle]
    rfl
  have s2 : (Update ti
      ({ initialModel ti with prices := abcPrices, selected := [(0, true)] } : model τ)
      (Msg.KeyMsg "down")).1 =
      { initialModel ti with prices := abcPrices, selected := [(0, true)], cursor := 1 } := by
    rw [Update_stageSelect _ _ _ rfl, updateSelect_down]
    rfl
  have s3 : (Update ti
      ({ initialModel ti with
          prices := abcPrices, selected := [(0, true)], cursor := 1 } : model τ)
      (Msg.KeyMsg " ")).1 =
      { initialModel ti with
        prices := abcPrices, selected := [(0, true), (1, true)], cursor := 1 } := by
    rw [Update_stageSelect _ _ _ rfl, updateSelect_toggle]
    rfl
  rw [s1, s2, s3, Update_stageSelect _ _ _ rfl, updateSelect_enter]
  rfl

theorem updateInput_digit (ti : TextInput τ) (m : model τ) (d : String)
    (h1 : d ≠ "ctrl+c") (h2 : d ≠ "esc") (h3 : d ≠ "enter") :
    (updateInput ti m (Msg.KeyMsg d)).1 = { m with input := (ti.Update m.input (Msg.KeyMsg d)).1 } := by
  simp [updateInput, h1, h2, h3]

theorem run_append (ti : TextInput τ) (m : model τ) (xs ys : List Msg) :
    run ti m (xs ++ ys) = run ti (run ti m xs) ys := by
  induction xs generalizing m with
  | nil => rfl
  | cons x xs ih =>
    show run ti (Update ti m x).1 (xs ++ ys) = run ti (run ti (Update ti m x).1 xs) ys
    exact ih _

/-- C13: from the catalog `[A:10.00, B:20.00, C:5.00]` with cursor 0 and no
selection, the messages toggle, down, toggle, enter, `1`, `0`, enter (the text
input then holding `10`) end with `done` set and the catalog
`[A:11.00, B:22.00, C:5.00]`, whose document has the lines `A: 11.0,`,
`B: 22.0,` and `C: 5.0,` in that order. -/
theorem abc_scenario (ti : TextInput τ)
    (hv : ti.Value (ti.Update (ti.Update ti.new (Msg.KeyMsg "1")).1 (Msg.KeyMsg "0")).1 = "10") :
    (run ti { initialModel ti with prices := abcPrices } abcSession).done = true ∧
    (run ti { initialModel ti with prices := abcPrices } abcSession).prices = abcIncreased ∧
    buildOutput (run ti { initialModel ti with prices := abcPrices } abcSession).prices =
      "export const PRICES = \x7b\n  A: 11.0,\n  B: 22.0,\n  C: 5.0,\n\x7d;\n" ∧
    documentLines abcIncreased =
      ["export const PRICES = \x7b", "  A: 11.0,", "  B: 22.0,", "  C: 5.0,", "\x7d;"] := by
  have hsplit : abcSession =
      [Msg.KeyMsg " ", Msg.KeyMsg "down", Msg.KeyMsg " ", Msg.KeyMsg "enter"] ++
        [Msg.KeyMsg "1", Msg.KeyMsg "0", Msg.KeyMsg "enter"] := rfl
  have hp : Strconv.ParseFloat (TrimSpace "10") = (Float64.ofNat 10, false) := by decide!
  have hl : ¬ ((Float64.ofNat 10, false).2 = true ∨
      Float64.lt (Float64.ofNat 10, false).1 (Float64.ofNat 0) = true) := by decide!
  have hinc : abcPrices.mapIdx (fun i e =>
      if SelMap.get [(0, true), (1, true)] (Int.ofNat i) = true then
        { e with
          Value := roundTwo (Float64.mul e.Value
            (Float64.add (Float64.ofNat 1)
              (Float64.div (Float64.ofNat 10) (Float64.ofNat 100)))) }
      else e) = abcIncreased := by decide!
  have hfinal : run ti { initialModel ti with prices := abcPrices } abcSession =
      { initialModel ti with
        prices := abcIncreased, selected := [(0, true), (1, true)], cursor := 1,
        stage := stageInput,
        input := (ti.Update (ti.Update ti.new (Msg.KeyMsg "1")).1 (Msg.KeyMsg "0")).1,
        done := true } := by
    rw [hsplit, run_append, state_abc_selected]
    simp only [run]
    have s5 : (Update ti
        ({ initialModel ti with
            prices := abcPrices, selected := [(0, true), (1, true)], cursor := 1,
            stage := stageInput } : model τ) (Msg.KeyMsg "1")).1 =
        { initialModel ti with
          prices := abcPrices, selected := [(0, true), (1, true)], cursor := 1,
          stage := stageInput, input := (ti.Update ti.new (Msg.KeyMsg "1")).1 } := by
      rw [Update_stageInput _ _ _ rfl,
        updateInput_digit _ _ _ (by decide) (by decide) (by decide)]
      rfl
    have s6 : (Update ti
        ({ initialModel ti with
            prices := abcPrices, selected := [(0, true), (1, true)], cursor := 1,
            stage := stageInput, input := (ti.Update ti.new (Msg.KeyMsg "1")).1 } : model τ)
        (Msg.KeyMsg "0")).1 =
        { initialModel ti with
          prices := abcPrices, selected := [(0, true), (1, true)], cursor := 1,
          stage := stageInput,
          input := (ti.Update (ti.Update ti.new (Msg.KeyMsg "1")).1 (Msg.KeyMsg "0")).1 } := by
      rw [Update_stageInput _ _ _ rfl,
        updateInput_digit _ _ _ (by decide) (by decide) (by decide)]
    rw [s5, s6, Update_stageInput _ _ _ rfl, updateInput_enter]
    simp only [hv, hp, if_neg hl]
    have hpr := applyIncrease_prices
      ({ initialModel ti with
          prices := abcPrices, selected := [(0, true), (1, true)], cursor := 1,
          stage := stageInput,
          input := (ti.Update (ti.Update ti.new (Msg.KeyMsg "1")).1 (Msg.KeyMsg "0")).1 } : model τ)
      (Float64.ofNat 10)
    simp only [hinc] at hpr
    simp only [hpr]
    rfl
  rw [hfinal]
  have hb : buildOutput abcIncreased =
      "export const PRICES = \x7b\n  A: 11.0,\n  B: 22.0,\n  C: 5.0,\n\x7d;\n" := by decide!
  exact ⟨rfl, rfl, hb, by decide!⟩

/-- The line editor holds `10` after the keys `1` and `0`. -/
theorem abc_scenario_witness :
    (run lineInput { initialModel lineInput with prices := abcPrices } abcSession).done = true ∧
    (run lineInput { initialModel lineInput with prices := abcPrices } abcSession).prices
      = abcIncreased :=
  have h := abc_scenario lineInput (by decide)
  ⟨h.1, h.2.1⟩

/-- C14, evaluated on the code: after `a` and a walk down the table toggling
every entry off, no entry is marked but the map holds all 19 keys; the first `a`
then clears the map, leaving no entry marked, and the second `a` marks every
entry: two presses turn the empty selection into the full one. -/
theorem all_twice_from_all_off :
    (run lineInput (initialModel lineInput) allOffSession).stage = stageSelect ∧
    (∀ i : Fin 19,
      (run lineInput (initialModel lineInput) allOffSession).selected.get i.val = false) ∧
    (run lineInput (initialModel lineInput) allOffSession).selected.countTrue = 0 ∧
    (run lineInput (initialModel lineInput) allOffSession).selected.len = 19 ∧
    (run lineInput (initialModel lineInput)
      (allOffSession ++ [Msg.KeyMsg "a"])).selected = [] ∧
    (∀ i : Fin 19,
      (run lineInput (initialModel lineInput)
        (allOffSession ++ [Msg.KeyMsg "a", Msg.KeyMsg "a"])).selected.get i.val = true) := by
  refine ⟨?_, ?_, ?_, ?_, ?_, ?_⟩ <;> decide!

/-! ## The selection view -/

theorem digitChar_isDigit (k : Nat) (h : k < 10) : Strconv.isDigit (Nat.digitChar k) = true := by
  interval_cases k <;> decide

theorem toDigitsCore_isDigit (fuel : Nat) : ∀ (n : Nat) (ds : List Char),
    (∀ c ∈ ds, Strconv.isDigit c = true) →
    ∀ c ∈ Nat.toDigitsCore 10 fuel n ds, Strconv.isDigit c = true := by
  induction fuel with
  | zero => intro n ds h; simpa [Nat.toDigitsCore] using h
  | succ fuel ih =>
    intro n ds h
    have hd : ∀ c ∈ Nat.digitChar (n % 10) :: ds, Strconv.isDigit c = true := by
      intro c hc
      rcases List.mem_cons.1 hc with hc | hc
      · rw [hc]; exact digitChar_isDigit _ (Nat.mod_lt _ (by decide))
      · exact h c hc
    simp only [Nat.toDigitsCore]
    split
    · exact hd
    · exact ih _ _ hd

theorem toDigits_isDigit (n : Nat) : ∀ c ∈ Nat.toDigits 10 n, Strconv.isDigit c = true :=
  toDigitsCore_isDigit _ _ _ (by simp)

theorem isAscii_of_isDigit {c : Char} (h : Strconv.isDigit c = true) : isAscii c = true := by
  simp only [Strconv.isDigit, Bool.and_eq_true, decide_eq_true_eq] at h
  have h2 : c.val ≤ '9'.val := h.2
  have h3 : c.val.toNat ≤ ('9' : Char).val.toNat := h2
  simp only [isAscii, decide_eq_true_eq]
  show c.val.toNat < 128
  have : ('9' : Char).val.toNat = 57 := by decide
  omega

theorem utf8ByteSize_go_of_ascii (l : List Char) (h : ∀ c ∈ l, isAscii c = true) :
    String.utf8ByteSize.go l = l.length := by
  induction l with
  | nil => rfl
  | cons c cs ih =>
    have hc : c.toNat < 128 := by simpa [isAscii] using h c (List.mem_cons_self _ _)
    have h1 : c.utf8Size = 1 := by
      have : c.val ≤ 127 := by
        show c.val.toNat ≤ 127
        have : c.val.toNat < 128 := hc
        omega
      simp [Char.utf8Size, this]
    simp only [String.utf8ByteSize.go, List.length_cons, h1]
    rw [ih (fun c hc => h c (List.mem_cons_of_mem _ hc))]

theorem utf8ByteSize_of_ascii (l : List Char) (h : ∀ c ∈ l, isAscii c = true) :
    (String.mk l).utf8ByteSize = (String.mk l).length :=
  utf8ByteSize_go_of_ascii l h

theorem padDigits_isDigit (w n : Nat) : ∀ c ∈ Strconv.padDigits w n, Strconv.isDigit c = true := by
  intro c hc
  simp only [Strconv.padDigits, List.mem_append, List.mem_replicate] at hc
  rcases hc with hc | hc
  · rw [hc.2]; decide
  · exact toDigits_isDigit n c hc

/-- The text of `%.2f` is made of 7-bit characters. -/
theorem Sprintf2f_ascii (f : Float64) : ∀ c ∈ (Strconv.Sprintf2f f).data, isAscii c = true := by
  unfold Strconv.Sprintf2f
  split
  · decide
  · split
    · split <;> decide
    · intro c hc
      simp only [List.mem_append] at hc
      rcases hc with ((hc | hc) | hc) | hc
      · split at hc
        · simp only [List.mem_singleton] at hc
          rw [hc]; decide
        · simp at hc
      · exact isAscii_of_isDigit (toDigits_isDigit _ c hc)
      · simp only [List.mem_singleton] at hc
        rw [hc]; decide
      · exact isAscii_of_isDigit (padDigits_isDigit _ _ c hc)

theorem priceText_utf8ByteSize (v : Float64) :
    (priceText v).utf8ByteSize = (priceText v).length := by
  have h : ∀ c ∈ (priceText v).data, isAscii c = true := by
    intro c hc
    simp only [priceText, String.data_append, List.mem_append] at hc
    rcases hc with hc | hc
    · have : c = '$' := by simpa using hc
      rw [this]; decide
    · exact Sprintf2f_ascii v c hc
  exact utf8ByteSize_of_ascii (priceText v).data h

theorem length_leftSide (key : String) (h : key.length ≤ 32) : (leftSide key).length = 32 := by
  rw [leftSide, String.length_append]
  show key.length + (List.replicate (32 - key.length) ' ').length = 32
  rw [List.length_replicate]
  omega

/-- C17, amended: for an entry whose key has at most 32 characters and whose
price text has at most 20, the unstyled line of the selection view is 54
characters wide and ends with the price text, so that prices end in the same
column. -/
theorem plainLine_width (isSelected : Bool) (p : PriceEntry)
    (hk : p.Key.length ≤ 32) (hp : (priceText p.Value).length ≤ 20) :
    ∃ line : String, plainLine isSelected p = some (line ++ priceText p.Value) ∧
      (line ++ priceText p.Value).length = 54 := by
  have hb := priceText_utf8ByteSize p.Value
  have hn : ¬ (20 - ((priceText p.Value).utf8ByteSize : Int) < 0) := by
    rw [hb]; omega
  refine ⟨(if isSelected then "●" else "○") ++ " " ++ leftSide p.Key ++
    String.mk (List.replicate (20 - ((priceText p.Value).utf8ByteSize : Int)).toNat ' '), ?_, ?_⟩
  · unfold plainLine repeatSpace
    rw [if_neg hn]
  · have hm : (if isSelected then "●" else "○").length = 1 := by
      cases isSelected <;> rfl
    have hsp : (" " : String).length = 1 := rfl
    have hrep : (String.mk (List.replicate
        (20 - ((priceText p.Value).utf8ByteSize : Int)).toNat ' ')).length
        = 20 - (priceText p.Value).length := by
      show (List.replicate _ ' ').length = _
      rw [List.length_replicate, hb]
      omega
    rw [String.length_append, String.length_append, String.length_append, String.length_append,
      length_leftSide _ hk, hm, hsp, hrep]
    omega

/-- The line of the first entry of the built-in table. -/
theorem plainLine_width_witness :
    plainLine false ⟨"XL_UPPER_WINDOW", lit 2364 2⟩ =
      some ("○ XL_UPPER_WINDOW                               $23.64") ∧
    ∃ line : String, plainLine false ⟨"XL_UPPER_WINDOW", lit 2364 2⟩ =
        some (line ++ priceText (lit 2364 2)) ∧
      (line ++ priceText (lit 2364 2)).length = 54 :=
  ⟨by decide!, plainLine_width false ⟨"XL_UPPER_WINDOW", lit 2364 2⟩ (by decide) (by decide!)⟩

/-- C17, as stated, fails: with the same price text, a key of one character
gives a line of 54 characters and a key of 33 characters a line of 55. -/
theorem plainLine_long_key :
    (priceText (lit 100 2)).length ≤ 20 ∧
    (plainLine false ⟨"A", lit 100 2⟩).map String.length = some 54 ∧
    (plainLine false ⟨"AN_IDENTIFIER_OF_33_CHARACTERS_XX", lit 100 2⟩).map String.length
      = some 55 := by
  refine ⟨?_, ?_, ?_⟩ <;> decide!

/-! ## Parsing decimal numerals -/

namespace Strconv

theorem valAcc_append (a : Nat) (l r : List Char) :
    valAcc a (l ++ r) = valAcc (valAcc a l) r := by
  simp [valAcc, List.foldl_append]

theorem valAcc_eq (ds : List Char) : ∀ a : Nat, valAcc a ds = a * 10 ^ ds.length + valAcc 0 ds := by
  induction ds with
  | nil => intro a; simp [valAcc]
  | cons c cs ih =>
    intro a
    show valAcc (a * 10 + (c.toNat - '0'.toNat)) cs = _ + valAcc (0 * 10 + (c.toNat - '0'.toNat)) cs
    rw [ih (a * 10 + _), ih (0 * 10 + _)]
    simp only [List.length_cons, pow_succ]
    ring

theorem digitChar_value (k : Nat) (h : k < 10) : (Nat.digitChar k).toNat - '0'.toNat = k := by
  interval_cases k <;> decide

theorem valAcc_toDigitsCore (fuel : Nat) : ∀ (n : Nat) (ds : List Char), n < fuel →
    valAcc 0 (Nat.toDigitsCore 10 fuel n ds) = valAcc n ds := by
  induction fuel with
  | zero => intro n ds h; omega
  | succ fuel ih =>
    intro n ds h
    simp only [Nat.toDigitsCore]
    have hv := digitChar_value (n % 10) (Nat.mod_lt _ (by decide))
    split
    · rename_i h0
      show valAcc (0 * 10 + ((Nat.digitChar (n % 10)).toNat - '0'.toNat)) ds = _
      rw [hv]
      have : n % 10 = n := by omega
      simp [this]
    · rename_i h0
      rw [ih _ _ (by omega)]
      show valAcc (n / 10 * 10 + ((Nat.digitChar (n % 10)).toNat - '0'.toNat)) ds = _
      rw [hv]
      congr 1
      omega

theorem valAcc_toDigits (n : Nat) : valAcc 0 (Nat.toDigits 10 n) = n := by
  rw [Nat.toDigits, valAcc_toDigitsCore _ _ _ (by omega)]
  rfl

theorem valAcc_replicate_zero (k : Nat) (l : List Char) :
    valAcc 0 (List.replicate k '0' ++ l) = valAcc 0 l := by
  induction k with
  | zero => rfl
  | succ k ih =>
    rw [List.replicate_succ, List.cons_append]
    show valAcc (0 * 10 + ('0'.toNat - '0'.toNat)) _ = _
    simpa using ih

theorem valAcc_padDigits (w n : Nat) : valAcc 0 (padDigits w n) = n := by
  unfold padDigits
  rw [valAcc_replicate_zero, valAcc_toDigits]

theorem toDigits_ne_nil (n : Nat) : Nat.toDigits 10 n ≠ [] := by
  rw [Nat.toDigits]
  simp only [Nat.toDigitsCore]
  split
  · simp
  · intro h
    have := congrArg List.length h
    rw [Nat.toDigitsCore_lens_eq] at this
    simp at this

theorem length_toDigits_le (n e : Nat) (h : n < 10 ^ e) (he : 0 < e) :
    (Nat.toDigits 10 n).length ≤ e :=
  Nat.toDigitsCore_length 10 (by decide) _ _ _ h he

theorem length_padDigits (w n : Nat) (h : n < 10 ^ w) (hw : 0 < w) :
    (padDigits w n).length = w := by
  have := length_toDigits_le n w h hw
  simp only [padDigits, List.length_append, List.length_replicate]
  omega

theorem isDigit_eq_ofNat {c : Char} (h : isDigit c = true) :
    ∃ k : Nat, k < 10 ∧ c = Char.ofNat (48 + k) := by
  simp only [isDigit, Bool.and_eq_true, decide_eq_true_eq] at h
  have h1 : ('0' : Char).val.toNat ≤ c.val.toNat := h.1
  have h2 : c.val.toNat ≤ ('9' : Char).val.toNat := h.2
  have e1 : ('0' : Char).val.toNat = 48 := by decide
  have e2 : ('9' : Char).val.toNat = 57 := by decide
  refine ⟨c.toNat - 48, ?_, ?_⟩
  · show c.val.toNat - 48 < 10
    omega
  · have : 48 + (c.toNat - 48) = c.toNat := by
      show 48 + (c.val.toNat - 48) = c.val.toNat
      omega
    rw [this, Char.ofNat_toNat]

/-- A digit is neither an underscore nor a point, and lower-casing leaves it a
digit. -/
theorem isDigit_cases {c : Char} (h : isDigit c = true) :
    c ≠ '_' ∧ c ≠ '.' ∧ c ≠ '+' ∧ c ≠ '-' ∧ c ≠ 'i' ∧ c ≠ 'I' ∧ c ≠ 'n' ∧ c ≠ 'N' ∧
      lower c ≠ 'x' ∧ lower c ≠ 'e' := by
  simp only [isDigit, Bool.and_eq_true, decide_eq_true_eq] at h
  refine ⟨?_, ?_, ?_, ?_, ?_, ?_, ?_, ?_, ?_, ?_⟩
  · rintro rfl; revert h; decide
  · rintro rfl; revert h; decide
  · rintro rfl; revert h; decide
  · rintro rfl; revert h; decide
  · rintro rfl; revert h; decide
  · rintro rfl; revert h; decide
  · rintro rfl; revert h; decide
  · rintro rfl; revert h; decide
  · obtain ⟨k, hk, rfl⟩ := isDigit_eq_ofNat (by simpa [isDigit] using h)
    interval_cases k <;> decide
  · obtain ⟨k, hk, rfl⟩ := isDigit_eq_ofNat (by simpa [isDigit] using h)
    interval_cases k <;> decide

/-- The mantissa loop reads a run of digits by pushing each of them. -/
theorem readMantissa_digits (ds : List Char) (hds : ∀ c ∈ ds, isDigit c = true) :
    ∀ (r : List Char) (d : Mantissa),
      readMantissa false (ds ++ r) d =
        readMantissa false r (ds.foldl (fun d c => d.push 10 (c.toNat - '0'.toNat)) d) := by
  induction ds with
  | nil => intro r d; rfl
  | cons c cs ih =>
    intro r d
    have hc := isDigit_cases (hds c (List.mem_cons_self _ _))
    have hcd := hds c (List.mem_cons_self _ _)
    rw [List.cons_append, readMantissa]
    simp only [hc.1, hc.2.1, if_false, hcd, if_true]
    rw [ih (fun c h => hds c (List.mem_cons_of_mem _ h))]
    rfl

theorem foldl_push (ds : List Char) : ∀ d : Mantissa,
    ds.foldl (fun d c => d.push 10 (c.toNat - '0'.toNat)) d =
      { digits := valAcc d.digits ds
        fracDigits := if d.sawdot then d.fracDigits + ds.length else d.fracDigits
        sawdot := d.sawdot
        sawdigits := d.sawdigits || !ds.isEmpty
        underscores := d.underscores } := by
  induction ds with
  | nil => intro d; cases d; simp [valAcc]
  | cons c cs ih =>
    intro d
    rw [List.foldl_cons, ih]
    cases d with
    | mk dg fd sd sg us =>
      cases sd
      · simp [Mantissa.push, valAcc]
      · simp [Mantissa.push, valAcc]; omega

/-- The mantissa loop on digits, a point and more digits. -/
theorem readMantissa_fraction (ds fs : List Char) (hds : ∀ c ∈ ds, isDigit c = true)
    (hfs : ∀ c ∈ fs, isDigit c = true) (hne : ds ≠ []) :
    readMantissa false (ds ++ '.' :: fs) {} =
      ({ digits := valAcc 0 (ds ++ fs), fracDigits := fs.length, sawdot := true,
         sawdigits := true, underscores := false }, []) := by
  rw [readMantissa_digits ds hds, foldl_push, readMantissa]
  simp only [show ('.' : Char) ≠ '_' by decide, if_false, if_true]
  have h := readMantissa_digits fs hfs []
  rw [List.append_nil] at h
  rw [h, foldl_push, readMantissa]
  have : ds.isEmpty = false := by
    cases ds with
    | nil => exact absurd rfl hne
    | cons a b => rfl
  simp [this, valAcc_append]

/-- The mantissa loop on digits alone. -/
theorem readMantissa_integer (ds : List Char) (hds : ∀ c ∈ ds, isDigit c = true)
    (hne : ds ≠ []) :
    readMantissa false ds {} =
      ({ digits := valAcc 0 ds, fracDigits := 0, sawdot := false,
         sawdigits := true, underscores := false }, []) := by
  have h := readMantissa_digits ds hds []
  rw [List.append_nil] at h
  rw [h, foldl_push, readMantissa]
  have : ds.isEmpty = false := by
    cases ds with
    | nil => exact absurd rfl hne
    | cons a b => rfl
  simp [this]

/-- A text that starts with a digit, with or without a minus sign before it, is
none of the special values. -/
theorem special_number (neg : Bool) (c : Char) (r : List Char) (hc : isDigit c = true) :
    special ((if neg then ['-'] else []) ++ c :: r) = none := by
  have h := isDigit_cases hc
  have hu : ¬ ('A' ≤ c ∧ c ≤ 'Z') := by
    obtain ⟨k, hk, rfl⟩ := isDigit_eq_ofNat hc
    interval_cases k <;> decide
  cases neg with
  | true =>
    show special ('-' :: c :: r) = none
    simp only [special, show ('-' : Char) ≠ '+' by decide, if_false, if_true]
    have : commonPrefixLenIgnoreCase (c :: r) "infinity".data = 0 := by
      show commonPrefixLenIgnoreCase (c :: r) ('i' :: "nfinity".data) = 0
      simp only [commonPrefixLenIgnoreCase, hu, if_false, h.2.2.2.2.1]
    simp [this]
  | false =>
    show special (c :: r) = none
    simp only [special, h.2.2.1, h.2.2.2.1, h.2.2.2.2.1, h.2.2.2.2.2.1, h.2.2.2.2.2.2.1,
      h.2.2.2.2.2.2.2.1, if_false, or_self]

/-- A text of digits and points has no hexadecimal prefix. -/
theorem no_hex_prefix (body : List Char) (h : ∀ c ∈ body, isDigit c = true ∨ c = '.') :
    readFloat.match_1 (fun _ => Bool) body (fun x _ _ => decide (lower x = 'x'))
      (fun _ => false) = false := by
  split
  · rename_i x _ _
    have hx := h x (by simp)
    rcases hx with hx | hx
    · simpa using (isDigit_cases hx).2.2.2.2.2.2.2.2.1
    · rw [hx]; decide
  · rfl

theorem readFloat_body (neg : Bool) (c : Char) (r : List Char) (hc : isDigit c = true)
    (hr : ∀ c ∈ r, isDigit c = true ∨ c = '.') (m : Mantissa)
    (hm : readMantissa false (c :: r) {} = (m, []))
    (hu : m.underscores = false) (hs : m.sawdigits = true) :
    readFloat ((if neg then ['-'] else []) ++ c :: r) = some (neg, false, m, 0, []) := by
  have hb : ∀ x ∈ c :: r, isDigit x = true ∨ x = '.' := by
    intro x hx
    rcases List.mem_cons.1 hx with hx | hx
    · rw [hx]; exact Or.inl hc
    · exact hr x hx
  have hh := no_hex_prefix (c :: r) hb
  have hcc := isDigit_cases hc
  cases neg with
  | true =>
    show readFloat ('-' :: c :: r) = _
    unfold readFloat
    simp only [show ('-' : Char) ≠ '+' by decide, false_or, if_true, hh, Bool.false_eq_true,
      if_false, hm, hs, hu, Bool.not_true, readExponent, Bool.or_self, Bool.false_and,
      decide_True]
  | false =>
    show readFloat (c :: r) = _
    unfold readFloat
    simp only [hcc.2.2.1, hcc.2.2.2.1, or_self, if_false, hh, Bool.false_eq_true,
      hm, hs, hu, Bool.not_true, readExponent, Bool.or_self, Bool.false_and,
      decide_False]

/-- Parsing an optional minus sign, digits, a point and digits: the number the
digits stand for over the power of ten of the fraction length, rounded. -/
theorem ParseFloat_fraction (neg : Bool) (ds fs : List Char)
    (hds : ∀ c ∈ ds, isDigit c = true) (hfs : ∀ c ∈ fs, isDigit c = true) (hne : ds ≠ []) :
    ParseFloat (String.mk ((if neg then ['-'] else []) ++ (ds ++ '.' :: fs))) =
      (Float64.ofRatio neg (valAcc 0 (ds ++ fs)) (10 ^ fs.length),
        (Float64.ofRatio neg (valAcc 0 (ds ++ fs)) (10 ^ fs.length)).isInf) := by
  obtain ⟨c, r, rfl⟩ : ∃ c r, ds = c :: r := by
    cases ds with
    | nil => exact absurd rfl hne
    | cons c r => exact ⟨c, r, rfl⟩
  have hc : isDigit c = true := hds c (List.mem_cons_self _ _)
  have hr : ∀ x ∈ r ++ '.' :: fs, isDigit x = true ∨ x = '.' := by
    intro x hx
    rcases List.mem_append.1 hx with hx | hx
    · exact Or.inl (hds x (List.mem_cons_of_mem _ hx))
    · rcases List.mem_cons.1 hx with hx | hx
      · exact Or.inr hx
      · exact Or.inl (hfs x hx)
  have hm := readMantissa_fraction (c :: r) fs hds hfs hne
  have hrf := readFloat_body neg c (r ++ '.' :: fs) hc hr _ hm rfl rfl
  have hsp := special_number neg c (r ++ '.' :: fs) hc
  unfold ParseFloat
  simp only [List.cons_append] at hrf hsp ⊢
  rw [hsp, hrf]
  simp only [List.isEmpty_nil, Bool.not_true, Bool.false_eq_true, if_false]
  have h1 : ((0 : Int) - (fs.length : Int)).toNat = 0 := by omega
  have h2 : (-((0 : Int) - (fs.length : Int))).toNat = fs.length := by omega
  simp only [h1, h2, pow_zero, mul_one]

/-- Parsing an optional minus sign and digits: the number the digits stand for,
rounded. -/
theorem ParseFloat_integer (neg : Bool) (ds : List Char)
    (hds : ∀ c ∈ ds, isDigit c = true) (hne : ds ≠ []) :
    ParseFloat (String.mk ((if neg then ['-'] else []) ++ ds)) =
      (Float64.ofRatio neg (valAcc 0 ds) 1, (Float64.ofRatio neg (valAcc 0 ds) 1).isInf) := by
  obtain ⟨c, r, rfl⟩ : ∃ c r, ds = c :: r := by
    cases ds with
    | nil => exact absurd rfl hne
    | cons c r => exact ⟨c, r, rfl⟩
  have hc : isDigit c = true := hds c (List.mem_cons_self _ _)
  have hr : ∀ x ∈ r, isDigit x = true ∨ x = '.' :=
    fun x hx => Or.inl (hds x (List.mem_cons_of_mem _ hx))
  have hm := readMantissa_integer (c :: r) hds hne
  have hrf := readFloat_body neg c r hc hr _ hm rfl rfl
  have hsp := special_number neg c r hc
  unfold ParseFloat
  rw [hsp, hrf]
  simp only [List.isEmpty_nil, Bool.not_true, Bool.false_eq_true, if_false]
  simp

end Strconv

/-! ## The values of bit patterns and rounding -/

namespace Float64

theorem U_pos (b : Nat) : 0 < U b := by
  unfold U; positivity

theorem two_zpow_shift (t : ℤ) : (2 : ℚ) ^ (t + 1 - 1075) = 2 * 2 ^ (t - 1075) := by
  rw [show t + 1 - 1075 = t - 1075 + 1 by ring, zpow_add_one₀ (by norm_num)]
  ring

theorem V_succ (b : Nat) : V (b + 1) = V b + U b := by
  have hlt : b % 2 ^ 52 < 2 ^ 52 := Nat.mod_lt _ (by positivity)
  have hb : b = b / 2 ^ 52 * 2 ^ 52 + b % 2 ^ 52 := by
    have := Nat.div_add_mod b (2 ^ 52)
    rw [Nat.mul_comm] at this
    exact this.symm
  by_cases hf : b % 2 ^ 52 + 1 < 2 ^ 52
  · have h1 : (b + 1) / 2 ^ 52 = b / 2 ^ 52 := by
      have : b + 1 = b / 2 ^ 52 * 2 ^ 52 + (b % 2 ^ 52 + 1) := by omega
      rw [this, Nat.mul_comm, Nat.mul_add_div (by positivity), Nat.div_eq_of_lt hf]
      simp
    have h2 : (b + 1) % 2 ^ 52 = b % 2 ^ 52 + 1 := by
      have : b + 1 = b / 2 ^ 52 * 2 ^ 52 + (b % 2 ^ 52 + 1) := by omega
      rw [this, Nat.mul_comm, Nat.mul_add_mod, Nat.mod_eq_of_lt hf]
    unfold V U absRat ofBits mant exp2
    simp only [h1, h2]
    split_ifs
    · push_cast; ring
    · push_cast; ring
  · have hf2 : b % 2 ^ 52 = 2 ^ 52 - 1 := by omega
    have h1 : (b + 1) / 2 ^ 52 = b / 2 ^ 52 + 1 := by
      have : b + 1 = (b / 2 ^ 52 + 1) * 2 ^ 52 := by
        have : (b / 2 ^ 52 + 1) * 2 ^ 52 = b / 2 ^ 52 * 2 ^ 52 + 2 ^ 52 := by ring
        omega
      rw [this, Nat.mul_div_cancel _ (by positivity)]
    have h2 : (b + 1) % 2 ^ 52 = 0 := by
      have : b + 1 = (b / 2 ^ 52 + 1) * 2 ^ 52 := by
        have : (b / 2 ^ 52 + 1) * 2 ^ 52 = b / 2 ^ 52 * 2 ^ 52 + 2 ^ 52 := by ring
        omega
      rw [this, Nat.mul_mod_left]
    unfold V U absRat ofBits mant exp2
    simp only [h1, h2, hf2]
    by_cases hk : b / 2 ^ 52 = 0
    · simp only [hk]
      norm_num
    · simp only [hk, if_false, Nat.succ_ne_zero, Nat.add_eq_zero, one_ne_zero, and_false]
      push_cast
      rw [two_zpow_shift]
      ring

theorem V_lt_succ (b : Nat) : V b < V (b + 1) := by
  rw [V_succ]; linarith [U_pos b]

theorem V_mono {a b : Nat} (h : a ≤ b) : V a ≤ V b := by
  induction b with
  | zero =>
    have : a = 0 := by omega
    rw [this]
  | succ b ih =>
    rcases Nat.lt_or_ge a (b + 1) with h1 | h1
    · exact le_trans (ih (by omega)) (le_of_lt (V_lt_succ b))
    · have : a = b + 1 := by omega
      rw [this]

theorem V_strictMono {a b : Nat} (h : a < b) : V a < V b :=
  lt_of_lt_of_le (V_lt_succ a) (V_mono h)

/-- A rational rounds to at most one bit pattern. -/
theorem rounds_unique {a b : Nat} {ρ : ℚ} (ha : rounds a ρ) (hb : rounds b ρ) : a = b := by
  by_contra hne
  wlog hlt : a < b generalizing a b
  · exact this hb ha (fun e => hne e.symm) (by omega)
  obtain ⟨_, ha2, ha3⟩ := ha
  obtain ⟨hb1, _, hb3⟩ := hb
  have hb0 : b ≠ 0 := by omega
  have hb1' : V (b - 1) + V b ≤ 2 * ρ := by
    rcases hb1 with h | h
    · exact absurd h hb0
    · exact h
  have h1 : V a ≤ V (b - 1) := V_mono (by omega)
  have h2 : V (a + 1) ≤ V b := V_mono (by omega)
  rcases Nat.lt_or_ge (a + 1) b with h | h
  · have : V (a + 1) < V b := V_strictMono h
    linarith
  · have hab : b = a + 1 := by omega
    subst hab
    simp only [Nat.add_sub_cancel] at hb1' hb3
    rcases Nat.mod_two_eq_zero_or_one a with hpar | hpar
    · have := hb3 (by omega)
      linarith [this.1]
    · have := ha3 hpar
      linarith [this.2]

theorem isHalfEven_roundDiv (n d : Nat) (hd : 0 < d) :
    isHalfEven ((n : ℚ) / d) (roundDiv n d) := by
  have hdq : (0 : ℚ) < d := by exact_mod_cast hd
  have hn : (n : ℚ) = (n / d : ℕ) * d + (n % d : ℕ) := by
    have := Nat.div_add_mod n d
    have h2 : ((d * (n / d) + n % d : ℕ) : ℚ) = n := by rw [this]
    push_cast at h2
    linarith
  have hr : (n % d : ℕ) < d := Nat.mod_lt _ hd
  have hrq : ((n % d : ℕ) : ℚ) < d := by exact_mod_cast hr
  have hx : (n : ℚ) / d = (n / d : ℕ) + ((n % d : ℕ) : ℚ) / d := by
    rw [hn]; field_simp
  have hr0 : (0 : ℚ) ≤ ((n % d : ℕ) : ℚ) / d := by positivity
  have hr1 : ((n % d : ℕ) : ℚ) / d < 1 := by
    rw [div_lt_one hdq]; exact hrq
  unfold roundDiv isHalfEven
  rw [hx]
  split_ifs with h
  · push_cast
    have hge : (1 : ℚ) / 2 ≤ ((n % d : ℕ) : ℚ) / d := by
      rw [le_div_iff₀ hdq]
      rcases h with h | h
      · have : ((d : ℕ) : ℚ) < 2 * ((n % d : ℕ) : ℚ) := by exact_mod_cast h
        linarith
      · have : (2 : ℚ) * ((n % d : ℕ) : ℚ) = d := by exact_mod_cast h.1
        linarith
    have habs : |((n / d : ℕ) : ℚ) + 1 - (((n / d : ℕ) : ℚ) + ((n % d : ℕ) : ℚ) / d)| =
        1 - ((n % d : ℕ) : ℚ) / d := by
      rw [abs_of_nonneg (by linarith)]; ring
    rw [habs]
    refine ⟨by linarith, ?_⟩
    intro heq
    have h2 : ((n % d : ℕ) : ℚ) / d = 1 / 2 := by linarith
    have h3 : (2 : ℚ) * ((n % d : ℕ) : ℚ) = d := by
      field_simp at h2
      linarith
    have h4 : 2 * (n % d) = d := by exact_mod_cast h3
    rcases h with h | h
    · omega
    · omega
  · have hle : ((n % d : ℕ) : ℚ) / d ≤ 1 / 2 := by
      rw [div_le_iff₀ hdq]
      have : ¬ d < 2 * (n % d) := fun hh => h (Or.inl hh)
      have : 2 * (n % d) ≤ d := by omega
      have : (2 : ℚ) * ((n % d : ℕ) : ℚ) ≤ d := by exact_mod_cast this
      linarith
    have habs : |((n / d : ℕ) : ℚ) - (((n / d : ℕ) : ℚ) + ((n % d : ℕ) : ℚ) / d)| =
        ((n % d : ℕ) : ℚ) / d := by
      rw [abs_of_nonpos (by linarith)]; ring
    rw [habs]
    refine ⟨hle, ?_⟩
    intro heq
    have h3 : (2 : ℚ) * ((n % d : ℕ) : ℚ) = d := by
      field_simp at heq
      linarith
    have h4 : 2 * (n % d) = d := by exact_mod_cast h3
    by_contra hodd
    exact h (Or.inr ⟨h4, by omega⟩)

theorem isHalfEven_unique {ρ : ℚ} {a b : Nat} (ha : isHalfEven ρ a) (hb : isHalfEven ρ b) :
    a = b := by
  obtain ⟨ha1, ha2⟩ := ha
  obtain ⟨hb1, hb2⟩ := hb
  rw [abs_le] at ha1 hb1
  by_contra hne
  rcases Nat.lt_or_gt_of_ne hne with h | h
  · have h1 : (a : ℚ) + 1 ≤ b := by exact_mod_cast h
    have e1 : (b : ℚ) - ρ = 1 / 2 := by linarith
    have e2 : (a : ℚ) - ρ = -(1 / 2) := by linarith
    have e3 : (b : ℚ) = a + 1 := by linarith
    have e4 : b = a + 1 := by exact_mod_cast e3
    have p1 := hb2 (by rw [e1]; norm_num)
    have p2 := ha2 (by rw [e2]; norm_num)
    omega
  · have h1 : (b : ℚ) + 1 ≤ a := by exact_mod_cast h
    have e1 : (a : ℚ) - ρ = 1 / 2 := by linarith
    have e2 : (b : ℚ) - ρ = -(1 / 2) := by linarith
    have e3 : (a : ℚ) = b + 1 := by linarith
    have e4 : a = b + 1 := by exact_mod_cast e3
    have p1 := ha2 (by rw [e1]; norm_num)
    have p2 := hb2 (by rw [e2]; norm_num)
    omega

theorem isHalfEven_mono {ρ σ : ℚ} {a b : Nat} (h : ρ ≤ σ) (ha : isHalfEven ρ a)
    (hb : isHalfEven σ b) : a ≤ b := by
  obtain ⟨ha1, ha2⟩ := ha
  obtain ⟨hb1, hb2⟩ := hb
  rw [abs_le] at ha1 hb1
  by_contra hlt
  have h0 : b < a := by omega
  have h1 : (b : ℚ) + 1 ≤ a := by exact_mod_cast h0
  have e1 : (a : ℚ) - ρ = 1 / 2 := by linarith
  have e2 : (b : ℚ) - σ = -(1 / 2) := by linarith
  have e3 : (a : ℚ) = b + 1 := by linarith
  have e4 : a = b + 1 := by exact_mod_cast e3
  have p1 := ha2 (by rw [e1]; norm_num)
  have p2 := hb2 (by rw [e2]; norm_num)
  omega

end Float64

/-! ## Rounding of quotients -/

open Float64 Strconv

namespace Float64

theorem ofRatio_eq (neg : Bool) (num den : Nat) :
    ofRatio neg num den =
      if num = 0 then zero neg
      else if 2047 * 2 ^ 52 ≤ ratioBits num den then inf neg
      else ofBits neg (ratioBits num den) := rfl

theorem bitLength_spec : ∀ (fuel n : Nat), n ≤ fuel → 0 < n →
    2 ^ (bitLength fuel n - 1) ≤ n ∧ n < 2 ^ bitLength fuel n ∧ 0 < bitLength fuel n := by
  intro fuel
  induction fuel with
  | zero => intro n h1 h2; omega
  | succ fuel ih =>
    intro n h1 h2
    have hn : n ≠ 0 := by omega
    simp only [bitLength, if_neg hn]
    by_cases h0 : n / 2 = 0
    · have hb : bitLength fuel (n / 2) = 0 := by
        rw [h0]
        cases fuel with
        | zero => rfl
        | succ f => simp [bitLength]
      rw [hb]
      have : n = 1 := by omega
      subst this
      simp
    · obtain ⟨a, b, c⟩ := ih (n / 2) (by omega) (by omega)
      refine ⟨?_, ?_, by omega⟩
      · have e : bitLength fuel (n / 2) + 1 - 1 = (bitLength fuel (n / 2) - 1) + 1 := by omega
        rw [e, pow_succ]
        omega
      · rw [pow_succ]
        omega

/-- Scaling numerator or denominator by the power of two is division by
`2 ^ e`. -/
theorem scaled_ratio (num den : Nat) (e : Int) :
    ((num * 2 ^ (-e).toNat : Nat) : ℚ) / ((den * 2 ^ e.toNat : Nat) : ℚ) =
      (num : ℚ) / den / (2 : ℚ) ^ e := by
  rcases Int.eq_nat_or_neg e with ⟨n, rfl | rfl⟩
  · have h1 : (-(n : Int)).toNat = 0 := by omega
    have h2 : ((n : Int)).toNat = n := by omega
    rw [h1, h2, zpow_natCast]
    push_cast
    by_cases hd : (den : ℚ) = 0
    · simp [hd]
    · field_simp
  · have h1 : (-(-(n : Int))).toNat = n := by omega
    have h2 : (-(n : Int)).toNat = 0 := by omega
    rw [h1, h2, zpow_neg, zpow_natCast]
    push_cast
    by_cases hd : (den : ℚ) = 0
    · simp [hd]
    · field_simp

/-- Natural division brackets the rational quotient. -/
theorem div_bracket (n d : Nat) (hd : 0 < d) :
    ((n / d : Nat) : ℚ) ≤ (n : ℚ) / d ∧ (n : ℚ) / d < ((n / d : Nat) : ℚ) + 1 := by
  have hdq : (0 : ℚ) < d := by exact_mod_cast hd
  constructor
  · rw [le_div_iff₀ hdq]
    have : n / d * d ≤ n := Nat.div_mul_le_self n d
    exact_mod_cast this
  · rw [div_lt_iff₀ hdq]
    have : n < (n / d + 1) * d := by
      have := Nat.lt_div_mul_add hd (a := n)
      rw [Nat.add_mul, Nat.one_mul]
      exact this
    exact_mod_cast this

theorem two_zpow_natCast (n : Nat) : (2 : ℚ) ^ (n : ℤ) = ((2 ^ n : Nat) : ℚ) := by
  rw [zpow_natCast]; push_cast; rfl

/-- The quotient lies within a factor two of the power of two given by the
difference of the bit lengths. -/
theorem ratio_window (num den a b : Nat) (hd : 0 < den) (a1 : 2 ^ (a - 1) ≤ num)
    (a2 : num < 2 ^ a) (a3 : 0 < a) (b1 : 2 ^ (b - 1) ≤ den) (b2 : den < 2 ^ b) (b3 : 0 < b) :
    (2 : ℚ) ^ ((a : ℤ) - b - 1) < (num : ℚ) / den ∧ (num : ℚ) / den < 2 ^ ((a : ℤ) - b + 1) := by
  obtain ⟨a', rfl⟩ : ∃ a', a = a' + 1 := ⟨a - 1, by omega⟩
  obtain ⟨b', rfl⟩ : ∃ b', b = b' + 1 := ⟨b - 1, by omega⟩
  simp only [Nat.add_sub_cancel] at a1 b1
  have hdq : (0 : ℚ) < den := by exact_mod_cast hd
  have a1q : ((2 ^ a' : Nat) : ℚ) ≤ num := by exact_mod_cast a1
  have a2q : (num : ℚ) < ((2 ^ (a' + 1) : Nat) : ℚ) := by exact_mod_cast a2
  have b1q : ((2 ^ b' : Nat) : ℚ) ≤ den := by exact_mod_cast b1
  have b2q : (den : ℚ) < ((2 ^ (b' + 1) : Nat) : ℚ) := by exact_mod_cast b2
  rw [← two_zpow_natCast] at a1q a2q b1q b2q
  have h2 : (2 : ℚ) ≠ 0 := by norm_num
  constructor
  · rw [lt_div_iff₀ hdq]
    have hp : (0 : ℚ) < 2 ^ (((a' + 1 : Nat) : ℤ) - ((b' + 1 : Nat) : ℤ) - 1) := by positivity
    calc (2 : ℚ) ^ (((a' + 1 : Nat) : ℤ) - ((b' + 1 : Nat) : ℤ) - 1) * den
        < 2 ^ (((a' + 1 : Nat) : ℤ) - ((b' + 1 : Nat) : ℤ) - 1) * 2 ^ ((b' + 1 : Nat) : ℤ) :=
          mul_lt_mul_of_pos_left b2q hp
      _ = 2 ^ (a' : ℤ) := by
          rw [← zpow_add₀ h2]
          congr 1
          push_cast
          ring
      _ ≤ num := a1q
  · rw [div_lt_iff₀ hdq]
    have hp : (0 : ℚ) < 2 ^ (((a' + 1 : Nat) : ℤ) - ((b' + 1 : Nat) : ℤ) + 1) := by positivity
    calc (num : ℚ) < 2 ^ ((a' + 1 : Nat) : ℤ) := a2q
      _ = 2 ^ (((a' + 1 : Nat) : ℤ) - ((b' + 1 : Nat) : ℤ) + 1) * 2 ^ (b' : ℤ) := by
          rw [← zpow_add₀ h2]
          congr 1
          push_cast
          ring
      _ ≤ 2 ^ (((a' + 1 : Nat) : ℤ) - ((b' + 1 : Nat) : ℤ) + 1) * den :=
          mul_le_mul_of_nonneg_left b1q (le_of_lt hp)

/-- The exponent `ofRatio` settles on: it is in range, the scaled quotient is
below `2 ^ 53`, and at least `2 ^ 52` unless the exponent is the least one. -/
theorem ratioExp_spec (num den : Nat) (hn : 0 < num) (hd : 0 < den) :
    -1074 ≤ ratioExp num den ∧
    (num : ℚ) / den / 2 ^ ratioExp num den < 2 ^ 53 ∧
    (-1074 < ratioExp num den → (2 : ℚ) ^ 52 ≤ (num : ℚ) / den / 2 ^ ratioExp num den) := by
  obtain ⟨a1, a2, a3⟩ := bitLength_spec num num le_rfl hn
  obtain ⟨b1, b2, b3⟩ := bitLength_spec den den le_rfl hd
  obtain ⟨hlo, hup⟩ := ratio_window num den _ _ hd a1 a2 a3 b1 b2 b3
  have h2 : (2 : ℚ) ≠ 0 := by norm_num
  unfold ratioExp
  simp only []
  generalize hk : (bitLength num num : ℤ) - (bitLength den den : ℤ) = k at hlo hup ⊢
  generalize he0 : max (k - 53) (-1074) = e0
  have he0a : k - 53 ≤ e0 := by rw [← he0]; exact le_max_left _ _
  have he0b : -1074 ≤ e0 := by rw [← he0]; exact le_max_right _ _
  have he0c : -1074 < e0 → e0 = k - 53 := by
    intro h
    rw [← he0] at h ⊢
    rcases max_cases (k - 53) (-1074) with ⟨h1, _⟩ | ⟨h1, _⟩
    · exact h1
    · rw [h1] at h; omega
  have hT : (0 : ℚ) < 2 ^ e0 := by positivity
  have hpos : 0 < den * 2 ^ e0.toNat := by positivity
  have hq := div_bracket (num * 2 ^ (-e0).toNat) (den * 2 ^ e0.toNat) hpos
  rw [scaled_ratio] at hq
  obtain ⟨hq1, hq2⟩ := hq
  have h54 : (num : ℚ) / den / 2 ^ e0 < 2 ^ 54 := by
    rw [div_lt_iff₀ hT]
    calc (num : ℚ) / den < 2 ^ (k + 1) := hup
      _ ≤ 2 ^ (54 + e0) := zpow_le_zpow_right₀ (by norm_num) (by omega)
      _ = 2 ^ 54 * 2 ^ e0 := by
          rw [zpow_add₀ h2]
          norm_num
  split_ifs with h
  · have hqq : ((2 ^ 53 : Nat) : ℚ) ≤ ((num * 2 ^ (-e0).toNat / (den * 2 ^ e0.toNat) : Nat) : ℚ) := by
      exact_mod_cast h
    have e1 : (2 : ℚ) ^ (e0 + 1) = 2 ^ e0 * 2 := zpow_add_one₀ h2 e0
    rw [e1, ← div_div]
    refine ⟨by omega, ?_, ?_⟩
    · linarith
    · intro _
      push_cast at hqq
      linarith
  · have hqq : ((num * 2 ^ (-e0).toNat / (den * 2 ^ e0.toNat) : Nat) : ℚ) + 1 ≤ ((2 ^ 53 : Nat) : ℚ) := by
      have : num * 2 ^ (-e0).toNat / (den * 2 ^ e0.toNat) + 1 ≤ 2 ^ 53 := by omega
      exact_mod_cast this
    refine ⟨he0b, ?_, ?_⟩
    · push_cast at hqq
      linarith
    · intro hlt
      have := he0c hlt
      rw [le_div_iff₀ hT]
      have e2 : (2 : ℚ) ^ 52 * 2 ^ e0 = 2 ^ (k - 1) := by
        rw [this, show k - 1 = 52 + (k - 53) by ring, zpow_add₀ h2]
        norm_num
      rw [e2]
      exact le_of_lt hlo

theorem V_subnormal (m : Nat) (h : m < 2 ^ 52) : V m = m * 2 ^ (-1074 : ℤ) := by
  have h1 : m / 2 ^ 52 = 0 := Nat.div_eq_of_lt h
  have h2 : m % 2 ^ 52 = m := Nat.mod_eq_of_lt h
  unfold V absRat ofBits mant exp2
  simp only [h1, h2, if_true]
  norm_num

theorem V_normal (E m : Nat) (h1 : 2 ^ 52 ≤ m) (h2 : m < 2 ^ 53) :
    V (E * 2 ^ 52 + m) = m * 2 ^ ((E : ℤ) - 1074) := by
  have e1 : (E * 2 ^ 52 + m) / 2 ^ 52 = E + 1 := by omega
  have e2 : (E * 2 ^ 52 + m) % 2 ^ 52 = m - 2 ^ 52 := by omega
  have e3 : 2 ^ 52 + (m - 2 ^ 52) = m := by omega
  unfold V absRat ofBits mant exp2
  simp only [e1, e2, e3, Nat.succ_ne_zero, if_false]
  rw [show ((E + 1 : ℕ) : ℤ) - 1075 = (E : ℤ) - 1074 by push_cast; ring]

/-- The magnitude at the bit pattern made of an exponent field and a
significand that may have carried into the next binade. -/
theorem V_bits (E m : Nat) (hm : m ≤ 2 ^ 53) (hE : E = 0 ∨ 2 ^ 52 ≤ m) :
    V (E * 2 ^ 52 + m) = m * 2 ^ ((E : ℤ) - 1074) := by
  rcases Nat.lt_or_ge m (2 ^ 52) with h | h
  · have : E = 0 := by omega
    subst this
    rw [Nat.zero_mul, Nat.zero_add, V_subnormal m h]
    norm_num
  · rcases Nat.lt_or_ge m (2 ^ 53) with h' | h'
    · exact V_normal E m h h'
    · have hm' : m = 2 ^ 53 := by omega
      subst hm'
      have : E * 2 ^ 52 + 2 ^ 53 = (E + 1) * 2 ^ 52 + 2 ^ 52 := by omega
      rw [this, V_normal (E + 1) (2 ^ 52) (by norm_num) (by norm_num)]
      push_cast
      rw [show ((E : ℤ) + 1 - 1074) = ((E : ℤ) - 1074) + 1 by ring,
        zpow_add_one₀ (by norm_num)]
      ring

/-- The rounding step of `ofRatio` is sound: the scaled quotient rounded half to
even, placed under its exponent field, is a bit pattern the value rounds to. -/
theorem rounds_of_halfEven (E q1 : Nat) (ρ' : ℚ) (hh : isHalfEven ρ' q1) (hlt : ρ' < 2 ^ 53)
    (hge : 0 < E → 2 ^ 52 ≤ ρ') :
    rounds (E * 2 ^ 52 + q1) (ρ' * 2 ^ ((E : ℤ) - 1074)) := by
  obtain ⟨hh1, hh2⟩ := hh
  rw [abs_le] at hh1
  have hT : (0 : ℚ) < 2 ^ ((E : ℤ) - 1074) := by positivity
  have hq53 : q1 ≤ 2 ^ 53 := by
    have : (q1 : ℚ) < ((2 ^ 53 + 1 : Nat) : ℚ) := by push_cast; linarith [hh1.2]
    have : q1 < 2 ^ 53 + 1 := by exact_mod_cast this
    omega
  have hq52 : 0 < E → 2 ^ 52 ≤ q1 := by
    intro hE
    have := hge hE
    have : ((2 ^ 52 - 1 : Nat) : ℚ) < (q1 : ℚ) := by push_cast; linarith [hh1.1]
    have : 2 ^ 52 - 1 < q1 := by exact_mod_cast this
    omega
  have hVb : V (E * 2 ^ 52 + q1) = q1 * 2 ^ ((E : ℤ) - 1074) :=
    V_bits E q1 hq53 (by rcases Nat.eq_zero_or_pos E with h | h; exact Or.inl h; exact Or.inr (hq52 h))
  have hprev : q1 ≠ 0 → (E = 0 ∨ 2 ^ 52 < q1) →
      V (E * 2 ^ 52 + q1 - 1) = ((q1 : ℚ) - 1) * 2 ^ ((E : ℤ) - 1074) := by
    intro h0 hE
    have : E * 2 ^ 52 + q1 - 1 = E * 2 ^ 52 + (q1 - 1) := by omega
    rw [this, V_bits E (q1 - 1) (by omega) (by omega)]
    congr 1
    rw [Nat.cast_sub (by omega)]
    simp
  have hnext : q1 < 2 ^ 53 →
      V (E * 2 ^ 52 + q1 + 1) = ((q1 : ℚ) + 1) * 2 ^ ((E : ℤ) - 1074) := by
    intro h
    have : E * 2 ^ 52 + q1 + 1 = E * 2 ^ 52 + (q1 + 1) := by omega
    rw [this, V_bits E (q1 + 1) (by omega)
      (by rcases Nat.eq_zero_or_pos E with h | h; exact Or.inl h; exact Or.inr (by have := hq52 h; omega))]
    congr 1
    push_cast
    rfl
  refine ⟨?_, ?_, ?_⟩
  · by_cases h0 : q1 = 0
    · left
      rcases Nat.eq_zero_or_pos E with h | h
      · rw [h, h0]; rfl
      · have := hq52 h; omega
    · right
      by_cases hc : E = 0 ∨ 2 ^ 52 < q1
      · rw [hprev h0 hc, hVb]
        nlinarith [hh1.2]
      · have hE : 0 < E := by omega
        have hq : q1 = 2 ^ 52 := by have := hq52 hE; omega
        have hm : V (E * 2 ^ 52 + q1 - 1) ≤ V (E * 2 ^ 52 + q1) := V_mono (by omega)
        have hr := hge hE
        rw [hVb] at hm ⊢
        have hq' : (q1 : ℚ) = 2 ^ 52 := by rw [hq]; norm_num
        rw [hq'] at hm ⊢
        nlinarith
  · by_cases hc : q1 < 2 ^ 53
    · rw [hnext hc, hVb]
      nlinarith [hh1.1]
    · have hq : q1 = 2 ^ 53 := by omega
      have hm : V (E * 2 ^ 52 + q1) ≤ V (E * 2 ^ 52 + q1 + 1) := V_mono (by omega)
      rw [hVb] at hm ⊢
      have hq' : (q1 : ℚ) = 2 ^ 53 := by rw [hq]; norm_num
      rw [hq'] at hm ⊢
      nlinarith
  · intro hodd
    have hq1odd : q1 % 2 = 1 := by omega
    have hne : |(q1 : ℚ) - ρ'| ≠ 1 / 2 := by
      intro h
      have := hh2 h
      omega
    have hlt1 : (q1 : ℚ) - ρ' < 1 / 2 := by
      rcases lt_or_eq_of_le hh1.2 with h | h
      · exact h
      · exfalso; apply hne; rw [h]; norm_num
    have hlt2 : -(1 / 2) < (q1 : ℚ) - ρ' := by
      rcases lt_or_eq_of_le hh1.1 with h | h
      · exact h
      · exfalso; apply hne; rw [← h]; norm_num
    have h0 : q1 ≠ 0 := by omega
    have h53 : q1 < 2 ^ 53 := by omega
    have hE : E = 0 ∨ 2 ^ 52 < q1 := by
      rcases Nat.eq_zero_or_pos E with h | h
      · exact Or.inl h
      · have := hq52 h
        right
        omega
    rw [hprev h0 hE, hnext h53, hVb]
    constructor
    · nlinarith
    · nlinarith

/-- The bit pattern `ofRatio` computes is one the quotient rounds to. -/
theorem rounds_ratioBits (num den : Nat) (hn : 0 < num) (hd : 0 < den) :
    rounds (ratioBits num den) ((num : ℚ) / den) := by
  obtain ⟨p1, p2, p3⟩ := ratioExp_spec num den hn hd
  have hpos : 0 < den * 2 ^ (ratioExp num den).toNat := by positivity
  have hh := isHalfEven_roundDiv (num * 2 ^ (-ratioExp num den).toNat)
    (den * 2 ^ (ratioExp num den).toNat) hpos
  rw [scaled_ratio] at hh
  have hE : (((ratioExp num den + 1074).toNat : Nat) : ℤ) - 1074 = ratioExp num den := by omega
  have h := rounds_of_halfEven (ratioExp num den + 1074).toNat _ _ hh p2
    (by intro h; apply p3; omega)
  rw [hE, div_mul_cancel₀ _ (by positivity)] at h
  exact h

end Float64

/-! ## `roundTwo`: two decimals, ties to even, idempotent -/

theorem Sprintf2f_finite (f : Float64) (hn : f.isNaN = false) (hi : f.isInf = false) :
    Sprintf2f f = String.mk ((if f.sign then ['-'] else []) ++
      (Nat.toDigits 10 (roundDiv (f.mant * 100 * 2 ^ f.exp2.toNat) (2 ^ (-f.exp2).toNat) / 100) ++
        '.' :: padDigits 2 (roundDiv (f.mant * 100 * 2 ^ f.exp2.toNat) (2 ^ (-f.exp2).toNat) % 100))) := by
  unfold Sprintf2f roundDiv
  simp only [hn, hi, Bool.false_eq_true, if_false, List.append_assoc, List.singleton_append]

/-- On a finite value `roundTwo` is the parse of the two-decimal numeral of the
hundredths `N`, the scaled significand rounded half to even. -/
theorem roundTwo_finite (f : Float64) (hn : f.isNaN = false) (hi : f.isInf = false) :
    roundTwo f = ofRatio f.sign
      (roundDiv (f.mant * 100 * 2 ^ f.exp2.toNat) (2 ^ (-f.exp2).toNat)) 100 := by
  unfold roundTwo
  rw [Sprintf2f_finite f hn hi,
    ParseFloat_fraction f.sign _ _ (toDigits_isDigit _) (padDigits_isDigit _ _) (toDigits_ne_nil _)]
  have hl : (padDigits 2 (roundDiv (f.mant * 100 * 2 ^ f.exp2.toNat) (2 ^ (-f.exp2).toNat) % 100)).length
      = 2 := length_padDigits 2 _ (Nat.mod_lt _ (by decide)) (by decide)
  show ofRatio _ _ _ = _
  rw [valAcc_append, valAcc_eq, valAcc_toDigits, valAcc_padDigits, hl]
  congr 1
  omega

theorem hundredths_halfEven (f : Float64) :
    isHalfEven (f.absRat * 100)
      (roundDiv (f.mant * 100 * 2 ^ f.exp2.toNat) (2 ^ (-f.exp2).toNat)) := by
  have h := isHalfEven_roundDiv (f.mant * 100 * 2 ^ f.exp2.toNat) (2 ^ (-f.exp2).toNat)
    (by positivity)
  have e := scaled_ratio (f.mant * 100) 1 (-f.exp2)
  rw [neg_neg, Nat.one_mul] at e
  rw [e] at h
  have : ((f.mant * 100 : Nat) : ℚ) / ((1 : Nat) : ℚ) / 2 ^ (-f.exp2) = f.absRat * 100 := by
    unfold absRat
    rw [zpow_neg]
    push_cast
    field_simp
    ring
  rw [this] at h
  exact h

namespace Float64

theorem U_mono {a b : Nat} (h : a ≤ b) : U a ≤ U b := by
  unfold U ofBits exp2
  apply zpow_le_zpow_right₀ (by norm_num)
  have : a / 2 ^ 52 ≤ b / 2 ^ 52 := Nat.div_le_div_right h
  simp only []
  split_ifs <;> omega

theorem rounds_self (b : Nat) : rounds b (V b) := by
  refine ⟨?_, ?_, ?_⟩
  · rcases Nat.eq_zero_or_pos b with h | h
    · exact Or.inl h
    · right
      have := V_strictMono (show b - 1 < b by omega)
      linarith
  · linarith [V_lt_succ b]
  · intro _
    constructor
    · have h : 0 < b := by omega
      have := V_strictMono (show b - 1 < b by omega)
      linarith
    · linarith [V_lt_succ b]

theorem V_nonneg (b : Nat) : 0 ≤ V b := by
  unfold V absRat; positivity

/-- A value that rounds to `b` is within half a unit of the magnitude at `b`. -/
theorem rounds_dist {b : Nat} {ρ : ℚ} (h : rounds b ρ) (h0 : 0 ≤ ρ) :
    |ρ - V b| ≤ U b / 2 := by
  obtain ⟨h1, h2, _⟩ := h
  rw [V_succ] at h2
  rw [abs_le]
  constructor
  · by_cases hb : b = 0
    · subst hb
      have : V 0 = 0 := by unfold V absRat ofBits mant; norm_num
      rw [this]
      linarith [U_pos 0]
    · have h1 : V (b - 1) + V b ≤ 2 * ρ := by
        rcases h1 with h1 | h1
        · exact absurd h1 hb
        · exact h1
      have e := V_succ (b - 1)
      rw [show b - 1 + 1 = b by omega] at e
      have := U_mono (show b - 1 ≤ b by omega)
      linarith
  · linarith

/-- Away from the start of a binade, a value closer to the magnitude at `b` than
half a unit rounds to `b`. -/
theorem rounds_of_close {b : Nat} {ρ : ℚ} (hf : b % 2 ^ 52 ≠ 0) (h : 2 * |ρ - V b| < U b) :
    rounds b ρ := by
  have hb : 0 < b := by
    by_contra hb
    have : b = 0 := by omega
    subst this
    simp at hf
  have e := V_succ (b - 1)
  rw [show b - 1 + 1 = b by omega] at e
  have hu : U (b - 1) = U b := by
    unfold U ofBits exp2
    have : (b - 1) / 2 ^ 52 = b / 2 ^ 52 := by omega
    simp only [this]
  rw [hu] at e
  have h2 := V_succ b
  have h3 : |ρ - V b| < U b / 2 := by linarith
  rw [abs_lt] at h3
  exact ⟨Or.inr (by linarith), by linarith, fun _ => ⟨by linarith, by linarith⟩⟩

/-- A quotient that rounds to the bit pattern `b` of a finite value is turned
into that value by `ofRatio`. -/
theorem ofRatio_of_rounds (s : Bool) (num den b : Nat) (hn : 0 < num) (hd : 0 < den)
    (hr : rounds b ((num : ℚ) / den)) (hb : b < 2047 * 2 ^ 52) :
    ofRatio s num den = ofBits s b := by
  have := rounds_unique (rounds_ratioBits num den hn hd) hr
  rw [ofRatio_eq, if_neg (by omega), this, if_neg (by omega)]

theorem ofBits_finite (s : Bool) (b : Nat) (hb : b < 2047 * 2 ^ 52) :
    (ofBits s b).isNaN = false ∧ (ofBits s b).isInf = false := by
  have : ¬ 2047 ≤ b / 2 ^ 52 := by omega
  unfold isNaN isInf ofBits
  simp only [decide_eq_false this, Bool.false_and, and_self]

theorem V_eq (b : Nat) : V b = ((ofBits false b).mant : ℚ) * U b := rfl

theorem isHalfEven_natCast (K : Nat) : isHalfEven ((K : Nat) : ℚ) K := by
  unfold isHalfEven
  simp

end Float64

/-- The value of a two-decimal numeral is a fixed point of `roundTwo`: formatting
it with two decimals and parsing the text gives the same value again. -/
theorem roundTwo_ofBits (s : Bool) (b n : Nat) (hb : b < 2047 * 2 ^ 52) (hn : 0 < n)
    (hr : rounds b ((n : ℚ) / 100)) : roundTwo (ofBits s b) = ofBits s b := by
  obtain ⟨f1, f2⟩ := ofBits_finite s b hb
  rw [roundTwo_finite _ f1 f2]
  have hh := hundredths_halfEven (ofBits s b)
  have hv : (ofBits s b).absRat = V b := rfl
  rw [hv] at hh
  show ofRatio s _ 100 = _
  generalize roundDiv ((ofBits s b).mant * 100 * 2 ^ (ofBits s b).exp2.toNat)
    (2 ^ (-(ofBits s b).exp2).toNat) = N at hh ⊢
  have h100 : (0 : Nat) < 100 := by norm_num
  by_cases hA : (ofBits false b).exp2 ≤ -7
  · have hd := rounds_dist hr (by positivity)
    have hU : U b ≤ 1 / 128 := by
      unfold U
      calc (2 : ℚ) ^ (ofBits false b).exp2 ≤ 2 ^ (-7 : ℤ) := zpow_le_zpow_right₀ (by norm_num) hA
        _ = 1 / 128 := by norm_num
    have hn' : isHalfEven (V b * 100) n := by
      rw [abs_le] at hd
      have h1 : |(n : ℚ) - V b * 100| < 1 / 2 := by
        rw [abs_lt]; constructor <;> linarith
      exact ⟨le_of_lt h1, fun h => absurd h (ne_of_lt h1)⟩
    have := isHalfEven_unique hh hn'
    subst this
    exact ofRatio_of_rounds s N 100 b hn h100 (by push_cast; exact hr) hb
  · have hex : -6 ≤ (ofBits false b).exp2 := by omega
    have hU : 1 / 64 ≤ U b := by
      unfold U
      calc (1 : ℚ) / 64 = 2 ^ (-6 : ℤ) := by norm_num
        _ ≤ 2 ^ (ofBits false b).exp2 := zpow_le_zpow_right₀ (by norm_num) hex
    by_cases hf : b % 2 ^ 52 = 0
    · have hexpo : b / 2 ^ 52 ≠ 0 := by
        intro h0
        have : (ofBits false b).exp2 = -1074 := by
          unfold ofBits exp2
          simp only [h0, if_true]
          norm_num
        omega
      have hm : (ofBits false b).mant = 2 ^ 52 := by
        unfold ofBits mant
        simp only [hexpo, if_false, hf, Nat.add_zero]
      have hK : (((52 + (ofBits false b).exp2).toNat : Nat) : ℤ) = 52 + (ofBits false b).exp2 := by
        omega
      have hVK : V b = ((2 ^ (52 + (ofBits false b).exp2).toNat : Nat) : ℚ) := by
        rw [V_eq, hm, ← two_zpow_natCast (52 + (ofBits false b).exp2).toNat, hK,
          zpow_add₀ (by norm_num)]
        unfold U
        norm_num
      have hn' : isHalfEven (V b * 100) (2 ^ (52 + (ofBits false b).exp2).toNat * 100) := by
        have := isHalfEven_natCast (2 ^ (52 + (ofBits false b).exp2).toNat * 100)
        rw [hVK]
        push_cast at this ⊢
        exact this
      have hN := isHalfEven_unique hh hn'
      subst hN
      refine ofRatio_of_rounds s _ 100 b (by positivity) h100 ?_ hb
      have : (((2 ^ (52 + (ofBits false b).exp2).toNat * 100 : Nat) : ℚ)) / ((100 : Nat) : ℚ) = V b := by
        rw [hVK]
        push_cast
        field_simp
      rw [this]
      exact rounds_self b
    · have hh1 := hh.1
      rw [abs_le] at hh1
      have hm : 1 ≤ (ofBits false b).mant := by
        unfold ofBits mant
        simp only []
        split_ifs <;> omega
      have hVU : U b ≤ V b := by
        rw [V_eq]
        have : (1 : ℚ) ≤ ((ofBits false b).mant : ℚ) := by exact_mod_cast hm
        nlinarith [U_pos b]
      have hN0 : 0 < N := by
        rcases Nat.eq_zero_or_pos N with h | h
        · subst h
          push_cast at hh1
          linarith
        · exact h
      refine ofRatio_of_rounds s N 100 b hN0 h100 (rounds_of_close hf ?_) hb
      have : |(N : ℚ) / ((100 : Nat) : ℚ) - V b| ≤ 1 / 200 := by
        rw [abs_le]
        push_cast
        constructor <;> linarith
      linarith

/-- The values `ofRatio` gives to two-decimal numerals are fixed points of
`roundTwo`. -/
theorem roundTwo_ofRatio (s : Bool) (n : Nat) :
    roundTwo (ofRatio s n 100) = ofRatio s n 100 := by
  rw [ofRatio_eq]
  split_ifs with h0 hov
  · cases s <;> decide!
  · cases s <;> decide!
  · exact roundTwo_ofBits s _ n (by omega) (by omega)
      (by have := rounds_ratioBits n 100 (by omega) (by norm_num); push_cast at this; exact this)

theorem roundTwo_nan (x : Float64) (h : x.isNaN = true) : roundTwo x = Float64.nan := by
  unfold roundTwo Sprintf2f
  rw [if_pos h]
  decide!

theorem roundTwo_inf (x : Float64) (hn : x.isNaN = false) (h : x.isInf = true) :
    roundTwo x = Float64.inf x.sign := by
  unfold roundTwo Sprintf2f
  rw [if_neg (by simp [hn]), if_pos h]
  cases x.sign <;> decide!

theorem roundTwo_roundTwo (x : Float64) : roundTwo (roundTwo x) = roundTwo x := by
  cases hn : x.isNaN with
  | true =>
    rw [roundTwo_nan x hn]
    decide!
  | false =>
    cases hi : x.isInf with
    | true =>
      rw [roundTwo_inf x hn hi]
      cases x.sign <;> decide!
    | false =>
      rw [roundTwo_finite x hn hi]
      exact roundTwo_ofRatio _ _

namespace Float64

theorem ofNat_one : Float64.ofNat 1 = ⟨false, 1023, 0⟩ := by decide!

theorem ofBits_zero (s : Bool) : ofBits s 0 = zero s := rfl

theorem mant_eq_zero {s : Bool} {b : Nat} (h : (ofBits s b).mant = 0) : b = 0 := by
  unfold ofBits mant at h
  simp only [] at h
  split_ifs at h with h0
  · have := Nat.div_add_mod b (2 ^ 52)
    rw [h0, h] at this
    omega
  · omega

/-- Multiplying a finite value by one gives that value. -/
theorem mul_one_ofBits (s : Bool) (b : Nat) (hb : b < 2047 * 2 ^ 52) :
    mul (ofBits s b) (Float64.ofNat 1) = ofBits s b := by
  obtain ⟨f1, f2⟩ := ofBits_finite s b hb
  rw [ofNat_one]
  unfold mul
  have g1 : isNaN ⟨false, 1023, 0⟩ = false := by decide
  have g2 : isInf ⟨false, 1023, 0⟩ = false := by decide
  simp only [f1, f2, g1, g2, Bool.or_self, Bool.false_eq_true, if_false, Bool.xor_false]
  have e1 : mant ⟨false, 1023, 0⟩ = 2 ^ 52 := by decide
  have e2 : exp2 ⟨false, 1023, 0⟩ = -52 := by decide
  rw [e1, e2]
  show ofScaled s _ _ = _
  unfold ofScaled
  by_cases h0 : (ofBits s b).mant = 0
  · have := mant_eq_zero h0
    subst this
    rw [h0]
    simp only [Nat.zero_mul]
    rfl
  · refine ofRatio_of_rounds s _ _ b (by positivity) (by positivity) ?_ hb
    have e := scaled_ratio ((ofBits s b).mant * 2 ^ 52) 1 (-((ofBits s b).exp2 + -52))
    rw [neg_neg, Nat.one_mul] at e
    rw [e]
    have : (((ofBits s b).mant * 2 ^ 52 : Nat) : ℚ) / ((1 : Nat) : ℚ) /
        2 ^ (-((ofBits s b).exp2 + -52)) = V b := by
      rw [V_eq]
      unfold U
      rw [zpow_neg, zpow_add₀ (by norm_num)]
      push_cast
      show _ = ((ofBits s b).mant : ℚ) * 2 ^ (ofBits s b).exp2
      field_simp
      ring
    rw [this]
    exact rounds_self b

/-- Multiplying the value of a two-decimal numeral by one gives that value. -/
theorem mul_one_ofRatio (s : Bool) (n : Nat) :
    mul (ofRatio s n 100) (Float64.ofNat 1) = ofRatio s n 100 := by
  rw [ofRatio_eq]
  split_ifs with h0 hov
  · cases s <;> decide!
  · cases s <;> decide!
  · exact mul_one_ofBits s _ (by omega)

/-- The multiplier of the percentage zero, of either sign, is one. -/
theorem multiplier_zero (sg : Bool) :
    add (Float64.ofNat 1) (div (zero sg) (Float64.ofNat 100)) = Float64.ofNat 1 := by
  cases sg <;> decide!

end Float64

/-- With the percentage zero every value of at most two decimals is left as it
is. -/
theorem applyIncrease_zero_prices (m : model τ) (sg : Bool)
    (h : ∀ e ∈ m.prices, twoDecimals e.Value) :
    (applyIncrease m (Float64.zero sg)).prices = m.prices := by
  rw [applyIncrease_prices, multiplier_zero]
  apply List.ext_getElem?
  intro j
  rw [List.getElem?_mapIdx]
  cases hj : m.prices[j]? with
  | none => rfl
  | some e =>
    obtain ⟨s, n, hv⟩ := h e (List.getElem?_mem hj)
    simp only [Option.map_some']
    split
    · congr 1
      cases e with
      | mk k v =>
        simp only at hv
        subst hv
        simp only [mul_one_ofRatio, roundTwo_ofRatio]
    · rfl

/-- Every value of the built-in table is that of a positive two-decimal
numeral. -/
theorem defaultPrices_hundredths :
    ∀ e ∈ defaultPrices, ∃ n : Nat, n ≠ 0 ∧ e.Value = Float64.ofRatio false n 100 := by
  intro e he
  simp only [defaultPrices, List.mem_cons, List.mem_singleton, List.not_mem_nil, or_false] at he
  rcases he with h | h | h | h | h | h | h | h | h | h | h | h | h | h | h | h | h | h | h <;>
    subst h
  · exact ⟨2364, by decide, by decide!⟩
  · exact ⟨1606, by decide, by decide!⟩
  · exact ⟨859, by decide, by decide!⟩
  · exact ⟨685, by decide, by decide!⟩
  · exact ⟨356, by decide, by decide!⟩
  · exact ⟨1798, by decide, by decide!⟩
  · exact ⟨1143, by decide, by decide!⟩
  · exact ⟨649, by decide, by decide!⟩
  · exact ⟨431, by decide, by decide!⟩
  · exact ⟨254, by decide, by decide!⟩
  · exact ⟨272, by decide, by decide!⟩
  · exact ⟨312, by decide, by decide!⟩
  · exact ⟨400, by decide, by decide!⟩
  · exact ⟨556, by decide, by decide!⟩
  · exact ⟨800, by decide, by decide!⟩
  · exact ⟨1400, by decide, by decide!⟩
  · exact ⟨700, by decide, by decide!⟩
  · exact ⟨100, by decide, by decide!⟩
  · exact ⟨200, by decide, by decide!⟩

/-- C12 (amended): on every finite value `roundTwo` gives the value of the
two-decimal numeral nearest to it, with the sign kept: the number `N` of
hundredths is the exact magnitude times 100 rounded to the nearest integer, a
tie going to the even one (not away from zero), and the result is the parse of
`N / 100`. So `roundTwo 0.125 = 0.12`. -/
theorem roundTwo_half_even (f : Float64) (hn : f.isNaN = false) (hi : f.isInf = false) :
    (∃ N : Nat, Float64.isHalfEven (f.absRat * 100) N ∧
      roundTwo f = Float64.ofRatio f.sign N 100) ∧
    roundTwo (lit 125 3) = lit 12 2 :=
  ⟨⟨_, hundredths_halfEven f, roundTwo_finite f hn hi⟩, by decide!⟩

/-- The amended C12 at `0.125`, a finite value. -/
theorem roundTwo_half_even_witness :
    (lit 125 3).isNaN = false ∧ (lit 125 3).isInf = false ∧
    ((∃ N : Nat, Float64.isHalfEven ((lit 125 3).absRat * 100) N ∧
      roundTwo (lit 125 3) = Float64.ofRatio (lit 125 3).sign N 100) ∧
    roundTwo (lit 125 3) = lit 12 2) :=
  ⟨by decide!, by decide!, roundTwo_half_even (lit 125 3) (by decide!) (by decide!)⟩

/-- C12 as stated fails: `0.125` is exactly representable, so it is a tie between
`0.12` and `0.13`, and `roundTwo` gives `0.12`, not `0.13`. -/
theorem roundTwo_tie_to_even :
    (lit 125 3).absRat = 125 / 1000 ∧ roundTwo (lit 125 3) = lit 12 2 ∧
    roundTwo (lit 125 3) ≠ lit 13 2 := by
  refine ⟨?_, by decide!, by decide!⟩
  have : lit 125 3 = ⟨false, 1020, 0⟩ := by decide!
  rw [this]
  unfold absRat mant exp2
  norm_num

/-- C20: `roundTwo` is idempotent, and with the percentage zero `applyIncrease`
leaves a catalog of values of at most two decimals as it is, whatever is
selected, so the serialized document is the same. -/
theorem zero_percent_identity (m : model τ) (sg : Bool)
    (h : ∀ e ∈ m.prices, twoDecimals e.Value) :
    (∀ x : Float64, roundTwo (roundTwo x) = roundTwo x) ∧
    (applyIncrease m (Float64.zero sg)).prices = m.prices ∧
    buildOutput (applyIncrease m (Float64.zero sg)).prices = buildOutput m.prices :=
  ⟨roundTwo_roundTwo, applyIncrease_zero_prices m sg h,
    by rw [applyIncrease_zero_prices m sg h]⟩

/-- C20 on the built-in table with everything selected. -/
theorem zero_percent_identity_witness :
    (∀ e ∈ (updateSelect (initialModel lineInput) (Msg.KeyMsg "a")).1.prices,
      twoDecimals e.Value) ∧
    (applyIncrease (updateSelect (initialModel lineInput) (Msg.KeyMsg "a")).1
      (Float64.zero false)).prices = defaultPrices :=
  ⟨fun e he => (defaultPrices_hundredths e he).elim fun n h => ⟨false, n, h.2⟩,
    (zero_percent_identity (updateSelect (initialModel lineInput) (Msg.KeyMsg "a")).1 false
      (fun e he => (defaultPrices_hundredths e he).elim fun n h => ⟨false, n, h.2⟩)).2.1⟩

/-! ## A percentage `p >= 0` lowers no value -/

namespace Float64

/-- Rounding is monotone. -/
theorem rounds_mono {a b : Nat} {ρ σ : ℚ} (ha : rounds a ρ) (hb : rounds b σ) (h : ρ ≤ σ) :
    a ≤ b := by
  by_contra hlt
  have hba : b < a := by omega
  obtain ⟨ha1, _, ha3⟩ := ha
  obtain ⟨_, hb2, hb3⟩ := hb
  have ha1' : V (a - 1) + V a ≤ 2 * ρ := by
    rcases ha1 with h0 | h0
    · omega
    · exact h0
  have m1 : V b ≤ V (a - 1) := V_mono (by omega)
  have m2 : V (b + 1) ≤ V a := V_mono (by omega)
  rcases Nat.lt_or_ge b (a - 1) with hs | hs
  · have := V_strictMono hs
    linarith
  · have hab : a = b + 1 := by omega
    subst hab
    simp only [Nat.add_sub_cancel] at ha1' ha3
    rcases Nat.mod_two_eq_zero_or_one b with hpar | hpar
    · have := (ha3 (by omega)).1
      linarith
    · have := (hb3 hpar).2
      linarith

theorem key_ofBits (b : Nat) : key (ofBits false b) = b := by
  unfold key ofBits
  simp only [Bool.false_eq_true, if_false]
  have := Nat.div_add_mod b (2 ^ 52)
  have e : b / 2 ^ 52 * 2 ^ 52 + b % 2 ^ 52 = b := by rw [Nat.mul_comm]; exact this
  rw [e]

theorem isNaN_ofBits (s : Bool) (b : Nat) (hb : b < 2047 * 2 ^ 52) : (ofBits s b).isNaN = false :=
  (ofBits_finite s b hb).1

theorem good_ofRatio (num den : Nat) : good (ofRatio false num den) := by
  rw [ofRatio_eq]
  split_ifs with h0 hov
  · exact Or.inr ⟨0, by norm_num, rfl⟩
  · exact Or.inl rfl
  · exact Or.inr ⟨_, by omega, rfl⟩

theorem good_isNaN {x : Float64} (h : good x) : x.isNaN = false := by
  rcases h with h | ⟨b, hb, h⟩
  · rw [h]; rfl
  · rw [h]; exact isNaN_ofBits _ _ hb

theorem good_key {x : Float64} (h : good x) : 0 ≤ x.key ∧ x.key ≤ 2047 * 2 ^ 52 := by
  rcases h with h | ⟨b, hb, h⟩
  · rw [h]; decide
  · rw [h, key_ofBits]
    constructor
    · positivity
    · have : (b : ℤ) < ((2047 * 2 ^ 52 : Nat) : ℤ) := by exact_mod_cast hb
      push_cast at this
      omega

theorem key_inf : key (inf false) = 9218868437227405312 := by decide

/-- The position of the value of a positive quotient: its bit pattern, capped at
that of infinity. -/
theorem key_ofRatio (n d : Nat) (hn : 0 < n) :
    key (ofRatio false n d) = ((min (ratioBits n d) 9218868437227405312 : Nat) : ℤ) := by
  rw [ofRatio_eq, if_neg (by omega)]
  split_ifs with c
  · rw [key_inf, Nat.min_eq_right (by omega)]
    rfl
  · rw [key_ofBits, Nat.min_eq_left (by omega)]

/-- The value of a larger numerator over the same denominator is not below. -/
theorem ofRatio_le_ofRatio (n1 n2 d : Nat) (hd : 0 < d) (h : n1 ≤ n2) :
    le (ofRatio false n1 d) (ofRatio false n2 d) = true := by
  have g1 := good_ofRatio n1 d
  have g2 := good_ofRatio n2 d
  unfold le
  rw [good_isNaN g1, good_isNaN g2]
  simp only [Bool.not_false, Bool.true_and, decide_eq_true_eq]
  by_cases h0 : n1 = 0
  · subst h0
    have : ofRatio false 0 d = zero false := by rw [ofRatio_eq, if_pos rfl]
    rw [this]
    exact (good_key g2).1
  · have h1 : 0 < n1 := by omega
    have h2 : 0 < n2 := by omega
    have hdq : (0 : ℚ) < d := by exact_mod_cast hd
    have hm := rounds_mono (rounds_ratioBits n1 d h1 hd) (rounds_ratioBits n2 d h2 hd)
      (by
        apply div_le_div_of_nonneg_right _ (le_of_lt hdq)
        exact_mod_cast h)
    rw [key_ofRatio n1 d h1, key_ofRatio n2 d h2]
    have : min (ratioBits n1 d) 9218868437227405312 ≤ min (ratioBits n2 d) 9218868437227405312 := by
      omega
    exact_mod_cast this

/-- The quotient `ofScaled` hands to `ofRatio` is the number times the power of
two. -/
theorem scaled_value (num : Nat) (e : Int) :
    ((num * 2 ^ e.toNat : Nat) : ℚ) / ((2 ^ (-e).toNat : Nat) : ℚ) = (num : ℚ) * 2 ^ e := by
  have h := scaled_ratio num 1 (-e)
  rw [neg_neg, Nat.one_mul] at h
  rw [h, zpow_neg]
  push_cast
  field_simp

theorem ofNat_hundred : Float64.ofNat 100 = ⟨false, 1029, 2533274790395904⟩ := by decide!

theorem V_one : V (1023 * 2 ^ 52) = 1 := by
  have := V_normal 1022 (2 ^ 52) (by norm_num) (by norm_num)
  rw [show 1022 * 2 ^ 52 + 2 ^ 52 = 1023 * 2 ^ 52 by norm_num] at this
  rw [this]
  norm_num

theorem mant_ofBits (s : Bool) (b : Nat) : (ofBits s b).mant = (ofBits false b).mant := rfl

theorem exp2_ofBits (s : Bool) (b : Nat) : (ofBits s b).exp2 = (ofBits false b).exp2 := rfl

/-- A quotient not below the magnitude at `b0` gives a value not below it. -/
theorem ofRatio_lower (num den b0 : Nat) (hn : 0 < num) (hd : 0 < den)
    (h : V b0 ≤ (num : ℚ) / den) :
    ofRatio false num den = inf false ∨
      ∃ b, b0 ≤ b ∧ b < 2047 * 2 ^ 52 ∧ ofRatio false num den = ofBits false b := by
  have hm := rounds_mono (rounds_self b0) (rounds_ratioBits num den hn hd) h
  rw [ofRatio_eq, if_neg (by omega)]
  split_ifs with c
  · exact Or.inl rfl
  · exact Or.inr ⟨_, hm, by omega, rfl⟩

/-- A quotient not above a value that rounds to `b1` gives a finite value not
above the one at `b1`. -/
theorem ofRatio_upper (num den b1 : Nat) (σ : ℚ) (hd : 0 < den) (hr : rounds b1 σ)
    (h : (num : ℚ) / den ≤ σ) (hb : b1 < 2047 * 2 ^ 52) :
    ∃ b, b ≤ b1 ∧ ofRatio false num den = ofBits false b := by
  rw [ofRatio_eq]
  by_cases h0 : num = 0
  · rw [if_pos h0]
    exact ⟨0, by omega, rfl⟩
  · have hm := rounds_mono (rounds_ratioBits num den (by omega) hd) hr h
    rw [if_neg h0, if_neg (by omega)]
    exact ⟨_, hm, rfl⟩

/-- Dividing a finite non-negative value by one hundred gives a finite value not
above it. -/
theorem div_hundred (bp : Nat) (hb : bp < 2047 * 2 ^ 52) :
    ∃ bc, bc ≤ bp ∧ div (ofBits false bp) (Float64.ofNat 100) = ofBits false bc := by
  obtain ⟨f1, f2⟩ := ofBits_finite false bp hb
  rw [ofNat_hundred]
  unfold div
  have g1 : isNaN ⟨false, 1029, 2533274790395904⟩ = false := by decide
  have g2 : isInf ⟨false, 1029, 2533274790395904⟩ = false := by decide
  have g3 : isZero ⟨false, 1029, 2533274790395904⟩ = false := by decide
  have e1 : mant ⟨false, 1029, 2533274790395904⟩ = 7036874417766400 := by decide
  have e2 : exp2 ⟨false, 1029, 2533274790395904⟩ = -46 := by decide
  simp only [f1, f2, g1, g2, g3, Bool.or_self, Bool.false_eq_true, if_false, e1, e2]
  show ∃ bc, bc ≤ bp ∧ ofRatio false _ _ = _
  refine ofRatio_upper _ _ bp (V bp) (by positivity) (rounds_self bp) ?_ hb
  have h := scaled_ratio (ofBits false bp).mant 7036874417766400 (-((ofBits false bp).exp2 - -46))
  rw [neg_neg] at h
  rw [h, V_eq]
  unfold U
  have hz : (2 : ℚ) ^ (-((ofBits false bp).exp2 - -46)) =
      (2 ^ (ofBits false bp).exp2 * 70368744177664)⁻¹ := by
    rw [zpow_neg, sub_neg_eq_add, zpow_add₀ (by norm_num)]
    norm_num
  rw [hz]
  have hp : (0 : ℚ) < 2 ^ (ofBits false bp).exp2 := by positivity
  have key : (0 : ℚ) ≤ ((ofBits false bp).mant : ℚ) * 2 ^ (ofBits false bp).exp2 := by positivity
  have e : (((ofBits false bp).mant : Nat) : ℚ) / ((7036874417766400 : Nat) : ℚ) /
      (2 ^ (ofBits false bp).exp2 * 70368744177664)⁻¹ =
      ((ofBits false bp).mant : ℚ) * 2 ^ (ofBits false bp).exp2 / 100 := by
    push_cast
    field_simp
    ring
  rw [e]
  exact div_le_self key (by norm_num)

theorem sign_ofBits (s : Bool) (b : Nat) : (ofBits s b).sign = s := rfl

theorem pow_toNat_mul (a e : ℤ) (h : e ≤ a) :
    ((2 ^ (a - e).toNat : Nat) : ℚ) * 2 ^ e = 2 ^ a := by
  rw [← two_zpow_natCast, show (((a - e).toNat : Nat) : ℤ) = a - e by omega,
    ← zpow_add₀ (by norm_num)]
  congr 1
  ring

/-- The sum of two finite non-negative values, the first not zero: the exact sum
of the magnitudes, rounded. -/
theorem add_finite (x y : Float64) (hxn : x.isNaN = false) (hxi : x.isInf = false)
    (hyn : y.isNaN = false) (hyi : y.isInf = false) (hxs : x.sign = false)
    (hys : y.sign = false) (hpos : 0 < x.mant) :
    ∃ num den : Nat, 0 < num ∧ 0 < den ∧ add x y = ofRatio false num den ∧
      (num : ℚ) / den = x.absRat + y.absRat := by
  refine ⟨(x.mant * 2 ^ (x.exp2 - min x.exp2 y.exp2).toNat +
      y.mant * 2 ^ (y.exp2 - min x.exp2 y.exp2).toNat) * 2 ^ (min x.exp2 y.exp2).toNat,
    2 ^ (-(min x.exp2 y.exp2)).toNat, by positivity, by positivity, ?_, ?_⟩
  · unfold add
    simp only [hxn, hxi, hyn, hyi, hxs, hys, Bool.or_self, Bool.false_eq_true, if_false,
      Bool.false_and, one_mul]
    have hs : (0 : ℤ) < ((x.mant * 2 ^ (x.exp2 - min x.exp2 y.exp2).toNat : Nat) : ℤ) +
        ((y.mant * 2 ^ (y.exp2 - min x.exp2 y.exp2).toNat : Nat) : ℤ) := by
      have : 0 < x.mant * 2 ^ (x.exp2 - min x.exp2 y.exp2).toNat := by positivity
      have : (0 : ℤ) < ((x.mant * 2 ^ (x.exp2 - min x.exp2 y.exp2).toNat : Nat) : ℤ) := by
        exact_mod_cast this
      have : (0 : ℤ) ≤ ((y.mant * 2 ^ (y.exp2 - min x.exp2 y.exp2).toNat : Nat) : ℤ) :=
        Int.natCast_nonneg _
      omega
    rw [if_neg (by omega)]
    have hd : decide (((x.mant * 2 ^ (x.exp2 - min x.exp2 y.exp2).toNat : Nat) : ℤ) +
        ((y.mant * 2 ^ (y.exp2 - min x.exp2 y.exp2).toNat : Nat) : ℤ) < 0) = false :=
      decide_eq_false (by omega)
    rw [hd]
    unfold ofScaled
    congr 2
  · rw [scaled_value]
    unfold absRat
    push_cast
    have h1 := pow_toNat_mul x.exp2 (min x.exp2 y.exp2) (min_le_left _ _)
    have h2 := pow_toNat_mul y.exp2 (min x.exp2 y.exp2) (min_le_right _ _)
    push_cast at h1 h2
    rw [add_mul, mul_assoc, mul_assoc, h1, h2]

/-- The product of two finite non-negative values: the exact product of the
magnitudes, rounded. -/
theorem mul_finite (x y : Float64) (hxn : x.isNaN = false) (hxi : x.isInf = false)
    (hyn : y.isNaN = false) (hyi : y.isInf = false) (hxs : x.sign = false)
    (hys : y.sign = false) :
    ∃ num den : Nat, 0 < den ∧ mul x y = ofRatio false num den ∧
      (num : ℚ) / den = x.absRat * y.absRat ∧ (num = 0 ↔ x.mant = 0 ∨ y.mant = 0) := by
  refine ⟨x.mant * y.mant * 2 ^ (x.exp2 + y.exp2).toNat, 2 ^ (-(x.exp2 + y.exp2)).toNat,
    by positivity, ?_, ?_, ?_⟩
  · unfold mul
    simp only [hxn, hxi, hyn, hyi, hxs, hys, Bool.or_self, Bool.false_eq_true, if_false,
      Bool.xor_false]
    rfl
  · rw [scaled_value]
    unfold absRat
    push_cast
    rw [zpow_add₀ (by norm_num)]
    ring
  · have : 2 ^ (x.exp2 + y.exp2).toNat ≠ 0 := by positivity
    simp [this]

theorem absRat_one : absRat ⟨false, 1023, 0⟩ = 1 := by
  unfold absRat mant exp2
  norm_num

theorem rounds_below_max : rounds (2047 * 2 ^ 52 - 1) (1 + V (2047 * 2 ^ 52 - 1)) := by
  apply rounds_of_close
  · norm_num
  · have : U (2047 * 2 ^ 52 - 1) = 2 ^ (971 : ℤ) := by
      unfold U ofBits exp2
      norm_num
    rw [this]
    norm_num

/-- The multiplier of a finite non-negative percentage is finite and at least
one. -/
theorem multiplier_finite (bp : Nat) (hb : bp < 2047 * 2 ^ 52) :
    ∃ bt, 1023 * 2 ^ 52 ≤ bt ∧ bt < 2047 * 2 ^ 52 ∧
      add (Float64.ofNat 1) (div (ofBits false bp) (Float64.ofNat 100)) = ofBits false bt := by
  obtain ⟨bc, hbc, hc⟩ := div_hundred bp hb
  obtain ⟨f1, f2⟩ := ofBits_finite false bc (by omega)
  rw [hc, ofNat_one]
  obtain ⟨num, den, hn, hd, he, hv⟩ := add_finite ⟨false, 1023, 0⟩ (ofBits false bc)
    (by decide) (by decide) f1 f2 rfl rfl (by decide)
  rw [absRat_one] at hv
  have hvc : (ofBits false bc).absRat = V bc := rfl
  rw [hvc] at hv
  have hm1 : 1023 * 2 ^ 52 ≤ ratioBits num den :=
    rounds_mono (rounds_self _) (rounds_ratioBits num den hn hd)
      (by rw [V_one, hv]; linarith [V_nonneg bc])
  have hm2 : ratioBits num den ≤ 2047 * 2 ^ 52 - 1 :=
    rounds_mono (rounds_ratioBits num den hn hd) rounds_below_max
      (by rw [hv]; linarith [V_mono (show bc ≤ 2047 * 2 ^ 52 - 1 by omega)])
  rw [he, ofRatio_eq, if_neg (by omega), if_neg (by omega)]
  exact ⟨_, hm1, by omega, rfl⟩

/-- The multiplier `1 + p / 100` of a percentage `p >= 0`: positive infinity for
the infinite percentage, else finite and at least one. -/
theorem multiplier_spec (p : Float64) (hw : p.wf = true) (hp : le (zero false) p = true) :
    (p.isInf = true ∧ add (Float64.ofNat 1) (div p (Float64.ofNat 100)) = inf false) ∨
    (p.isInf = false ∧ ∃ bt, 1023 * 2 ^ 52 ≤ bt ∧ bt < 2047 * 2 ^ 52 ∧
      add (Float64.ofNat 1) (div p (Float64.ofNat 100)) = ofBits false bt) := by
  obtain ⟨sg, ex, fr⟩ := p
  simp only [wf, Bool.and_eq_true, decide_eq_true_eq] at hw
  obtain ⟨w1, w2⟩ := hw
  unfold le at hp
  simp only [Bool.and_eq_true, Bool.not_eq_true', decide_eq_true_eq] at hp
  obtain ⟨⟨_, hnan⟩, hkey⟩ := hp
  have hk0 : key (zero false) = 0 := by decide
  rw [hk0] at hkey
  unfold isNaN at hnan
  simp only [Bool.and_eq_false_iff, decide_eq_false_iff_not, not_le, not_not] at hnan
  unfold key at hkey
  simp only at hkey
  by_cases hinf : 2047 ≤ ex
  · left
    have hfr : fr = 0 := by
      rcases hnan with h | h
      · omega
      · simpa using h
    have hex : ex = 2047 := by omega
    subst hfr hex
    cases sg with
    | true => simp at hkey
    | false => exact ⟨by decide, by decide!⟩
  · right
    have hi : isInf ⟨sg, ex, fr⟩ = false := by
      unfold isInf
      simp only [decide_eq_false hinf, Bool.false_and]
    refine ⟨hi, ?_⟩
    cases sg with
    | true =>
      simp only [if_true] at hkey
      have h0 : ((ex * 2 ^ 52 + fr : Nat) : ℤ) = 0 := by omega
      have h0' : ex * 2 ^ 52 + fr = 0 := by exact_mod_cast h0
      have hex : ex = 0 := by omega
      have hfr : fr = 0 := by omega
      subst hex hfr
      exact ⟨1023 * 2 ^ 52, le_refl _, by norm_num, by decide!⟩
    | false =>
      have hb : ex * 2 ^ 52 + fr < 2047 * 2 ^ 52 := by omega
      have e : (⟨false, ex, fr⟩ : Float64) = ofBits false (ex * 2 ^ 52 + fr) := by
        unfold ofBits
        have e1 : (ex * 2 ^ 52 + fr) / 2 ^ 52 = ex := by omega
        have e2 : (ex * 2 ^ 52 + fr) % 2 ^ 52 = fr := by omega
        rw [e1, e2]
      rw [e]
      exact multiplier_finite _ hb

/-- The product of a finite non-negative value with a finite multiplier of at
least one is not below the value. -/
theorem mul_ge (bv bt : Nat) (hv : bv < 2047 * 2 ^ 52) (ht : bt < 2047 * 2 ^ 52)
    (h1 : 1023 * 2 ^ 52 ≤ bt) :
    mul (ofBits false bv) (ofBits false bt) = inf false ∨
      ∃ bw, bv ≤ bw ∧ bw < 2047 * 2 ^ 52 ∧
        mul (ofBits false bv) (ofBits false bt) = ofBits false bw := by
  obtain ⟨f1, f2⟩ := ofBits_finite false bv hv
  obtain ⟨g1, g2⟩ := ofBits_finite false bt ht
  obtain ⟨num, den, hd, he, hval, hz⟩ := mul_finite (ofBits false bv) (ofBits false bt)
    f1 f2 g1 g2 rfl rfl
  rw [he]
  by_cases h0 : num = 0
  · have := hz.1 h0
    rcases this with h | h
    · have := mant_eq_zero h
      subst this
      subst h0
      right
      exact ⟨0, le_refl _, by norm_num, by rw [ofRatio_eq, if_pos rfl]; rfl⟩
    · have := mant_eq_zero h
      omega
  · apply ofRatio_lower num den bv (by omega) hd
    rw [hval]
    have hvv : (ofBits false bv).absRat = V bv := rfl
    have hvt : (ofBits false bt).absRat = V bt := rfl
    rw [hvv, hvt]
    have := V_mono h1
    rw [V_one] at this
    nlinarith [V_nonneg bv]

end Float64

/-- On finite non-negative values `roundTwo` is monotone. -/
theorem roundTwo_mono (bv bw : Nat) (h : bv ≤ bw) (hw : bw < 2047 * 2 ^ 52) :
    Float64.le (roundTwo (ofBits false bv)) (roundTwo (ofBits false bw)) = true := by
  obtain ⟨f1, f2⟩ := ofBits_finite false bv (by omega)
  obtain ⟨g1, g2⟩ := ofBits_finite false bw hw
  rw [roundTwo_finite _ f1 f2, roundTwo_finite _ g1 g2]
  apply ofRatio_le_ofRatio _ _ _ (by norm_num)
  refine isHalfEven_mono ?_ (hundredths_halfEven (ofBits false bv))
    (hundredths_halfEven (ofBits false bw))
  show V bv * 100 ≤ V bw * 100
  linarith [V_mono h]

namespace Float64

theorem le_refl_of_good {x : Float64} (h : good x) : le x x = true := by
  unfold le
  rw [good_isNaN h]
  simp

theorem le_inf_of_good {x : Float64} (h : good x) : le x (inf false) = true := by
  unfold le
  rw [good_isNaN h, key_inf]
  have := (good_key h).2
  have e : (inf false).isNaN = false := rfl
  rw [e]
  simp only [Bool.not_false, Bool.true_and, decide_eq_true_eq]
  norm_num at this
  exact this

theorem zero_le_of_le {x y : Float64} (hx : good x) (h : le x y = true) :
    le (zero false) y = true := by
  unfold le at h ⊢
  simp only [Bool.and_eq_true, Bool.not_eq_true', decide_eq_true_eq] at h ⊢
  have hk : key (zero false) = 0 := by decide
  rw [hk]
  exact ⟨⟨rfl, h.1.2⟩, le_trans (good_key hx).1 h.2⟩

theorem isZero_ofBits {b : Nat} (h : 0 < b) : (ofBits false b).isZero = false := by
  unfold isZero ofBits
  simp only [Bool.and_eq_false_iff, decide_eq_false_iff_not]
  by_contra hc
  push_neg at hc
  have := Nat.div_add_mod b (2 ^ 52)
  rw [hc.1, hc.2] at this
  omega

/-- The bit pattern of a positive two-decimal numeral is not that of zero. -/
theorem ratioBits_hundredths_pos (n : Nat) (hn : 0 < n) : 0 < ratioBits n 100 := by
  have h1 : V 1 = 2 ^ (-1074 : ℤ) := by
    rw [V_subnormal 1 (by norm_num)]
    norm_num
  have := rounds_mono (rounds_self 1) (rounds_ratioBits n 100 hn (by norm_num))
    (by
      rw [h1]
      have hn' : (1 : ℚ) ≤ n := by exact_mod_cast hn
      have : (2 : ℚ) ^ (-1074 : ℤ) ≤ 1 / 100 := by
        rw [zpow_neg]
        norm_num
      calc (2 : ℚ) ^ (-1074 : ℤ) ≤ 1 / 100 := this
        _ ≤ (n : ℚ) / ((100 : Nat) : ℚ) := by
          push_cast
          apply div_le_div_of_nonneg_right hn' (by norm_num))
  omega

theorem mul_inf_left (t : Float64) (hn : t.isNaN = false) (hz : t.isZero = false)
    (hs : t.sign = false) : mul (inf false) t = inf false := by
  unfold mul
  have e1 : (inf false).isNaN = false := rfl
  have e2 : (inf false).isInf = true := rfl
  have e3 : (inf false).isZero = false := rfl
  have e4 : (inf false).sign = false := rfl
  simp [e1, e2, e3, e4, hn, hz, hs]

theorem mul_inf_right (v : Float64) (hn : v.isNaN = false) (hz : v.isZero = false)
    (hs : v.sign = false) : mul v (inf false) = inf false := by
  unfold mul
  have e1 : (inf false).isNaN = false := rfl
  have e2 : (inf false).isInf = true := rfl
  have e3 : (inf false).isZero = false := rfl
  have e4 : (inf false).sign = false := rfl
  simp [e1, e2, e3, e4, hn, hz, hs]

end Float64

theorem roundTwo_inf_false : roundTwo (inf false) = inf false := by decide!

/-- Raising the value of a non-negative two-decimal numeral by a percentage
`p >= 0` does not lower it: the infinite percentage on the value zero apart. -/
theorem increase_ge (p : Float64) (hw : p.wf = true) (hp : Float64.le (zero false) p = true) (n : Nat)
    (hn : p.isInf = true → n ≠ 0) :
    Float64.le (ofRatio false n 100)
      (roundTwo (mul (ofRatio false n 100)
        (add (Float64.ofNat 1) (div p (Float64.ofNat 100))))) = true := by
  have hg := good_ofRatio n 100
  rcases multiplier_spec p hw hp with ⟨hi, ht⟩ | ⟨hi, bt, ht1, ht2, ht⟩
  · rw [ht]
    have hn0 : 0 < n := Nat.pos_of_ne_zero (hn hi)
    have hmul : mul (ofRatio false n 100) (inf false) = inf false := by
      rw [ofRatio_eq, if_neg (by omega)]
      split_ifs with c
      · decide
      · exact mul_inf_right _ (isNaN_ofBits _ _ (by omega))
          (isZero_ofBits (ratioBits_hundredths_pos n hn0)) rfl
    rw [hmul, roundTwo_inf_false]
    exact le_inf_of_good hg
  · rw [ht]
    have htz : (ofBits false bt).isZero = false := isZero_ofBits (by omega)
    have htn : (ofBits false bt).isNaN = false := isNaN_ofBits _ _ ht2
    by_cases hov : ofRatio false n 100 = inf false
    · rw [hov, mul_inf_left _ htn htz rfl, roundTwo_inf_false]
      decide
    · have hv : ∃ bv, bv < 2047 * 2 ^ 52 ∧ ofRatio false n 100 = ofBits false bv := by
        rcases hg with h | h
        · exact absurd h hov
        · exact h
      obtain ⟨bv, hbv, hv⟩ := hv
      have hfix := roundTwo_ofRatio false n
      rw [hv] at hfix ⊢
      rcases mul_ge bv bt hbv ht2 ht1 with hm | ⟨bw, hbw1, hbw2, hm⟩
      · rw [hm, roundTwo_inf_false]
        exact le_inf_of_good (Or.inr ⟨bv, hbv, rfl⟩)
      · rw [hm]
        have := roundTwo_mono bv bw hbw1 hbw2
        rw [hfix] at this
        exact this

/-- C19 (amended): for a percentage `p >= 0` and a catalog of non-negative
values of at most two decimals, no value being zero when `p` is the infinite
percentage, `applyIncrease` lowers no value: every entry's new value is at least
its old one, and so still non-negative. -/
theorem applyIncrease_nondecreasing (m : model τ) (p : Float64) (hw : p.wf = true)
    (hp : Float64.le (Float64.zero false) p = true)
    (hv : ∀ e ∈ m.prices, ∃ n : Nat, e.Value = Float64.ofRatio false n 100 ∧
      (p.isInf = true → n ≠ 0)) :
    ∀ (i : Nat) (e : PriceEntry), m.prices[i]? = some e →
      ∃ e1 : PriceEntry, (applyIncrease m p).prices[i]? = some e1 ∧
        Float64.le e.Value e1.Value = true ∧
        Float64.le (Float64.zero false) e1.Value = true := by
  intro i e he
  obtain ⟨n, hn, hz⟩ := hv e (List.getElem?_mem he)
  have hg : Float64.good e.Value := by rw [hn]; exact good_ofRatio n 100
  rw [applyIncrease_prices, List.getElem?_mapIdx, he]
  simp only [Option.map_some']
  refine ⟨_, rfl, ?_⟩
  split
  · have h := increase_ge p hw hp n hz
    rw [← hn] at h
    exact ⟨h, zero_le_of_le hg h⟩
  · exact ⟨le_refl_of_good hg, zero_le_of_le hg (le_refl_of_good hg)⟩

/-- The amended C19 on the built-in table with everything selected and the
percentage `10`: the first entry, `23.64`, is not lowered. -/
theorem applyIncrease_nondecreasing_witness :
    (lit 10 0).wf = true ∧ Float64.le (Float64.zero false) (lit 10 0) = true ∧
    ∃ e1 : PriceEntry,
      (applyIncrease (updateSelect (initialModel lineInput) (Msg.KeyMsg "a")).1
        (lit 10 0)).prices[0]? = some e1 ∧
      Float64.le (lit 2364 2) e1.Value = true ∧
      Float64.le (Float64.zero false) e1.Value = true :=
  ⟨by decide!, by decide!,
    applyIncrease_nondecreasing (updateSelect (initialModel lineInput) (Msg.KeyMsg "a")).1
      (lit 10 0) (by decide!) (by decide!)
      (fun e he => (defaultPrices_hundredths e he).elim fun n h => ⟨n, h.2, fun _ => h.1⟩)
      0 ⟨"XL_UPPER_WINDOW", lit 2364 2⟩ rfl⟩

/-- C19 as stated fails: the text `inf` parses to the percentage positive
infinity, which is `>= 0`; on a selected entry of value `0.00` the product
`0 * Inf` is NaN, and NaN is not `>=` the old value. -/
theorem increase_zero_by_inf :
    Strconv.ParseFloat "inf" = (Float64.inf false, false) ∧
    Float64.le (Float64.zero false) (Float64.inf false) = true ∧
    lit 0 2 = Float64.zero false ∧
    (applyIncrease { initialModel lineInput with prices := [⟨"A", lit 0 2⟩], selected := [(0, true)] }
      (Float64.inf false)).prices = [⟨"A", Float64.nan⟩] ∧
    Float64.le (lit 0 2) Float64.nan = false := by
  decide!

/-! ## The shortest format: round trip and fewest digits -/

namespace Strconv

/-- The scale factors of a search position: `s / (u / d)` is `10 ^ (-p)`. -/
theorem pos_scale (p : ℤ) :
    ((10 ^ (-p).toNat : Nat) : ℚ) * 10 ^ p = ((10 ^ p.toNat : Nat) : ℚ) := by
  rcases Int.eq_nat_or_neg p with ⟨n, rfl | rfl⟩
  · have h1 : (-(n : Int)).toNat = 0 := by omega
    have h2 : ((n : Int)).toNat = n := by omega
    rw [h1, h2, zpow_natCast]
    push_cast
    ring
  · have h1 : (-(-(n : Int))).toNat = n := by omega
    have h2 : (-(n : Int)).toNat = 0 := by omega
    rw [h1, h2, zpow_neg, zpow_natCast]
    push_cast
    field_simp

/-- Comparing `a / d` with `k * 10 ^ p` in the integers of a search position. -/
theorem pos_lt (a k d : Nat) (p : ℤ) (hd : 0 < d) :
    a * 10 ^ (-p).toNat < k * (10 ^ p.toNat * d) ↔ (a : ℚ) / d < k * 10 ^ p := by
  have hdq : (0 : ℚ) < d := by exact_mod_cast hd
  have hs : (0 : ℚ) < ((10 ^ (-p).toNat : Nat) : ℚ) := by positivity
  have h := pos_scale p
  rw [div_lt_iff₀ hdq]
  constructor
  · intro hlt
    have : ((a * 10 ^ (-p).toNat : Nat) : ℚ) < ((k * (10 ^ p.toNat * d) : Nat) : ℚ) := by
      exact_mod_cast hlt
    rw [Nat.cast_mul, Nat.cast_mul k, Nat.cast_mul, ← h] at this
    have h2 : (a : ℚ) * ((10 ^ (-p).toNat : Nat) : ℚ) <
        (k * 10 ^ p * d) * ((10 ^ (-p).toNat : Nat) : ℚ) := by
      calc (a : ℚ) * ((10 ^ (-p).toNat : Nat) : ℚ)
          < k * (((10 ^ (-p).toNat : Nat) : ℚ) * 10 ^ p * d) := this
        _ = (k * 10 ^ p * d) * ((10 ^ (-p).toNat : Nat) : ℚ) := by ring
    exact lt_of_mul_lt_mul_right h2 (le_of_lt hs)
  · intro hlt
    have h2 : (a : ℚ) * ((10 ^ (-p).toNat : Nat) : ℚ) <
        (k * 10 ^ p * d) * ((10 ^ (-p).toNat : Nat) : ℚ) := mul_lt_mul_of_pos_right hlt hs
    have : ((a * 10 ^ (-p).toNat : Nat) : ℚ) < ((k * (10 ^ p.toNat * d) : Nat) : ℚ) := by
      rw [Nat.cast_mul, Nat.cast_mul k, Nat.cast_mul, ← h]
      calc (a : ℚ) * ((10 ^ (-p).toNat : Nat) : ℚ)
          < (k * 10 ^ p * d) * ((10 ^ (-p).toNat : Nat) : ℚ) := h2
        _ = k * (((10 ^ (-p).toNat : Nat) : ℚ) * 10 ^ p * d) := by ring
    exact_mod_cast this

theorem pos_gt (a k d : Nat) (p : ℤ) (hd : 0 < d) :
    k * (10 ^ p.toNat * d) < a * 10 ^ (-p).toNat ↔ (k : ℚ) * 10 ^ p < (a : ℚ) / d := by
  have hdq : (0 : ℚ) < d := by exact_mod_cast hd
  have hs : (0 : ℚ) < ((10 ^ (-p).toNat : Nat) : ℚ) := by positivity
  have h := pos_scale p
  rw [lt_div_iff₀ hdq]
  constructor
  · intro hlt
    have : ((k * (10 ^ p.toNat * d) : Nat) : ℚ) < ((a * 10 ^ (-p).toNat : Nat) : ℚ) := by
      exact_mod_cast hlt
    rw [Nat.cast_mul, Nat.cast_mul a, Nat.cast_mul, ← h] at this
    have h2 : (k * 10 ^ p * d) * ((10 ^ (-p).toNat : Nat) : ℚ) <
        (a : ℚ) * ((10 ^ (-p).toNat : Nat) : ℚ) := by
      calc (k * 10 ^ p * d) * ((10 ^ (-p).toNat : Nat) : ℚ)
          = k * (((10 ^ (-p).toNat : Nat) : ℚ) * 10 ^ p * d) := by ring
        _ < (a : ℚ) * ((10 ^ (-p).toNat : Nat) : ℚ) := this
    exact lt_of_mul_lt_mul_right h2 (le_of_lt hs)
  · intro hlt
    have h2 : (k * 10 ^ p * d) * ((10 ^ (-p).toNat : Nat) : ℚ) <
        (a : ℚ) * ((10 ^ (-p).toNat : Nat) : ℚ) := mul_lt_mul_of_pos_right hlt hs
    have : ((k * (10 ^ p.toNat * d) : Nat) : ℚ) < ((a * 10 ^ (-p).toNat : Nat) : ℚ) := by
      rw [Nat.cast_mul, Nat.cast_mul a, Nat.cast_mul, ← h]
      calc (k : ℚ) * (((10 ^ (-p).toNat : Nat) : ℚ) * 10 ^ p * d)
          = (k * 10 ^ p * d) * ((10 ^ (-p).toNat : Nat) : ℚ) := by ring
        _ < (a : ℚ) * ((10 ^ (-p).toNat : Nat) : ℚ) := h2
    exact_mod_cast this

theorem pos_eq (a k d : Nat) (p : ℤ) (hd : 0 < d) :
    a * 10 ^ (-p).toNat = k * (10 ^ p.toNat * d) ↔ (a : ℚ) / d = k * 10 ^ p := by
  have h1 := pos_lt a k d p hd
  have h2 := pos_gt a k d p hd
  constructor
  · intro h
    apply le_antisymm
    · by_contra hc
      have := h2.2 (lt_of_not_le hc)
      omega
    · by_contra hc
      have := h1.2 (lt_of_not_le hc)
      omega
  · intro h
    have n1 : ¬ a * 10 ^ (-p).toNat < k * (10 ^ p.toNat * d) := fun hc => by
      have := h1.1 hc
      linarith
    have n2 : ¬ k * (10 ^ p.toNat * d) < a * 10 ^ (-p).toNat := fun hc => by
      have := h2.1 hc
      linarith
    omega

/-- The quotient of a search position brackets the value. -/
theorem pos_bracket (x d : Nat) (p : ℤ) (hd : 0 < d) :
    ((x * 10 ^ (-p).toNat / (10 ^ p.toNat * d) : Nat) : ℚ) * 10 ^ p ≤ (x : ℚ) / d ∧
    (x : ℚ) / d < ((x * 10 ^ (-p).toNat / (10 ^ p.toNat * d) + 1 : Nat) : ℚ) * 10 ^ p := by
  have hu : 0 < 10 ^ p.toNat * d := by positivity
  constructor
  · by_contra hc
    have := (pos_lt x _ d p hd).2 (lt_of_not_le hc)
    have h2 := Nat.div_mul_le_self (x * 10 ^ (-p).toNat) (10 ^ p.toNat * d)
    omega
  · apply (pos_lt x _ d p hd).1
    have := Nat.lt_div_mul_add hu (a := x * 10 ^ (-p).toNat)
    rw [Nat.add_mul, Nat.one_mul]
    exact this

/-- What the search returns: a decimal in the interval, at the highest position
that has one. -/
theorem shortestSearch_spec (x lo hi d : Nat) (incl : Bool) (hd : 0 < d) (hlo : lo < x)
    (hhi : x < hi) :
    ∀ (fuel : Nat) (p pstar : ℤ) (k : Nat), (x : ℚ) / d = k * 10 ^ pstar → pstar ≤ p →
      (p - pstar).toNat < fuel →
      inInterval lo hi d incl (((shortestSearch x lo hi d incl fuel p).1 : ℚ) *
        10 ^ (shortestSearch x lo hi d incl fuel p).2) ∧
      (shortestSearch x lo hi d incl fuel p).2 ≤ p ∧
      ∀ j : ℤ, (shortestSearch x lo hi d incl fuel p).2 < j → j ≤ p →
        ∀ k1 : Nat, ¬ inInterval lo hi d incl ((k1 : ℚ) * 10 ^ j) := by
  have hdq : (0 : ℚ) < d := by exact_mod_cast hd
  have hloq : (lo : ℚ) / d < (x : ℚ) / d := by
    apply div_lt_div_of_pos_right _ hdq
    exact_mod_cast hlo
  have hhiq : (x : ℚ) / d < (hi : ℚ) / d := by
    apply div_lt_div_of_pos_right _ hdq
    exact_mod_cast hhi
  intro fuel
  induction fuel with
  | zero => intro p pstar k _ _ hf; omega
  | succ fuel ih =>
    intro p pstar k hk hp hf
    obtain ⟨hq1, hq2⟩ := pos_bracket x d p hd
    have hT : (0 : ℚ) < 10 ^ p := by positivity
    have hdown : (decide (lo * 10 ^ (-p).toNat < x * 10 ^ (-p).toNat / (10 ^ p.toNat * d) *
          (10 ^ p.toNat * d)) ||
        (incl && decide (lo * 10 ^ (-p).toNat = x * 10 ^ (-p).toNat / (10 ^ p.toNat * d) *
          (10 ^ p.toNat * d)))) = true ↔
        ((lo : ℚ) / d < ((x * 10 ^ (-p).toNat / (10 ^ p.toNat * d) : Nat) : ℚ) * 10 ^ p ∨
          (incl = true ∧
            (lo : ℚ) / d = ((x * 10 ^ (-p).toNat / (10 ^ p.toNat * d) : Nat) : ℚ) * 10 ^ p)) := by
      rw [Bool.or_eq_true, Bool.and_eq_true, decide_eq_true_eq, decide_eq_true_eq,
        pos_lt lo _ d p hd, pos_eq lo _ d p hd]
    have hup : (decide ((x * 10 ^ (-p).toNat / (10 ^ p.toNat * d) + 1) * (10 ^ p.toNat * d) <
          hi * 10 ^ (-p).toNat) ||
        (incl && decide ((x * 10 ^ (-p).toNat / (10 ^ p.toNat * d) + 1) * (10 ^ p.toNat * d) =
          hi * 10 ^ (-p).toNat))) = true ↔
        (((x * 10 ^ (-p).toNat / (10 ^ p.toNat * d) + 1 : Nat) : ℚ) * 10 ^ p < (hi : ℚ) / d ∨
          (incl = true ∧
            ((x * 10 ^ (-p).toNat / (10 ^ p.toNat * d) + 1 : Nat) : ℚ) * 10 ^ p =
              (hi : ℚ) / d)) := by
      rw [Bool.or_eq_true, Bool.and_eq_true, decide_eq_true_eq, decide_eq_true_eq,
        pos_gt hi _ d p hd]
      exact or_congr Iff.rfl (and_congr Iff.rfl
        ⟨fun h => ((pos_eq hi _ d p hd).1 h.symm).symm,
          fun h => ((pos_eq hi _ d p hd).2 h.symm).symm⟩)
    generalize hqdef : x * 10 ^ (-p).toNat / (10 ^ p.toNat * d) = q at hq1 hq2 hdown hup
    have inq : ((lo : ℚ) / d < (q : ℚ) * 10 ^ p ∨ (incl = true ∧ (lo : ℚ) / d = (q : ℚ) * 10 ^ p)) →
        inInterval lo hi d incl ((q : ℚ) * 10 ^ p) := fun h => ⟨h, Or.inl (by linarith)⟩
    have inq1 : (((q + 1 : Nat) : ℚ) * 10 ^ p < (hi : ℚ) / d ∨
        (incl = true ∧ ((q + 1 : Nat) : ℚ) * 10 ^ p = (hi : ℚ) / d)) →
        inInterval lo hi d incl (((q + 1 : Nat) : ℚ) * 10 ^ p) := fun h => ⟨Or.inl (by linarith), h⟩
    have vac : ∀ j : ℤ, p < j → j ≤ p → ∀ k1 : Nat, ¬ inInterval lo hi d incl ((k1 : ℚ) * 10 ^ j) :=
      fun j h1 h2 => by omega
    rw [shortestSearch]
    simp only [hqdef, Bool.and_eq_true]
    split_ifs with c1 c2 c3 c4
    · exact ⟨inq1 (hup.1 c1.2), le_refl _, vac⟩
    · exact ⟨inq (hdown.1 c1.1), le_refl _, vac⟩
    · exact ⟨inq (hdown.1 c3), le_refl _, vac⟩
    · exact ⟨inq1 (hup.1 c4), le_refl _, vac⟩
    · have nd := fun h => c3 (hdown.2 h)
      have nu := fun h => c4 (hup.2 h)
      have hne : pstar ≠ p := by
        intro he
        subst he
        apply nd
        left
        have hkq : (k : ℚ) * 10 ^ pstar < ((q + 1 : Nat) : ℚ) * 10 ^ pstar := by rw [← hk]; exact hq2
        have hkq2 : (q : ℚ) * 10 ^ pstar ≤ (k : ℚ) * 10 ^ pstar := by rw [← hk]; exact hq1
        have h1 : (k : ℚ) < ((q + 1 : Nat) : ℚ) := lt_of_mul_lt_mul_right hkq (le_of_lt hT)
        have h2 : (q : ℚ) ≤ (k : ℚ) := le_of_mul_le_mul_right hkq2 hT
        have h3 : k < q + 1 := by exact_mod_cast h1
        have h4 : q ≤ k := by exact_mod_cast h2
        have : k = q := by omega
        rw [← this, ← hk]
        exact hloq
      obtain ⟨i1, i2, i3⟩ := ih (p - 1) pstar k hk (by omega) (by omega)
      refine ⟨i1, by omega, ?_⟩
      intro j hj1 hj2 k1 hin
      by_cases hjp : j ≤ p - 1
      · exact i3 j hj1 hjp k1 hin
      · have hj : j = p := by omega
        subst hj
        rcases Nat.lt_or_ge q k1 with hk1 | hk1
        · apply nu
          have hle : ((q + 1 : Nat) : ℚ) ≤ (k1 : ℚ) := by exact_mod_cast hk1
          rcases lt_or_eq_of_le hle with hlt | heq
          · left
            have : ((q + 1 : Nat) : ℚ) * 10 ^ j < (k1 : ℚ) * 10 ^ j := mul_lt_mul_of_pos_right hlt hT
            rcases hin.2 with h | h
            · linarith
            · linarith [h.2]
          · rw [heq]
            exact hin.2
        · apply nd
          have hle : (k1 : ℚ) ≤ (q : ℚ) := by exact_mod_cast hk1
          rcases lt_or_eq_of_le hle with hlt | heq
          · left
            have : (k1 : ℚ) * 10 ^ j < (q : ℚ) * 10 ^ j := mul_lt_mul_of_pos_right hlt hT
            rcases hin.1 with h | h
            · linarith
            · linarith [h.2]
          · rw [← heq]
            exact hin.1

theorem FormatFloat_finite (f : Float64) (hn : f.isNaN = false) (hi : f.isInf = false)
    (hz : f.isZero = false) (hs : f.sign = false) :
    FormatFloat f = String.mk (decimalText
      (stripZeros (-(shortestDecimal f).2).toNat (shortestDecimal f).1 (shortestDecimal f).2).1
      (stripZeros (-(shortestDecimal f).2).toNat (shortestDecimal f).1 (shortestDecimal f).2).2) := by
  unfold FormatFloat shortestDecimal decimalText
  simp only [hn, hi, hz, hs, Bool.false_eq_true, if_false, List.nil_append, Nat.cast_add,
    Nat.cast_one]
  split_ifs <;> rfl

theorem valAcc_lt (ds : List Char) (hds : ∀ c ∈ ds, isDigit c = true) :
    valAcc 0 ds < 10 ^ ds.length := by
  induction ds with
  | nil => simp [valAcc]
  | cons c cs ih =>
    have ihc := ih (fun x hx => hds x (List.mem_cons_of_mem _ hx))
    obtain ⟨k, hk, rfl⟩ := isDigit_eq_ofNat (hds c (List.mem_cons_self _ _))
    have hv : (Char.ofNat (48 + k)).toNat - '0'.toNat = k := by
      interval_cases k <;> decide
    show valAcc (0 * 10 + ((Char.ofNat (48 + k)).toNat - '0'.toNat)) cs < _
    rw [hv, Nat.zero_mul, Nat.zero_add, valAcc_eq, List.length_cons, pow_succ]
    have : k * 10 ^ cs.length ≤ 9 * 10 ^ cs.length := Nat.mul_le_mul_right _ (by omega)
    omega

theorem lt_pow_length_toDigits (n : Nat) : n < 10 ^ (Nat.toDigits 10 n).length := by
  have := valAcc_lt (Nat.toDigits 10 n) (toDigits_isDigit n)
  rw [valAcc_toDigits] at this
  exact this

end Strconv

namespace Float64

theorem mant_pos {b : Nat} (hb : 0 < b) : 0 < (ofBits false b).mant := by
  rcases Nat.eq_zero_or_pos (ofBits false b).mant with h | h
  · have := mant_eq_zero h
    omega
  · exact h

theorem quarter_scaled (n : Nat) (e : Int) :
    ((n * 2 ^ e.toNat : Nat) : ℚ) / ((4 * 2 ^ (-e).toNat : Nat) : ℚ) = (n : ℚ) * 2 ^ e / 4 := by
  have h := scaled_value n e
  have hp : (0 : ℚ) < ((2 ^ (-e).toNat : Nat) : ℚ) := by positivity
  rw [← h]
  push_cast
  rw [div_div]
  congr 1
  ring

/-- The gap below a bit pattern: half the gap above at the start of a binade of
normal numbers, else the same. -/
theorem U_pred (b : Nat) (hb : 0 < b) :
    U (b - 1) = (if b % 2 ^ 52 = 0 ∧ 1 < b / 2 ^ 52 then (1 : ℚ) else 2) / 2 * U b := by
  unfold U ofBits exp2
  simp only []
  split_ifs with h1 h2 h3 h3 h4 h5
  all_goals first
    | omega
    | (have e1 : (b - 1) / 2 ^ 52 = b / 2 ^ 52 - 1 := by omega
       rw [e1, Nat.cast_sub (by omega)]
       rw [show ((b / 2 ^ 52 : Nat) : ℤ) - 1075 = (((b / 2 ^ 52 : Nat) : ℤ) - ((1 : Nat) : ℤ) - 1075) + 1 by
         push_cast; ring, zpow_add_one₀ (by norm_num)]
       ring)
    | (have e1 : (b - 1) / 2 ^ 52 = b / 2 ^ 52 := by omega
       rw [e1]
       ring)
    | (have e1 : b / 2 ^ 52 = 1 := by omega
       rw [e1]
       norm_num)
    | ring

theorem fmt_value (b : Nat) :
    ((4 * (ofBits false b).mant * 2 ^ (ofBits false b).exp2.toNat : Nat) : ℚ) /
      ((4 * 2 ^ (-(ofBits false b).exp2).toNat : Nat) : ℚ) = V b := by
  rw [quarter_scaled, V_eq]
  unfold U
  push_cast
  ring

theorem fmt_hi (b : Nat) :
    (((4 * (ofBits false b).mant + 2) * 2 ^ (ofBits false b).exp2.toNat : Nat) : ℚ) /
      ((4 * 2 ^ (-(ofBits false b).exp2).toNat : Nat) : ℚ) = (V b + V (b + 1)) / 2 := by
  rw [quarter_scaled, V_succ, V_eq]
  unfold U
  push_cast
  ring

theorem fmt_lo (b : Nat) (hb : 0 < b) :
    (((4 * (ofBits false b).mant -
        (if (ofBits false b).frac = 0 ∧ 1 < (ofBits false b).expo then 1 else 2)) *
        2 ^ (ofBits false b).exp2.toNat : Nat) : ℚ) /
      ((4 * 2 ^ (-(ofBits false b).exp2).toNat : Nat) : ℚ) = (V (b - 1) + V b) / 2 := by
  have hm := mant_pos hb
  have hsucc := V_succ (b - 1)
  rw [show b - 1 + 1 = b by omega, U_pred b hb] at hsucc
  have hVp : V (b - 1) = V b -
      (if b % 2 ^ 52 = 0 ∧ 1 < b / 2 ^ 52 then (1 : ℚ) else 2) / 2 * U b := by linarith
  rw [quarter_scaled, hVp, V_eq]
  show ((4 * (ofBits false b).mant - (if b % 2 ^ 52 = 0 ∧ 1 < b / 2 ^ 52 then 1 else 2) : Nat) : ℚ) *
    2 ^ (ofBits false b).exp2 / 4 = _
  unfold U
  split_ifs
  · rw [Nat.cast_sub (by omega)]
    push_cast
    ring
  · rw [Nat.cast_sub (by omega)]
    push_cast
    ring

/-- The interval of the shortest format is that of the values that round to the
bit pattern. -/
theorem inInterval_iff_rounds (b : Nat) (hb : 0 < b) (z : ℚ) :
    inInterval
      ((4 * (ofBits false b).mant -
        (if (ofBits false b).frac = 0 ∧ 1 < (ofBits false b).expo then 1 else 2)) *
        2 ^ (ofBits false b).exp2.toNat)
      ((4 * (ofBits false b).mant + 2) * 2 ^ (ofBits false b).exp2.toNat)
      (4 * 2 ^ (-(ofBits false b).exp2).toNat) (decide ((ofBits false b).mant % 2 = 0)) z ↔
    rounds b z := by
  unfold inInterval rounds
  rw [fmt_lo b hb, fmt_hi b]
  have hpar : (ofBits false b).mant % 2 = b % 2 := by
    unfold ofBits mant
    simp only []
    split_ifs <;> omega
  rw [hpar, decide_eq_true_eq]
  rcases Nat.mod_two_eq_zero_or_one b with h | h
  · simp only [h, true_and, Nat.zero_ne_one, false_implies, and_true]
    constructor
    · rintro ⟨h1, h2⟩
      refine ⟨Or.inr ?_, ?_⟩
      · rcases h1 with h1 | h1 <;> linarith
      · rcases h2 with h2 | h2 <;> linarith
    · rintro ⟨h1, h2⟩
      have h1' : V (b - 1) + V b ≤ 2 * z := by
        rcases h1 with h1 | h1
        · omega
        · exact h1
      constructor
      · rcases lt_or_eq_of_le h1' with h3 | h3
        · left; linarith
        · right; linarith
      · rcases lt_or_eq_of_le h2 with h3 | h3
        · left; linarith
        · right; linarith
  · simp only [h, Nat.one_ne_zero, false_and, or_false, true_implies]
    constructor
    · rintro ⟨h1, h2⟩
      exact ⟨Or.inr (by linarith), by linarith, by linarith, by linarith⟩
    · rintro ⟨_, _, h3, h4⟩
      exact ⟨by linarith, by linarith⟩

theorem exp2_ge (b : Nat) : -1074 ≤ (ofBits false b).exp2 := by
  unfold ofBits exp2
  simp only []
  split_ifs <;> omega

/-- A finite value is a whole multiple of a power of ten. -/
theorem V_decimal (b : Nat) :
    ∃ (k : Nat) (pstar : ℤ), V b = k * 10 ^ pstar ∧ -1074 ≤ pstar ∧ pstar ≤ 0 := by
  have he := exp2_ge b
  rw [V_eq]
  unfold U
  generalize (ofBits false b).exp2 = e at he
  generalize (ofBits false b).mant = m
  rcases Int.eq_nat_or_neg e with ⟨n, rfl | rfl⟩
  · refine ⟨m * 2 ^ n, 0, ?_, by omega, le_refl _⟩
    rw [zpow_natCast]
    push_cast
    ring
  · refine ⟨m * 5 ^ n, -(n : ℤ), ?_, he, by omega⟩
    rw [zpow_neg, zpow_neg, zpow_natCast, zpow_natCast]
    push_cast
    rw [show (10 : ℚ) = 2 * 5 by norm_num, mul_pow]
    field_simp
    ring

theorem V_pos {b : Nat} (hb : 0 < b) : 0 < V b := by
  have h0 : V 0 = 0 := by unfold V absRat ofBits mant; norm_num
  have := V_strictMono hb
  linarith

theorem U_le_V {b : Nat} (hb : 0 < b) : U b ≤ V b := by
  rw [V_eq]
  have : (1 : ℚ) ≤ ((ofBits false b).mant : ℚ) := by exact_mod_cast mant_pos hb
  nlinarith [U_pos b]

end Float64

namespace Strconv

/-- What the search of the shortest format finds for a finite positive value: a
decimal that rounds to the value, at the highest position of any such decimal. -/
theorem shortestDecimal_spec (b : Nat) (hb : 0 < b) :
    rounds b (((shortestDecimal (ofBits false b)).1 : ℚ) *
      10 ^ (shortestDecimal (ofBits false b)).2) ∧
    ∀ j : ℤ, (shortestDecimal (ofBits false b)).2 < j → ∀ k1 : Nat,
      ¬ rounds b ((k1 : ℚ) * 10 ^ j) := by
  have hm := mant_pos hb
  obtain ⟨k, pstar, hk, hp1, hp2⟩ := V_decimal b
  have hup : 0 < 2 ^ (ofBits false b).exp2.toNat := by positivity
  have hlo : (4 * (ofBits false b).mant -
      (if (ofBits false b).frac = 0 ∧ 1 < (ofBits false b).expo then 1 else 2)) *
        2 ^ (ofBits false b).exp2.toNat <
      4 * (ofBits false b).mant * 2 ^ (ofBits false b).exp2.toNat := by
    apply Nat.mul_lt_mul_of_pos_right _ hup
    split_ifs <;> omega
  have hhi : 4 * (ofBits false b).mant * 2 ^ (ofBits false b).exp2.toNat <
      (4 * (ofBits false b).mant + 2) * 2 ^ (ofBits false b).exp2.toNat := by
    apply Nat.mul_lt_mul_of_pos_right _ hup
    omega
  have hx := fmt_value b
  have spec := shortestSearch_spec _ _ _ (4 * 2 ^ (-(ofBits false b).exp2).toNat)
    (decide ((ofBits false b).mant % 2 = 0)) (by positivity) hlo hhi
    ((((Nat.toDigits 10 ((ofBits false b).mant * 2 ^ (ofBits false b).exp2.toNat /
      2 ^ (-(ofBits false b).exp2).toNat)).length + 1 : Nat) : Int).toNat + 1100)
    (((Nat.toDigits 10 ((ofBits false b).mant * 2 ^ (ofBits false b).exp2.toNat /
      2 ^ (-(ofBits false b).exp2).toNat)).length + 1 : Nat) : Int)
    pstar k (by rw [hx]; exact hk) (by omega) (by omega)
  obtain ⟨s1, s2, s3⟩ := spec
  rw [inInterval_iff_rounds b hb] at s1
  refine ⟨s1, ?_⟩
  intro j hj k1 hr
  by_cases hjp : j ≤ (((Nat.toDigits 10 ((ofBits false b).mant * 2 ^ (ofBits false b).exp2.toNat /
      2 ^ (-(ofBits false b).exp2).toNat)).length + 1 : Nat) : Int)
  · exact s3 j hj hjp k1 ((inInterval_iff_rounds b hb _).2 hr)
  · have hVpos := V_pos hb
    obtain ⟨r1, r2, _⟩ := hr
    rw [V_succ] at r2
    have hUV := U_le_V hb
    rcases Nat.eq_zero_or_pos k1 with h0 | h0
    · subst h0
      rcases r1 with r1 | r1
      · omega
      · have := V_nonneg (b - 1)
        simp only [Nat.cast_zero, zero_mul, mul_zero] at r1
        linarith
    · have hbr := div_bracket ((ofBits false b).mant * 2 ^ (ofBits false b).exp2.toNat)
        (2 ^ (-(ofBits false b).exp2).toNat) (by positivity)
      rw [scaled_value] at hbr
      have hVlt : V b < (10 : ℚ) ^ ((Nat.toDigits 10 ((ofBits false b).mant *
          2 ^ (ofBits false b).exp2.toNat / 2 ^ (-(ofBits false b).exp2).toNat)).length : ℤ) := by
        have hl := lt_pow_length_toDigits ((ofBits false b).mant *
          2 ^ (ofBits false b).exp2.toNat / 2 ^ (-(ofBits false b).exp2).toNat)
        have hl' : (((ofBits false b).mant * 2 ^ (ofBits false b).exp2.toNat /
            2 ^ (-(ofBits false b).exp2).toNat : Nat) : ℚ) + 1 ≤
            ((10 ^ (Nat.toDigits 10 ((ofBits false b).mant *
              2 ^ (ofBits false b).exp2.toNat / 2 ^ (-(ofBits false b).exp2).toNat)).length : Nat) : ℚ) := by
          exact_mod_cast hl
        rw [zpow_natCast]
        push_cast at hl'
        rw [V_eq]
        unfold U
        linarith [hbr.2]
      generalize (Nat.toDigits 10 ((ofBits false b).mant *
          2 ^ (ofBits false b).exp2.toNat / 2 ^ (-(ofBits false b).exp2).toNat)).length = len
        at hjp hVlt
      have hpow : (10 : ℚ) ^ ((len : ℤ) + 1) ≤ 10 ^ j :=
        zpow_le_zpow_right₀ (by norm_num) (by push_cast at hjp; omega)
      rw [zpow_add_one₀ (by norm_num)] at hpow
      have hk1 : (1 : ℚ) ≤ (k1 : ℚ) := by exact_mod_cast h0
      have hjpos : (0 : ℚ) < 10 ^ j := by positivity
      have hlen : (0 : ℚ) < 10 ^ (len : ℤ) := by positivity
      nlinarith

/-- Dropping trailing zeros after the point keeps the number. -/
theorem stripZeros_value : ∀ (fuel c : Nat) (p : ℤ),
    ((stripZeros fuel c p).1 : ℚ) * 10 ^ (stripZeros fuel c p).2 = (c : ℚ) * 10 ^ p := by
  intro fuel
  induction fuel with
  | zero => intro c p; rfl
  | succ fuel ih =>
    intro c p
    rw [stripZeros]
    split_ifs with h
    · rw [ih, zpow_add_one₀ (by norm_num)]
      have hc : c = c / 10 * 10 := by omega
      have : (c : ℚ) = ((c / 10 : Nat) : ℚ) * 10 := by exact_mod_cast hc
      rw [this]
      ring
    · rfl

end Strconv

namespace Float64

/-- The values that round to a bit pattern form an interval. -/
theorem rounds_convex {b : Nat} {z1 z2 z3 : ℚ} (h1 : rounds b z1) (h3 : rounds b z3)
    (h12 : z1 ≤ z2) (h23 : z2 ≤ z3) : rounds b z2 := by
  obtain ⟨a1, _, a3⟩ := h1
  obtain ⟨_, c2, c3⟩ := h3
  refine ⟨?_, by linarith, ?_⟩
  · rcases a1 with a1 | a1
    · exact Or.inl a1
    · exact Or.inr (by linarith)
  · intro hodd
    have := a3 hodd
    have := c3 hodd
    exact ⟨by linarith, by linarith⟩

theorem not_rounds_zero {b : Nat} (hb : 0 < b) : ¬ rounds b 0 := by
  rintro ⟨r1, _, _⟩
  rcases r1 with r1 | r1
  · omega
  · have := V_nonneg (b - 1)
    have := V_pos hb
    linarith

/-- A number written with a last digit that is not zero at position `pr` is a
multiple of no higher power of ten. -/
theorem position_le (cr k0 : Nat) (pr P : ℤ) (hc : cr % 10 ≠ 0)
    (h : (cr : ℚ) * 10 ^ pr = (k0 : ℚ) * 10 ^ P) : P ≤ pr := by
  by_contra hlt
  obtain ⟨n, hn⟩ : ∃ n : Nat, P = pr + ((n + 1 : Nat) : ℤ) := ⟨(P - pr - 1).toNat, by omega⟩
  rw [hn, zpow_add₀ (by norm_num), zpow_natCast] at h
  have hp : (0 : ℚ) < 10 ^ pr := by positivity
  have h2 : (cr : ℚ) = (k0 : ℚ) * 10 ^ (n + 1) := by
    have : (cr : ℚ) * 10 ^ pr = ((k0 : ℚ) * 10 ^ (n + 1)) * 10 ^ pr := by rw [h]; ring
    exact mul_right_cancel₀ (ne_of_gt hp) this
  have h3 : cr = k0 * 10 ^ (n + 1) := by exact_mod_cast h2
  apply hc
  rw [h3, pow_succ, ← Nat.mul_assoc]
  exact Nat.mul_mod_left _ _

/-- The count of digits of the decimal found at the highest position is the
least: a decimal of fewer digits does not round to the value. -/
theorem shortest_count (b : Nat) (P : ℤ) (k0 cr : Nat) (pr : ℤ) (Lr c2 : Nat) (p2 : ℤ) (L2 : Nat)
    (hmax : ∀ j : ℤ, P < j → ∀ k1 : Nat, ¬ rounds b ((k1 : ℚ) * 10 ^ j))
    (hr : rounds b ((cr : ℚ) * 10 ^ pr)) (hk0 : (cr : ℚ) * 10 ^ pr = (k0 : ℚ) * 10 ^ P)
    (hc : cr % 10 ≠ 0) (hLr : 10 ^ (Lr - 1) ≤ cr) (hLr0 : 0 < Lr)
    (h2 : rounds b ((c2 : ℚ) * 10 ^ p2)) (hc2 : c2 < 10 ^ L2) (hc20 : 0 < c2) : Lr ≤ L2 := by
  have hpr1 : pr ≤ P := by
    by_contra hlt
    exact hmax pr (by omega) cr hr
  have hpr2 : P ≤ pr := position_le cr k0 pr P hc hk0
  have hp2 : p2 ≤ P := by
    by_contra hlt
    exact hmax p2 (by omega) c2 h2
  by_contra hlt
  have hL : L2 + 1 ≤ Lr := by omega
  have hT : rounds b (((1 : Nat) : ℚ) * 10 ^ (((Lr - 1 : Nat) : ℤ) + pr)) := by
    apply rounds_convex h2 hr
    · have h1 : (c2 : ℚ) ≤ 10 ^ (L2 : ℤ) := by
        rw [zpow_natCast]
        exact_mod_cast le_of_lt hc2
      have hp : (0 : ℚ) < 10 ^ p2 := by positivity
      calc (c2 : ℚ) * 10 ^ p2 ≤ 10 ^ (L2 : ℤ) * 10 ^ p2 := mul_le_mul_of_nonneg_right h1 (le_of_lt hp)
        _ = 10 ^ ((L2 : ℤ) + p2) := by rw [zpow_add₀ (by norm_num)]
        _ ≤ 10 ^ (((Lr - 1 : Nat) : ℤ) + pr) := zpow_le_zpow_right₀ (by norm_num) (by omega)
        _ = ((1 : Nat) : ℚ) * 10 ^ (((Lr - 1 : Nat) : ℤ) + pr) := by push_cast; ring
    · have h1 : (10 : ℚ) ^ ((Lr - 1 : Nat) : ℤ) ≤ (cr : ℚ) := by
        rw [zpow_natCast]
        exact_mod_cast hLr
      have hp : (0 : ℚ) < 10 ^ pr := by positivity
      calc ((1 : Nat) : ℚ) * 10 ^ (((Lr - 1 : Nat) : ℤ) + pr)
          = 10 ^ ((Lr - 1 : Nat) : ℤ) * 10 ^ pr := by
            rw [zpow_add₀ (by norm_num)]; push_cast; ring
        _ ≤ (cr : ℚ) * 10 ^ pr := mul_le_mul_of_nonneg_right h1 (le_of_lt hp)
  have hpos : ¬ P < ((Lr - 1 : Nat) : ℤ) + pr := fun h => hmax _ h 1 hT
  have hL1 : Lr = 1 := by omega
  have hL2 : L2 = 0 := by omega
  subst hL2
  simp at hc2
  omega

end Float64

namespace Strconv

theorem valAcc_zeros (j : Nat) : ∀ a : Nat, valAcc a (List.replicate j '0') = a * 10 ^ j := by
  induction j with
  | zero => intro a; simp [valAcc]
  | succ j ih =>
    intro a
    rw [List.replicate_succ]
    show valAcc (a * 10 + ('0'.toNat - '0'.toNat)) _ = _
    rw [ih, pow_succ]
    simp only [Nat.sub_self, Nat.add_zero]
    ring

theorem valAcc_dropWhile (ds : List Char) :
    valAcc 0 (ds.dropWhile isZeroDigit) = valAcc 0 ds := by
  induction ds with
  | nil => rfl
  | cons c cs ih =>
    by_cases h : isZeroDigit c = true
    · rw [List.dropWhile_cons_of_pos h, ih]
      have hc : c = '0' := by simpa [isZeroDigit] using h
      subst hc
      rfl
    · rw [List.dropWhile_cons_of_neg h]

/-- A text is its part up to the last digit that is not zero, then zeros. -/
theorem split_trailing_zeros (ds : List Char) :
    ∃ j : Nat, ds = (ds.reverse.dropWhile isZeroDigit).reverse ++ List.replicate j '0' := by
  refine ⟨(ds.reverse.takeWhile isZeroDigit).length, ?_⟩
  have h := List.takeWhile_append_dropWhile isZeroDigit ds.reverse
  have ht : ds.reverse.takeWhile isZeroDigit =
      List.replicate (ds.reverse.takeWhile isZeroDigit).length '0' := by
    rw [List.eq_replicate_iff]
    refine ⟨rfl, ?_⟩
    intro b hb
    have := List.mem_takeWhile_imp hb
    simpa [isZeroDigit] using this
  have h2 := congrArg List.reverse h
  rw [List.reverse_append, List.reverse_reverse, ht, List.reverse_replicate] at h2
  exact h2.symm

theorem digit_value_pos {c : Char} (hd : isDigit c = true) (hz : isZeroDigit c = false) :
    1 ≤ c.toNat - '0'.toNat ∧ c.toNat - '0'.toNat ≤ 9 := by
  obtain ⟨k, hk, rfl⟩ := isDigit_eq_ofNat hd
  have hv : (Char.ofNat (48 + k)).toNat - '0'.toNat = k := by
    interval_cases k <;> decide
  rw [hv]
  refine ⟨?_, by omega⟩
  rcases Nat.eq_zero_or_pos k with h | h
  · subst h
    simp [isZeroDigit] at hz
  · exact h

/-- The significant digits of a text of digits that stands for a positive
number: the number is `c * 10 ^ j` with `c` written by exactly those digits. -/
theorem sigLen_spec (ds : List Char) (hds : ∀ c ∈ ds, isDigit c = true) (hN : 0 < valAcc 0 ds) :
    ∃ c j : Nat, valAcc 0 ds = c * 10 ^ j ∧ c % 10 ≠ 0 ∧ 10 ^ (sigLen ds - 1) ≤ c ∧
      c < 10 ^ sigLen ds ∧ 0 < sigLen ds := by
  obtain ⟨j, hj⟩ := split_trailing_zeros (ds.dropWhile isZeroDigit)
  have hsub : ∀ c ∈ (ds.dropWhile isZeroDigit), isDigit c = true :=
    fun c hc => hds c ((List.dropWhile_sublist _).subset hc)
  have hsub2 : ∀ c ∈ ((ds.dropWhile isZeroDigit).reverse.dropWhile isZeroDigit).reverse,
      isDigit c = true := by
    intro c hc
    apply hsub
    rw [hj]
    exact List.mem_append_left _ hc
  have hval : valAcc 0 ds =
      valAcc 0 ((ds.dropWhile isZeroDigit).reverse.dropWhile isZeroDigit).reverse * 10 ^ j := by
    rw [← valAcc_dropWhile ds]
    conv_lhs => rw [hj]
    rw [valAcc_append, valAcc_zeros]
  have hlen : sigLen ds = ((ds.dropWhile isZeroDigit).reverse.dropWhile isZeroDigit).reverse.length := by
    rw [List.length_reverse]
    rfl
  rw [hlen]
  generalize hD2 : ((ds.dropWhile isZeroDigit).reverse.dropWhile isZeroDigit).reverse = D2
    at hj hsub2 hval
  have hcpos : 0 < valAcc 0 D2 := by
    rcases Nat.eq_zero_or_pos (valAcc 0 D2) with h | h
    · rw [h, Nat.zero_mul] at hval
      omega
    · exact h
  have hne : D2 ≠ [] := by
    intro h
    rw [h] at hcpos
    simp [valAcc] at hcpos
  refine ⟨valAcc 0 D2, j, hval, ?_, ?_, valAcc_lt D2 hsub2, ?_⟩
  · -- the last digit is not zero
    have hRne : (ds.dropWhile isZeroDigit).reverse.dropWhile isZeroDigit ≠ [] := by
      intro h
      rw [h] at hD2
      exact hne hD2.symm
    have hhead := List.head_dropWhile_not isZeroDigit (ds.dropWhile isZeroDigit).reverse hRne
    obtain ⟨x, R1, hR⟩ : ∃ x R1, (ds.dropWhile isZeroDigit).reverse.dropWhile isZeroDigit = x :: R1 :=
      List.exists_cons_of_ne_nil hRne
    simp only [hR, List.head_cons] at hhead
    rw [hR, List.reverse_cons] at hD2
    have hx : isDigit x = true := hsub2 x (by rw [← hD2]; simp)
    have := digit_value_pos hx (by simpa using hhead)
    rw [← hD2, valAcc_append]
    show (valAcc 0 R1.reverse * 10 + (x.toNat - '0'.toNat)) % 10 ≠ 0
    omega
  · -- the first digit is not zero
    obtain ⟨y, D3, hD3⟩ := List.exists_cons_of_ne_nil hne
    have hD1ne : ds.dropWhile isZeroDigit ≠ [] := by
      intro h
      rw [h] at hj
      simp at hj
      exact hne hj.1
    have hhead := List.head_dropWhile_not isZeroDigit ds hD1ne
    have hy : (ds.dropWhile isZeroDigit).head hD1ne = y := by
      have : ds.dropWhile isZeroDigit = y :: (D3 ++ List.replicate j '0') := by
        rw [hj, hD3]; rfl
      simp only [this, List.head_cons]
    rw [hy] at hhead
    have hyd : isDigit y = true := hsub2 y (by rw [hD3]; simp)
    have := digit_value_pos hyd (by simpa using hhead)
    rw [hD3]
    show 10 ^ (D3.length + 1 - 1) ≤ valAcc (0 * 10 + (y.toNat - '0'.toNat)) D3
    rw [valAcc_eq, Nat.add_sub_cancel, Nat.zero_mul, Nat.zero_add]
    have : 1 * 10 ^ D3.length ≤ (y.toNat - '0'.toNat) * 10 ^ D3.length :=
      Nat.mul_le_mul_right _ this.1
    omega
  · exact List.length_pos.2 hne

end Strconv

theorem formatFloat_data (f : Float64) :
    (formatFloat f).data =
      if '.' ∈ (Strconv.FormatFloat f).data then (Strconv.FormatFloat f).data
      else (Strconv.FormatFloat f).data ++ ['.', '0'] := by
  unfold formatFloat
  simp only []
  by_cases h : '.' ∈ (Strconv.FormatFloat f).data
  · have hc : (Strconv.FormatFloat f).data.contains '.' = true := by simpa using h
    rw [if_pos h, hc]
    rfl
  · have hc : (Strconv.FormatFloat f).data.contains '.' = false := by simpa using h
    rw [if_neg h, hc]
    rfl

namespace Strconv

theorem point_not_digit {l : List Char} (h : ∀ c ∈ l, isDigit c = true) : '.' ∉ l := by
  intro hm
  have := h '.' hm
  revert this
  decide

/-- Dropping trailing zeros stops at a last digit that is not zero, or at the
point. -/
theorem stripZeros_last : ∀ (fuel c : Nat) (p : ℤ), (-p).toNat ≤ fuel →
    0 ≤ (stripZeros fuel c p).2 ∨ (stripZeros fuel c p).1 % 10 ≠ 0 := by
  intro fuel
  induction fuel with
  | zero =>
    intro c p h
    left
    show 0 ≤ p
    omega
  | succ fuel ih =>
    intro c p h
    rw [stripZeros]
    split_ifs with hc
    · exact ih _ _ (by omega)
    · show 0 ≤ p ∨ c % 10 ≠ 0
      by_cases hp : 0 ≤ p
      · exact Or.inl hp
      · exact Or.inr (fun h0 => hc ⟨by omega, h0⟩)

theorem toDigitsCore_acc (fuel : Nat) : ∀ (n : Nat) (ds : List Char),
    Nat.toDigitsCore 10 fuel n ds = Nat.toDigitsCore 10 fuel n [] ++ ds := by
  induction fuel with
  | zero => intro n ds; rfl
  | succ fuel ih =>
    intro n ds
    simp only [Nat.toDigitsCore]
    split
    · rfl
    · rw [ih _ (_ :: ds), ih _ [_]]
      simp

/-- The digits of a number end with its last digit. -/
theorem toDigits_last (n : Nat) :
    ∃ init : List Char, Nat.toDigits 10 n = init ++ [Nat.digitChar (n % 10)] := by
  rw [Nat.toDigits]
  simp only [Nat.toDigitsCore]
  split
  · exact ⟨[], rfl⟩
  · exact ⟨_, toDigitsCore_acc _ _ _⟩

theorem digitChar_ne_zero (k : Nat) (h0 : k ≠ 0) (hk : k < 10) : Nat.digitChar k ≠ '0' := by
  interval_cases k <;> first | exact absurd rfl h0 | decide

/-- The digits of a positive number do not start with zero. -/
theorem toDigits_head (n : Nat) (hn : 0 < n) : (Nat.toDigits 10 n).head? ≠ some '0' := by
  intro h
  obtain ⟨x, rest, hr⟩ := List.exists_cons_of_ne_nil (toDigits_ne_nil n)
  rw [hr] at h
  simp only [List.head?_cons, Option.some.injEq] at h
  subst h
  have hv := valAcc_toDigits n
  rw [hr] at hv
  have hv2 : valAcc 0 rest = n := hv
  have hd : ∀ c ∈ rest, isDigit c = true := fun c hc =>
    toDigits_isDigit n c (by rw [hr]; exact List.mem_cons_of_mem _ hc)
  have hlt := valAcc_lt rest hd
  rw [hv2] at hlt
  rcases Nat.eq_zero_or_pos rest.length with h0 | h0
  · rw [h0] at hlt
    simp at hlt
    omega
  · have := length_toDigits_le n rest.length hlt h0
    rw [hr] at this
    simp at this

theorem noLeadingZero_toDigits (n : Nat) : noLeadingZero (Nat.toDigits 10 n) := by
  rcases Nat.eq_zero_or_pos n with h | h
  · subst h
    exact Or.inl rfl
  · exact Or.inr (toDigits_head n h)

theorem noTrailingZero_padDigits (k n : Nat) (h : n % 10 ≠ 0) :
    noTrailingZero (padDigits k n) := by
  right
  obtain ⟨init, hi⟩ := toDigits_last n
  unfold padDigits
  simp only []
  rw [hi, ← List.append_assoc, List.getLast?_concat]
  intro hc
  exact digitChar_ne_zero _ h (Nat.mod_lt _ (by decide)) (Option.some.inj hc)

/-- The text of a decimal, with `.0` appended when it has no point, is a numeral
with digits on both sides of the point that stands for the decimal, with no
zero before the integer part, and none after the fraction when the decimal was
given without one. -/
theorem decimalText_numeral (c : Nat) (p : ℤ) :
    ∃ ds fs : List Char, (∀ x ∈ ds, isDigit x = true) ∧ (∀ x ∈ fs, isDigit x = true) ∧
      ds ≠ [] ∧ fs ≠ [] ∧
      (if '.' ∈ decimalText c p then decimalText c p else decimalText c p ++ ['.', '0']) =
        ds ++ '.' :: fs ∧
      ((valAcc 0 (ds ++ fs) : Nat) : ℚ) / ((10 ^ fs.length : Nat) : ℚ) = (c : ℚ) * 10 ^ p ∧
      noLeadingZero ds ∧ ((0 ≤ p ∨ c % 10 ≠ 0) → noTrailingZero fs) := by
  by_cases hp : 0 ≤ p
  · refine ⟨Nat.toDigits 10 (c * 10 ^ p.toNat), ['0'], toDigits_isDigit _, ?_, toDigits_ne_nil _,
      by simp, ?_, ?_, noLeadingZero_toDigits _, fun _ => Or.inl rfl⟩
    · intro x hx
      simp only [List.mem_singleton] at hx
      rw [hx]
      decide
    · unfold decimalText
      rw [if_pos hp, if_neg (point_not_digit (toDigits_isDigit _))]
    · rw [valAcc_append, valAcc_toDigits]
      show (((c * 10 ^ p.toNat * 10 + ('0'.toNat - '0'.toNat) : Nat)) : ℚ) / _ = _
      obtain ⟨n, rfl⟩ : ∃ n : Nat, p = n := ⟨p.toNat, by omega⟩
      simp only [Int.toNat_ofNat, Nat.sub_self, Nat.add_zero, List.length_singleton, pow_one,
        zpow_natCast]
      push_cast
      field_simp
  · have hk : 0 < (-p).toNat := by omega
    have hmod : c % 10 ^ (-p).toNat < 10 ^ (-p).toNat := Nat.mod_lt _ (by positivity)
    refine ⟨Nat.toDigits 10 (c / 10 ^ (-p).toNat), padDigits (-p).toNat (c % 10 ^ (-p).toNat),
      toDigits_isDigit _, padDigits_isDigit _ _, toDigits_ne_nil _, ?_, ?_, ?_,
      noLeadingZero_toDigits _, ?_⟩
    · intro h
      have := length_padDigits (-p).toNat (c % 10 ^ (-p).toNat) hmod hk
      rw [h] at this
      simp at this
      omega
    · unfold decimalText
      rw [if_neg hp, if_pos (by simp)]
      simp
    · rw [valAcc_append, valAcc_eq, valAcc_toDigits, valAcc_padDigits,
        length_padDigits _ _ hmod hk]
      have hc : c / 10 ^ (-p).toNat * 10 ^ (-p).toNat + c % 10 ^ (-p).toNat = c :=
        Nat.div_add_mod' c _
      rw [hc]
      obtain ⟨n, hn⟩ : ∃ n : Nat, p = -(n : ℤ) := ⟨(-p).toNat, by omega⟩
      subst hn
      simp only [neg_neg, Int.toNat_ofNat, zpow_neg, zpow_natCast]
      push_cast
      field_simp
    · intro h
      have hc : c % 10 ≠ 0 := by
        rcases h with h | h
        · exact absurd h hp
        · exact h
      apply noTrailingZero_padDigits
      have hdvd : 10 ∣ 10 ^ (-p).toNat := dvd_pow_self 10 (by omega)
      rw [Nat.mod_mod_of_dvd _ hdvd]
      exact hc

end Strconv

namespace Float64

theorem ofBits_injective {a b : Nat} (h : ofBits false a = ofBits false b) : a = b := by
  have := congrArg key h
  rw [key_ofBits, key_ofBits] at this
  exact_mod_cast this

/-- A quotient that `ofRatio` turns into a finite positive value rounds to its
bit pattern. -/
theorem rounds_of_ofRatio_eq (n d b : Nat) (hd : 0 < d) (hb0 : 0 < b) (hb : b < 2047 * 2 ^ 52)
    (h : ofRatio false n d = ofBits false b) : 0 < n ∧ rounds b ((n : ℚ) / d) := by
  rw [ofRatio_eq] at h
  split_ifs at h with h0 hov
  · have := ofBits_injective (a := 0) h
    omega
  · have := congrArg key h
    rw [key_ofBits, key_inf] at this
    have : (9218868437227405312 : ℤ) = ((9218868437227405312 : Nat) : ℤ) := by norm_num
    omega
  · have e := ofBits_injective h
    have hn : 0 < n := by omega
    refine ⟨hn, ?_⟩
    rw [← e]
    exact rounds_ratioBits n d hn hd

theorem nat_decimal (c j k : Nat) :
    ((c * 10 ^ j : Nat) : ℚ) / ((10 ^ k : Nat) : ℚ) = (c : ℚ) * 10 ^ ((j : ℤ) - (k : ℤ)) := by
  rw [zpow_sub₀ (by norm_num), zpow_natCast, zpow_natCast]
  push_cast
  ring

end Float64

namespace Strconv

theorem not_isDigit_point : isDigit '.' = false := by decide

theorem sigDigits_fraction (ds fs : List Char) (hds : ∀ c ∈ ds, isDigit c = true)
    (hfs : ∀ c ∈ fs, isDigit c = true) : sigDigits (ds ++ '.' :: fs) = sigLen (ds ++ fs) := by
  unfold sigDigits
  rw [List.filter_append, List.filter_cons_of_neg (by simp [not_isDigit_point]),
    List.filter_eq_self.2 hds, List.filter_eq_self.2 hfs]

theorem sigDigits_integer (ds : List Char) (hds : ∀ c ∈ ds, isDigit c = true) :
    sigDigits ds = sigLen ds := by
  unfold sigDigits
  rw [List.filter_eq_self.2 hds]

end Strconv

/-- The text `formatFloat` writes for a finite positive value: a numeral with
digits on both sides of the point and no zero to drop at either end, which
rounds to the value, and which has the fewest significant digits of all the
decimals that do. -/
theorem formatFloat_positive (b : Nat) (hb0 : 0 < b) (hb : b < 2047 * 2 ^ 52) :
    ∃ ds fs : List Char, (∀ x ∈ ds, isDigit x = true) ∧ (∀ x ∈ fs, isDigit x = true) ∧
      ds ≠ [] ∧ fs ≠ [] ∧ (formatFloat (ofBits false b)).data = ds ++ '.' :: fs ∧
      noLeadingZero ds ∧ noTrailingZero fs ∧
      0 < valAcc 0 (ds ++ fs) ∧
      rounds b (((valAcc 0 (ds ++ fs) : Nat) : ℚ) / ((10 ^ fs.length : Nat) : ℚ)) ∧
      ∀ (D2 : List Char) (k2 : Nat), (∀ x ∈ D2, isDigit x = true) →
        ofRatio false (valAcc 0 D2) (10 ^ k2) = ofBits false b →
        sigLen (ds ++ fs) ≤ sigLen D2 := by
  obtain ⟨f1, f2⟩ := ofBits_finite false b hb
  have f3 := isZero_ofBits hb0
  have hF := FormatFloat_finite (ofBits false b) f1 f2 f3 rfl
  obtain ⟨hr, hmax⟩ := shortestDecimal_spec b hb0
  have hsv := stripZeros_value (-(shortestDecimal (ofBits false b)).2).toNat
    (shortestDecimal (ofBits false b)).1 (shortestDecimal (ofBits false b)).2
  have hlast := stripZeros_last (-(shortestDecimal (ofBits false b)).2).toNat
    (shortestDecimal (ofBits false b)).1 (shortestDecimal (ofBits false b)).2 (le_refl _)
  obtain ⟨ds, fs, hds, hfs, hne1, hne2, htext, hval, hlead, htrail⟩ := decimalText_numeral
    (stripZeros (-(shortestDecimal (ofBits false b)).2).toNat
      (shortestDecimal (ofBits false b)).1 (shortestDecimal (ofBits false b)).2).1
    (stripZeros (-(shortestDecimal (ofBits false b)).2).toNat
      (shortestDecimal (ofBits false b)).1 (shortestDecimal (ofBits false b)).2).2
  rw [hsv] at hval
  have hdata : (formatFloat (ofBits false b)).data = ds ++ '.' :: fs := by
    rw [formatFloat_data, hF]
    exact htext
  have hround : rounds b (((valAcc 0 (ds ++ fs) : Nat) : ℚ) / ((10 ^ fs.length : Nat) : ℚ)) := by
    rw [hval]
    exact hr
  have hall : ∀ x ∈ ds ++ fs, isDigit x = true := by
    intro x hx
    rcases List.mem_append.1 hx with h | h
    · exact hds x h
    · exact hfs x h
  have hNpos : 0 < valAcc 0 (ds ++ fs) := by
    rcases Nat.eq_zero_or_pos (valAcc 0 (ds ++ fs)) with h | h
    · rw [h] at hround
      simp only [Nat.cast_zero, zero_div] at hround
      exact absurd hround (not_rounds_zero hb0)
    · exact h
  refine ⟨ds, fs, hds, hfs, hne1, hne2, hdata, hlead, htrail hlast, hNpos, hround, ?_⟩
  intro D2 k2 hD2 hparse
  obtain ⟨hN2, hr2⟩ := rounds_of_ofRatio_eq _ _ b (by positivity) hb0 hb hparse
  obtain ⟨c2, j2, e2, _, _, hc2, _⟩ := sigLen_spec D2 hD2 hN2
  obtain ⟨cr, jr, er, hcr, hLr, _, hLr0⟩ := sigLen_spec (ds ++ fs) hall hNpos
  have hc20 : 0 < c2 := by
    rcases Nat.eq_zero_or_pos c2 with h | h
    · rw [h, Nat.zero_mul] at e2
      omega
    · exact h
  rw [e2, nat_decimal] at hr2
  rw [er, nat_decimal] at hval hround
  exact shortest_count b (shortestDecimal (ofBits false b)).2 (shortestDecimal (ofBits false b)).1
    cr _ _ c2 _ _ hmax hround hval hcr hLr hLr0 hr2 hc2 hc20

theorem formatFloat_appends (v : Float64) :
    (formatFloat v).data = (Strconv.FormatFloat v).data ∨
      ('.' ∉ (Strconv.FormatFloat v).data ∧
        (formatFloat v).data = (Strconv.FormatFloat v).data ++ ['.', '0']) := by
  rw [formatFloat_data]
  by_cases h : '.' ∈ (Strconv.FormatFloat v).data
  · rw [if_pos h]; exact Or.inl rfl
  · rw [if_neg h]; exact Or.inr ⟨h, rfl⟩

theorem string_eq_of_data {s : String} {l : List Char} (h : s.data = l) : s = String.mk l := by
  cases s
  simp only at h
  rw [h]

/-- C11 (amended): for every finite value `v >= 0`, the text of `formatFloat v`
parses back to exactly `v`; it has a point followed by at least one digit; it is
the text of the shortest format, with `.0` appended when that has no point; it
is written with digits on both sides of the point and no zero that could be
dropped (no zero before the integer part, none after the fraction, the single
`0` of either part apart); and it has the fewest significant digits: every
decimal numeral that parses to `v`, with or without a fraction part, has at
least as many digits from its first to its last that is not zero. So `8.0` is
written `8.0`, `8.5` is written `8.5` and `3` is written `3.0`. -/
theorem formatFloat_shortest (v : Float64) (hw : v.wf = true)
    (h0 : Float64.le (Float64.zero false) v = true) (hi : v.isInf = false) :
    Strconv.ParseFloat (formatFloat v) = (v, false) ∧
    (∃ (pre : List Char) (d : Char) (post : List Char),
      (formatFloat v).data = pre ++ '.' :: d :: post ∧ Strconv.isDigit d = true) ∧
    ((formatFloat v).data = (Strconv.FormatFloat v).data ∨
      ('.' ∉ (Strconv.FormatFloat v).data ∧
        (formatFloat v).data = (Strconv.FormatFloat v).data ++ ['.', '0'])) ∧
    (∃ ds fs : List Char, (∀ c ∈ ds, Strconv.isDigit c = true) ∧
      (∀ c ∈ fs, Strconv.isDigit c = true) ∧ ds ≠ [] ∧ fs ≠ [] ∧
      (formatFloat v).data = (if v.sign then ['-'] else []) ++ (ds ++ '.' :: fs) ∧
      Strconv.noLeadingZero ds ∧ Strconv.noTrailingZero fs) ∧
    (∀ ds fs : List Char, (∀ c ∈ ds, Strconv.isDigit c = true) →
      (∀ c ∈ fs, Strconv.isDigit c = true) → ds ≠ [] →
      (Strconv.ParseFloat (String.mk (ds ++ '.' :: fs)) = (v, false) →
        Strconv.sigDigits (formatFloat v).data ≤ Strconv.sigDigits (ds ++ '.' :: fs)) ∧
      (Strconv.ParseFloat (String.mk ds) = (v, false) →
        Strconv.sigDigits (formatFloat v).data ≤ Strconv.sigDigits ds)) ∧
    formatFloat (lit 80 1) = "8.0" ∧ formatFloat (lit 85 1) = "8.5" ∧
    formatFloat (Float64.ofNat 3) = "3.0" := by
  refine ⟨?_, ?_, formatFloat_appends v, ?_, ?_, by decide!, by decide!, by decide!⟩
  all_goals
    obtain ⟨sg, ex, fr⟩ := v
    simp only [wf, Bool.and_eq_true, decide_eq_true_eq] at hw
    obtain ⟨w1, w2⟩ := hw
    unfold Float64.le at h0
    simp only [Bool.and_eq_true, Bool.not_eq_true', decide_eq_true_eq] at h0
    obtain ⟨⟨_, hnan⟩, hkey⟩ := h0
    have hk0 : key (zero false) = 0 := by decide
    rw [hk0] at hkey
    unfold isNaN at hnan
    simp only [Bool.and_eq_false_iff, decide_eq_false_iff_not, not_le, not_not] at hnan
    unfold isInf at hi
    simp only [Bool.and_eq_false_iff, decide_eq_false_iff_not, not_le] at hi
    unfold key at hkey
    simp only at hkey
    have hex : ex < 2047 := by
      rcases hnan with h | h
      · exact h
      · rcases hi with h2 | h2
        · exact h2
        · exact absurd h h2
  · -- the round trip
    cases sg with
    | true =>
      simp only [if_true] at hkey
      have h1 : ((ex * 2 ^ 52 + fr : Nat) : ℤ) = 0 := by omega
      have h2 : ex * 2 ^ 52 + fr = 0 := by exact_mod_cast h1
      have e1 : ex = 0 := by omega
      have e2 : fr = 0 := by omega
      subst e1 e2
      decide!
    | false =>
      rcases Nat.eq_zero_or_pos (ex * 2 ^ 52 + fr) with hb0 | hb0
      · have e1 : ex = 0 := by omega
        have e2 : fr = 0 := by omega
        subst e1 e2
        decide!
      · have hb : ex * 2 ^ 52 + fr < 2047 * 2 ^ 52 := by omega
        have e : (⟨false, ex, fr⟩ : Float64) = ofBits false (ex * 2 ^ 52 + fr) := by
          unfold ofBits
          have e1 : (ex * 2 ^ 52 + fr) / 2 ^ 52 = ex := by omega
          have e2 : (ex * 2 ^ 52 + fr) % 2 ^ 52 = fr := by omega
          rw [e1, e2]
        rw [e]
        obtain ⟨ds, fs, hds, hfs, hne1, _, hdata, _, _, hpos, hround, _⟩ :=
          formatFloat_positive _ hb0 hb
        rw [string_eq_of_data hdata]
        have hp := ParseFloat_fraction false ds fs hds hfs hne1
        simp only [Bool.false_eq_true, if_false, List.nil_append] at hp
        rw [hp, ofRatio_of_rounds false _ _ _ hpos (by positivity) hround hb,
          (ofBits_finite false _ hb).2]
  · -- a point followed by a digit
    cases sg with
    | true =>
      simp only [if_true] at hkey
      have h1 : ((ex * 2 ^ 52 + fr : Nat) : ℤ) = 0 := by omega
      have h2 : ex * 2 ^ 52 + fr = 0 := by exact_mod_cast h1
      have e1 : ex = 0 := by omega
      have e2 : fr = 0 := by omega
      subst e1 e2
      exact ⟨['-', '0'], '0', [], by decide!, by decide⟩
    | false =>
      rcases Nat.eq_zero_or_pos (ex * 2 ^ 52 + fr) with hb0 | hb0
      · have e1 : ex = 0 := by omega
        have e2 : fr = 0 := by omega
        subst e1 e2
        exact ⟨['0'], '0', [], by decide!, by decide⟩
      · have hb : ex * 2 ^ 52 + fr < 2047 * 2 ^ 52 := by omega
        have e : (⟨false, ex, fr⟩ : Float64) = ofBits false (ex * 2 ^ 52 + fr) := by
          unfold ofBits
          have e1 : (ex * 2 ^ 52 + fr) / 2 ^ 52 = ex := by omega
          have e2 : (ex * 2 ^ 52 + fr) % 2 ^ 52 = fr := by omega
          rw [e1, e2]
        rw [e]
        obtain ⟨ds, fs, _, hfs, _, hne2, hdata, _, _, _, _, _⟩ := formatFloat_positive _ hb0 hb
        obtain ⟨d, post, hfs2⟩ := List.exists_cons_of_ne_nil hne2
        subst hfs2
        exact ⟨ds, d, post, hdata, hfs d (List.mem_cons_self _ _)⟩
  · -- digits on both sides of the point, no zero to drop
    cases sg with
    | true =>
      simp only [if_true] at hkey
      have h1 : ((ex * 2 ^ 52 + fr : Nat) : ℤ) = 0 := by omega
      have h2 : ex * 2 ^ 52 + fr = 0 := by exact_mod_cast h1
      have e1 : ex = 0 := by omega
      have e2 : fr = 0 := by omega
      subst e1 e2
      exact ⟨['0'], ['0'], by decide, by decide, by simp, by simp, by decide!, Or.inl rfl,
        Or.inl rfl⟩
    | false =>
      rcases Nat.eq_zero_or_pos (ex * 2 ^ 52 + fr) with hb0 | hb0
      · have e1 : ex = 0 := by omega
        have e2 : fr = 0 := by omega
        subst e1 e2
        exact ⟨['0'], ['0'], by decide, by decide, by simp, by simp, by decide!, Or.inl rfl,
          Or.inl rfl⟩
      · have hb : ex * 2 ^ 52 + fr < 2047 * 2 ^ 52 := by omega
        have e : (⟨false, ex, fr⟩ : Float64) = ofBits false (ex * 2 ^ 52 + fr) := by
          unfold ofBits
          have e1 : (ex * 2 ^ 52 + fr) / 2 ^ 52 = ex := by omega
          have e2 : (ex * 2 ^ 52 + fr) % 2 ^ 52 = fr := by omega
          rw [e1, e2]
        obtain ⟨ds, fs, hds, hfs, hne1, hne2, hdata, hlead, htrail, _, _, _⟩ :=
          formatFloat_positive _ hb0 hb
        rw [← e] at hdata
        exact ⟨ds, fs, hds, hfs, hne1, hne2, hdata, hlead, htrail⟩
  · -- the fewest significant digits
    intro ds2 fs2 hds2 hfs2 hne
    cases sg with
    | true =>
      simp only [if_true] at hkey
      have h1 : ((ex * 2 ^ 52 + fr : Nat) : ℤ) = 0 := by omega
      have h2 : ex * 2 ^ 52 + fr = 0 := by exact_mod_cast h1
      have e1 : ex = 0 := by omega
      have e2 : fr = 0 := by omega
      subst e1 e2
      have hz : Strconv.sigDigits (formatFloat ⟨true, 0, 0⟩).data = 0 := by decide!
      rw [hz]
      exact ⟨fun _ => Nat.zero_le _, fun _ => Nat.zero_le _⟩
    | false =>
      rcases Nat.eq_zero_or_pos (ex * 2 ^ 52 + fr) with hb0 | hb0
      · have e1 : ex = 0 := by omega
        have e2 : fr = 0 := by omega
        subst e1 e2
        have hz : Strconv.sigDigits (formatFloat ⟨false, 0, 0⟩).data = 0 := by decide!
        rw [hz]
        exact ⟨fun _ => Nat.zero_le _, fun _ => Nat.zero_le _⟩
      · have hb : ex * 2 ^ 52 + fr < 2047 * 2 ^ 52 := by omega
        have e : (⟨false, ex, fr⟩ : Float64) = ofBits false (ex * 2 ^ 52 + fr) := by
          unfold ofBits
          have e1 : (ex * 2 ^ 52 + fr) / 2 ^ 52 = ex := by omega
          have e2 : (ex * 2 ^ 52 + fr) % 2 ^ 52 = fr := by omega
          rw [e1, e2]
        rw [e]
        obtain ⟨ds, fs, hds, hfs, _, _, hdata, _, _, _, _, hmin⟩ := formatFloat_positive _ hb0 hb
        rw [hdata, sigDigits_fraction ds fs hds hfs]
        constructor
        · intro hparse
          have hp := ParseFloat_fraction false ds2 fs2 hds2 hfs2 hne
          simp only [Bool.false_eq_true, if_false, List.nil_append] at hp
          rw [hp] at hparse
          have h1 := congrArg Prod.fst hparse
          simp only at h1
          rw [sigDigits_fraction ds2 fs2 hds2 hfs2]
          exact hmin (ds2 ++ fs2) fs2.length
            (fun x hx => by
              rcases List.mem_append.1 hx with h | h
              · exact hds2 x h
              · exact hfs2 x h) h1
        · intro hparse
          have hp := ParseFloat_integer false ds2 hds2 hne
          simp only [Bool.false_eq_true, if_false, List.nil_append] at hp
          rw [hp] at hparse
          have h1 := congrArg Prod.fst hparse
          simp only at h1
          rw [sigDigits_integer ds2 hds2]
          exact hmin ds2 0 hds2 (by rw [pow_zero]; exact h1)

/-- The amended C11 at the value `8.5`. -/
theorem formatFloat_shortest_witness :
    (lit 85 1).wf = true ∧ Float64.le (Float64.zero false) (lit 85 1) = true ∧
    (lit 85 1).isInf = false ∧
    Strconv.ParseFloat (formatFloat (lit 85 1)) = (lit 85 1, false) :=
  ⟨by decide!, by decide!, by decide!,
    (formatFloat_shortest (lit 85 1) (by decide!) (by decide!) (by decide!)).1⟩

/-- C11 as stated fails: the `float64` nearest to `10 ^ 23` is finite and not
below zero, `formatFloat` writes it with 24 digits before the point (one digit
that counts and zeros after it), and the numeral of the 23 digits of its exact
value, which is shorter, parses back to exactly the same value. -/
theorem formatFloat_longer_text :
    (Float64.ofRatio false (10 ^ 23) 1).wf = true ∧
    Float64.le (Float64.zero false) (Float64.ofRatio false (10 ^ 23) 1) = true ∧
    (Float64.ofRatio false (10 ^ 23) 1).isInf = false ∧
    formatFloat (Float64.ofRatio false (10 ^ 23) 1) = "100000000000000000000000.0" ∧
    Strconv.FormatFloat (Float64.ofRatio false (10 ^ 23) 1) = "100000000000000000000000" ∧
    Strconv.ParseFloat "99999999999999991611392" =
      (Float64.ofRatio false (10 ^ 23) 1, false) ∧
    "99999999999999991611392".length < "100000000000000000000000".length := by
  decide!

end PriceEditor
